import Mathlib

/-!
A shallow embedding of the segregated-fits memory allocator in
`mm.c` (explicit free lists: circular doubly linked lists with one dummy
head per size class, boundary-tag coalescing, first-fit search escalating
through size classes).

Modelling choices, all taken from the source:
* The 64-bit build is modelled: `WSIZE = sizeof(void *) = 8`,
  `DSIZE = 16`, `ALIGN_SIZE = 8`, `CHUNKSIZE = 4096`.  All sizes and
  addresses are in bytes; every store the C code performs is word sized
  and word aligned, so memory is a map from (word-aligned) byte
  addresses to word values.
* `mem_sbrk` hands out memory from address 0 upward and never fails
  until asked to: operations take an `ok : Bool` oracle for whether a
  heap extension request is granted.  On the layout side this puts the
  15-entry dummy-head array (`free_listp`, 16 bytes per `struct
  seg_list`) at addresses [0, 240), the prologue header/footer at
  240/248, the initial epilogue header at 256 and the first block
  payload at 264, exactly as the three `mem_sbrk` calls of `mm_init`
  produce.
* The heap is represented by the ordered list of blocks strictly
  between prologue and epilogue (`blocks`), each block being its size
  and allocated bit; the prologue and epilogue are allocated boundary
  tags and are treated as such where the code inspects neighbours.
  The bucket lists (`buckets j`) hold the payload addresses of the
  free blocks of class `j` in traversal order from `dummy.next`
  (insert_circular splices a node in just before the dummy, i.e. at
  the tail of that order).  The raw word memory (`mem`) receives every
  `PUT`, every link-field store of `insert_circular`/`remove_circular`
  and the `memcpy` of `mm_realloc`, so byte-content claims can be
  stated against it.
* `size_t` arithmetic is modelled on `Nat`; no value in a reachable
  heap approaches `2 ^ 64`, and the `unsigned int` truncation at the
  `find_list_head` call site is invisible below `2 ^ 32`.
-/

/-- `WSIZE`: word, header and footer size in bytes (64-bit build). -/
def WSIZE : Nat := 8

/-- `DSIZE`: double word size in bytes. -/
def DSIZE : Nat := 16

/-- `ALIGN_SIZE`: the alignment unit the allocator rounds all block sizes to. -/
def ALIGN_SIZE : Nat := 8

/-- `CHUNKSIZE`: default heap extension in bytes. -/
def CHUNKSIZE : Nat := 4096

/-- `MAX_SIZE`: number of segregated free lists (set in `mm_init`). -/
def MAX_SIZE : Nat := 15

/-- `PACK(size, alloc)`: pack a size and an allocated bit into one word. -/
def PACK (size alloc : Nat) : Nat := size ||| alloc

/-- Address of the dummy head (`&free_listp[j]`) of bucket `j`.  The
`next` field is at offset 0, the `prev` field at offset `WSIZE`. -/
def dummyAddr (j : Nat) : Nat := 16 * j

/-- Payload address of the first heap block: the dummy array occupies
[0, 240), the prologue words and initial epilogue occupy [240, 264). -/
def heapBase : Nat := 264

/-- One block of the heap: its (header) size in bytes and allocated bit. -/
structure Blk where
  size : Nat
  alloc : Bool
deriving DecidableEq, Repr

/-- The allocator state: the blocks strictly between prologue and
epilogue in address order, the bucket lists (payload addresses, in
traversal order from `dummy.next`), and the raw word memory. -/
structure AState where
  blocks : List Blk
  buckets : Nat → List Nat
  mem : Nat → Nat

/-- Total byte size of a list of blocks. -/
def sumSz (bs : List Blk) : Nat := (bs.map Blk.size).sum

/-- Payload address of the `i`-th block. -/
def addrAt (bs : List Blk) (i : Nat) : Nat := heapBase + sumSz (bs.take i)

/-- One past the last heap address (`mem_brk`); the epilogue header
occupies the word just below it. -/
def heapEnd (s : AState) : Nat := heapBase + sumSz s.blocks

/-- The block at index `i` (defaulting to an allocated size-0 tag,
which is what the boundary words look like). -/
def blkAt (bs : List Blk) (i : Nat) : Blk := bs.getD i ⟨0, true⟩

/-- Find the index of the block whose payload address is `a`, scanning
from address `cur` — the address arithmetic of `NEXT_BLKP`. -/
def idxFrom : List Blk → Nat → Nat → Option Nat
  | [], _, _ => none
  | b :: bs, cur, a => if cur = a then some 0 else (idxFrom bs (cur + b.size) a).map (· + 1)

/-- Index of the block with payload address `a`. -/
def idxOf (bs : List Blk) (a : Nat) : Option Nat := idxFrom bs heapBase a

/-- `GET_SIZE(HDRP(a))` for a payload address `a`: the size recorded
in the boundary tag of the block at `a` (0 when `a` is not a block's
payload address: no reachable operation performs such a read). -/
def sizeAtD (s : AState) (a : Nat) : Nat :=
  match idxOf s.blocks a with
  | some i => (blkAt s.blocks i).size
  | none => 0

/-- Whether `a` is the payload address of an allocated block. -/
def isValidAllocB (s : AState) (a : Nat) : Bool :=
  match idxOf s.blocks a with
  | some i => (blkAt s.blocks i).alloc
  | none => false

/-- `find_list_head(size)`: the bucket index for a block size, chosen
by ascending power-of-two thresholds (mm.c lines 626-659). -/
def find_list_head (size : Nat) : Nat :=
  if size < 2 then 0
  else if size < 4 then 1
  else if size < 8 then 2
  else if size < 16 then 3
  else if size < 32 then 4
  else if size < 64 then 5
  else if size < 128 then 6
  else if size < 256 then 7
  else if size < 512 then 8
  else if size < 1024 then 9
  else if size < 2048 then 10
  else if size < 4096 then 11
  else if size < 8192 then 12
  else if size < 16384 then 13
  else 14

/-- The adjusted block size of `mm_malloc` (lines 166-169) — the same
formula appears verbatim in `mm_realloc` (lines 231-236). -/
def asizeOf (size : Nat) : Nat :=
  if size ≤ DSIZE then DSIZE * 2
  else ALIGN_SIZE * ((size + DSIZE + (ALIGN_SIZE - 1)) / ALIGN_SIZE)

/-- Remove `block` from whichever bucket list holds it (the list
restructuring effect of `remove_circular`). -/
def bkRemove (bk : Nat → List Nat) (x : Nat) : Nat → List Nat :=
  fun j => (bk j).erase x

/-- Append `block` at the tail of bucket `j₀`'s traversal order (the
list restructuring effect of `insert_circular`, which splices the node
in just before the dummy head). -/
def bkInsert (bk : Nat → List Nat) (j₀ : Nat) (b : Nat) : Nat → List Nat :=
  fun j => if j = j₀ then bk j ++ [b] else bk j

/-- A single word store. -/
def putw (m : Nat → Nat) (p v : Nat) : Nat → Nat :=
  fun x => if x = p then v else m x

/-- Perform a list of word stores left to right. -/
def applyWrites (m : Nat → Nat) : List (Nat × Nat) → Nat → Nat
  | [] => m
  | (p, v) :: ws => applyWrites (putw m p v) ws

/-- Locate `x` in the bucket array: the bucket index and the position
within that bucket's traversal order. -/
def posScan (bk : Nat → List Nat) (x : Nat) : List Nat → Option (Nat × Nat)
  | [] => none
  | j :: rest =>
    match (bk j).findIdx? (fun y => y == x) with
    | some p => some (j, p)
    | none => posScan bk x rest

/-- Bucket index and position of a linked block. -/
def posInBuckets (bk : Nat → List Nat) (x : Nat) : Option (Nat × Nat) :=
  posScan bk x (List.range MAX_SIZE)

/-- The four link-field stores of `remove_circular(x)` (lines 586-599):
`x->prev->next = x->next; x->next->prev = x->prev; x->next = NULL;
x->prev = NULL`.  The neighbours in the circular list are read off the
bucket structure: position 0's predecessor and the tail's successor are
the dummy head. -/
def removeWrites (bk : Nat → List Nat) (x : Nat) : List (Nat × Nat) :=
  match posInBuckets bk x with
  | none => []
  | some (j, p) =>
    let L := bk j
    let prevNode := if p = 0 then dummyAddr j else L.getD (p - 1) 0
    let nextNode := if p + 1 = L.length then dummyAddr j else L.getD (p + 1) 0
    [(prevNode, nextNode), (nextNode + WSIZE, prevNode), (x, 0), (x + WSIZE, 0)]

/-- The four link-field stores of `insert_circular(b, dummy_j)` (lines
609-617): `b->prev = dummy->prev; b->next = dummy;
dummy->prev->next = b; dummy->prev = b`.  `dummy->prev` is the tail of
the traversal order (the dummy itself when the list is empty). -/
def insertWrites (bk : Nat → List Nat) (j : Nat) (b : Nat) : List (Nat × Nat) :=
  let tailA := (bk j).getLast?.getD (dummyAddr j)
  [(b + WSIZE, tailA), (b, dummyAddr j), (tailA, b), (dummyAddr j + WSIZE, b)]

/-- One bucket scan of `find_fit`'s inner loop: the first member whose
size is at least `asize`, in traversal order from `dummy.next`. -/
def ffScan (s : AState) (asize : Nat) : List Nat → Option Nat
  | [] => none
  | j :: rest =>
    match (s.buckets j).find? (fun a => decide (asize ≤ sizeAtD s a)) with
    | some a => some a
    | none => ffScan s asize rest

/-- `find_fit(asize)` (lines 397-430): compute the size class, apply
the `head++` "optimization" (skipping the class itself unless it is the
last class), then scan the remaining classes in ascending order. -/
def find_fit (s : AState) (asize : Nat) : Option Nat :=
  let head := find_list_head asize
  let start := if head + 1 ≠ MAX_SIZE then head + 1 else head
  ffScan s asize (List.range' start (MAX_SIZE - start))

/-- `place(bp, asize)` (lines 441-473): unlink the block, split when
the remainder is at least `2 * DSIZE`, otherwise allocate it whole.
All boundary-tag stores are mirrored into `mem`. -/
def place (s : AState) (a : Nat) (asize : Nat) : AState :=
  match idxOf s.blocks a with
  | none => s
  | some i =>
    let csize := (blkAt s.blocks i).size
    let bk1 := bkRemove s.buckets a
    let m1 := applyWrites s.mem (removeWrites s.buckets a)
    if 2 * DSIZE ≤ csize - asize then
      let j := find_list_head (csize - asize)
      let m2 := applyWrites m1
        [(a - WSIZE, PACK asize 1), (a + asize - DSIZE, PACK asize 1),
         (a + asize - WSIZE, PACK (csize - asize) 0),
         (a + csize - DSIZE, PACK (csize - asize) 0)]
      { blocks := s.blocks.take i ++ ⟨asize, true⟩ :: ⟨csize - asize, false⟩ :: s.blocks.drop (i + 1),
        buckets := bkInsert bk1 j (a + asize),
        mem := applyWrites m2 (insertWrites bk1 j (a + asize)) }
    else
      { blocks := s.blocks.set i ⟨csize, true⟩,
        buckets := bk1,
        mem := applyWrites m1 [(a - WSIZE, PACK csize 1), (a + csize - DSIZE, PACK csize 1)] }

/-- `coalesce(bp)` (lines 280-358) for the block at index `i`, whose
tags are already marked free.  The four cases inspect the allocated
bits of the physical neighbours (the prologue/epilogue boundary tags
count as allocated), unlink absorbed neighbours, rewrite the merged
boundary tags and insert the merged block into the bucket matching its
new size.  Returns the new state and the (possibly moved) payload
address. -/
def coalesce (s : AState) (i : Nat) : AState × Nat :=
  let bs := s.blocks
  let a := addrAt bs i
  let sz := (blkAt bs i).size
  let prevAl := if i = 0 then true else (blkAt bs (i - 1)).alloc
  let nextAl := if i + 1 = bs.length then true else (blkAt bs (i + 1)).alloc
  if prevAl && nextAl then
    let j := find_list_head sz
    ({ blocks := bs,
       buckets := bkInsert s.buckets j a,
       mem := applyWrites s.mem (insertWrites s.buckets j a) }, a)
  else if prevAl && !nextAl then
    let an := addrAt bs (i + 1)
    let ns := sz + (blkAt bs (i + 1)).size
    let bk1 := bkRemove s.buckets an
    let m1 := applyWrites s.mem (removeWrites s.buckets an)
    let m2 := applyWrites m1 [(a - WSIZE, PACK ns 0), (a + ns - DSIZE, PACK ns 0)]
    let j := find_list_head ns
    ({ blocks := bs.take i ++ ⟨ns, false⟩ :: bs.drop (i + 2),
       buckets := bkInsert bk1 j a,
       mem := applyWrites m2 (insertWrites bk1 j a) }, a)
  else if !prevAl && nextAl then
    let ap := addrAt bs (i - 1)
    let ns := sz + (blkAt bs (i - 1)).size
    let bk1 := bkRemove s.buckets ap
    let m1 := applyWrites s.mem (removeWrites s.buckets ap)
    let m2 := applyWrites m1 [(a + sz - DSIZE, PACK ns 0), (ap - WSIZE, PACK ns 0)]
    let j := find_list_head ns
    ({ blocks := bs.take (i - 1) ++ ⟨ns, false⟩ :: bs.drop (i + 1),
       buckets := bkInsert bk1 j ap,
       mem := applyWrites m2 (insertWrites bk1 j ap) }, ap)
  else
    let ap := addrAt bs (i - 1)
    let an := addrAt bs (i + 1)
    let szn := (blkAt bs (i + 1)).size
    let ns := sz + (blkAt bs (i - 1)).size + szn
    let bk1 := bkRemove s.buckets ap
    let m1 := applyWrites s.mem (removeWrites s.buckets ap)
    let bk2 := bkRemove bk1 an
    let m2 := applyWrites m1 (removeWrites bk1 an)
    let m3 := applyWrites m2 [(ap - WSIZE, PACK ns 0), (an + szn - DSIZE, PACK ns 0)]
    let j := find_list_head ns
    ({ blocks := bs.take (i - 1) ++ ⟨ns, false⟩ :: bs.drop (i + 2),
       buckets := bkInsert bk2 j ap,
       mem := applyWrites m3 (insertWrites bk2 j ap) }, ap)

/-- `mm_free(bp)` (lines 193-208): a null pointer is a no-op; otherwise
clear the allocated bit in header and footer and coalesce. -/
def mm_free (s : AState) (p : Option Nat) : AState :=
  match p with
  | none => s
  | some a =>
    match idxOf s.blocks a with
    | none => s
    | some i =>
      let sz := (blkAt s.blocks i).size
      (coalesce
        { blocks := s.blocks.set i ⟨sz, false⟩,
          buckets := s.buckets,
          mem := applyWrites s.mem [(a - WSIZE, PACK sz 0), (a + sz - DSIZE, PACK sz 0)] } i).1

/-- `extend_heap(words)` (lines 367-387): round the word count up to
even, grow the heap (`ok` says whether `mem_sbrk` grants it), write the
new free block's tags over the old epilogue, write the new epilogue,
and coalesce with a free predecessor. -/
def extend_heap (s : AState) (words : Nat) (ok : Bool) : AState × Option Nat :=
  if ok then
    let size := if words % 2 = 1 then (words + 1) * WSIZE else words * WSIZE
    let bp := heapEnd s
    let s1 : AState :=
      { blocks := s.blocks ++ [⟨size, false⟩],
        buckets := s.buckets,
        mem := applyWrites s.mem
          [(bp - WSIZE, PACK size 0), (bp + size - DSIZE, PACK size 0),
           (bp + size - WSIZE, PACK 0 1)] }
    let r := coalesce s1 s.blocks.length
    (r.1, some r.2)
  else (s, none)

/-- `mm_malloc(size)` (lines 153-184): zero is a no-op returning null;
otherwise adjust the size, search the free lists, and on failure extend
the heap by `max(asize, CHUNKSIZE)` before placing. -/
def mm_malloc (s : AState) (n : Nat) (ok : Bool) : AState × Option Nat :=
  if n = 0 then (s, none)
  else
    let asize := asizeOf n
    match find_fit s asize with
    | some bp => (place s bp asize, some bp)
    | none =>
      let extendsize := max asize CHUNKSIZE
      match extend_heap s (extendsize / WSIZE) ok with
      | (s1, some bp) => (place s1 bp asize, some bp)
      | (s1, none) => (s1, none)

/-- The `memcpy(newptr, ptr, oldsize)` of `mm_realloc`: copy
`bytes / WSIZE` words from `src` to `dst` (the two regions never
overlap when called from `mm_realloc`). -/
def memcpyWords (s : AState) (dst src bytes : Nat) : AState :=
  let ws := (List.range (bytes / WSIZE)).map (fun k => (dst + WSIZE * k, s.mem (src + WSIZE * k)))
  { s with mem := applyWrites s.mem ws }

/-- `mm_realloc(ptr, size)` (lines 223-266): `newsize` is computed by
the same formula as `mm_malloc`'s adjustment, `oldsize` is read from
`ptr`'s header *before* the null check (for `ptr == NULL` that read
targets `HDRP(NULL)`, see `realloc_oldsizeAddr`).  Size 0 frees;
null behaves as malloc; a strictly smaller `newsize` returns `ptr`
unchanged; otherwise allocate `2 * size`, copy `oldsize` bytes, then
free the old block. -/
def mm_realloc (s : AState) (p : Option Nat) (n : Nat) (ok : Bool) : AState × Option Nat :=
  let oldsize := sizeAtD s (p.getD 0)
  if n = 0 then (mm_free s p, none)
  else
    match p with
    | none => mm_malloc s n ok
    | some a =>
      if asizeOf n < oldsize then (s, some a)
      else
        match mm_malloc s (2 * n) ok with
        | (s1, none) => (s1, none)
        | (s1, some r) => (mm_free (memcpyWords s1 r a oldsize) (some a), some r)

/-- The address whose word `mm_realloc` reads at line 237
(`oldsize = GET_SIZE(HDRP(ptr))`), evaluated before the `ptr == NULL`
check: `HDRP(ptr) = ptr - WSIZE` as a signed address. -/
def realloc_oldsizeAddr (p : Option Nat) : Int :=
  (match p with
   | none => (0 : Int)
   | some a => (a : Int)) - (WSIZE : Int)

/-- The stores of `mm_init` before the first `extend_heap`: every dummy
head made self-looped, then prologue header/footer and epilogue. -/
def initWrites : List (Nat × Nat) :=
  ((List.range MAX_SIZE).flatMap fun j => [(dummyAddr j, dummyAddr j), (dummyAddr j + WSIZE, dummyAddr j)]) ++
    [(240, PACK DSIZE 1), (248, PACK DSIZE 1), (256, PACK 0 1)]

/-- The state just before `mm_init`'s call to `extend_heap`. -/
def preInitState : AState :=
  { blocks := [], buckets := fun _ => [], mem := applyWrites (fun _ => 0) initWrites }

/-- The heap immediately after a successful `mm_init` (lines 109-142):
one free block of `CHUNKSIZE` bytes, linked in its bucket. -/
def initState : AState := (extend_heap preInitState (CHUNKSIZE / WSIZE) true).1

section CheckHeap

/-- `GET_SIZE` read from raw memory: mask off the low three bits. -/
def GET_SIZE_m (m : Nat → Nat) (p : Nat) : Nat := m p - m p % ALIGN_SIZE

/-- `GET_ALLOC` read from raw memory: the lowest bit. -/
def GET_ALLOC_m (m : Nat → Nat) (p : Nat) : Nat := m p % 2

/-- `heap_listp` after `mm_init`: the prologue's payload address. -/
def heap_listp : Nat := 248

/-- The (payload address, block) pairs visited by `checkheap`'s
prologue-to-epilogue walk: the prologue itself, then every block. -/
def walkItems (s : AState) : List (Nat × Blk) :=
  (heap_listp, ⟨DSIZE, true⟩) ::
    (List.range s.blocks.length).map (fun i => (addrAt s.blocks i, blkAt s.blocks i))

/-- `NEXT_BLKP`: step the walk cursor by the block's size. -/
def walkNext (bp : Nat) (b : Blk) : Nat := bp + b.size

/-- The value of `checkheap`'s cursor `bp` when its walk loop exits:
start at `heap_listp`, step over the prologue and every block. -/
def chCursor (s : AState) : Nat := s.blocks.foldl walkNext (walkNext heap_listp ⟨DSIZE, true⟩)

/-- `checkblock(bp)` (lines 486-494): alignment of the payload address
and header/footer agreement, as diagnostics. -/
def checkblockDiags (s : AState) (bp : Nat) : List String :=
  (if bp % ALIGN_SIZE ≠ 0 then [toString bp ++ " is not doubleword aligned"] else []) ++
    (if s.mem (bp - WSIZE) ≠ s.mem (bp + GET_SIZE_m s.mem (bp - WSIZE) - DSIZE)
     then ["header does not match footer"] else [])

/-- The in-walk pointer diagnostic of `checkheap` (lines 520-522):
`GET_ALLOC(bp) > GET_SIZE(heap_listp)` — both reads are at payload
addresses, not header addresses, exactly as in the source. -/
def loopPtrDiag (s : AState) (bp : Nat) : List String :=
  if GET_SIZE_m s.mem heap_listp < GET_ALLOC_m s.mem bp
  then ["Pointer points to an invalid address."] else []

/-- The message `printblock(bp)` prints for itself (lines 561-574). -/
def pbMsg (s : AState) (bp : Nat) : String :=
  if GET_SIZE_m s.mem (bp - WSIZE) = 0 then toString bp ++ ": end of heap"
  else toString bp ++ ": header and footer"

/-- The free-list validation phase of `checkheap` (lines 531-544): for
every member of every bucket, test `GET_ALLOC(bp)` — note `bp`, the
walk cursor, not `block` — and emit the diagnostic when it is set. -/
def flMsgs (s : AState) (bp : Nat) : List String :=
  (List.range MAX_SIZE).flatMap fun i =>
    (s.buckets i).flatMap fun block =>
      if GET_ALLOC_m s.mem bp = 1
      then ["Block " ++ toString block ++ " allocated, remove from free list."] else []

/-- The prologue diagnostics of `checkheap` (lines 510-513). -/
def prologueDiags (s : AState) : List String :=
  (if GET_SIZE_m s.mem (heap_listp - WSIZE) ≠ DSIZE ∨ GET_ALLOC_m s.mem (heap_listp - WSIZE) = 0
   then ["Bad prologue header"] else []) ++ checkblockDiags s heap_listp

/-- The epilogue diagnostic of `checkheap` (lines 528-529). -/
def epilogueDiags (s : AState) : List String :=
  if GET_SIZE_m s.mem (chCursor s - WSIZE) ≠ 0 ∨ GET_ALLOC_m s.mem (chCursor s - WSIZE) = 0
  then ["Bad epilogue header"] else []

/-- `checkheap(verbose)` (lines 503-545) with an explicit call-depth
fuel, `none` meaning the fuel ran out.  In verbose mode each visited
block is passed to `printblock`, and `printblock` (lines 554-575)
begins by calling `checkheap(true)` again — the source's mutual
recursion, inlined here: the sub-report `sub` is that nested call's
result.  The walk diagnostics, the epilogue check and the free-list
phase follow the source line by line; the free-list phase tests the
word at the stale cursor `chCursor s`. -/
def chRun : Nat → Bool → AState → Option (List String)
  | 0, _, _ => none
  | f + 1, v, s =>
    let pb : Nat → Option (List String) := fun bp =>
      if v then (chRun f true s).map (fun d => d ++ [pbMsg s bp]) else some []
    let step : Option (List String) → Nat × Blk → Option (List String) := fun acc it =>
      match acc with
      | none => none
      | some ds =>
        match pb it.1 with
        | none => none
        | some pd => some (ds ++ pd ++ checkblockDiags s it.1 ++ loopPtrDiag s it.1)
    match (walkItems s).foldl step (some (prologueDiags s)) with
    | none => none
    | some ds =>
      match pb (chCursor s) with
      | none => none
      | some pd => some (ds ++ pd ++ epilogueDiags s ++ flMsgs s (chCursor s))

end CheckHeap

/-- `ptr` argument validity as documented for `mm_free`/`mm_realloc`:
either null or the payload address of an allocated block. -/
def validPtr (s : AState) (p : Option Nat) : Prop :=
  match p with
  | none => True
  | some a => isValidAllocB s a = true

/-- The heap states reachable through the allocator's public
operations, starting from a successful `mm_init`; `ok` oracles record
whether each `mem_sbrk` request is granted. -/
inductive Reachable : AState → Prop
  | init : Reachable initState
  | mallocStep (s : AState) (n : Nat) (ok : Bool) :
      Reachable s → Reachable (mm_malloc s n ok).1
  | freeStep (s : AState) (p : Option Nat) :
      Reachable s → validPtr s p → Reachable (mm_free s p)
  | reallocStep (s : AState) (p : Option Nat) (n : Nat) (ok : Bool) :
      Reachable s → validPtr s p → Reachable (mm_realloc s p n ok).1

/-- No two physically adjacent blocks of the prologue-to-epilogue scan
are both free. -/
def NoAdjFree (bs : List Blk) : Prop :=
  List.Chain' (fun x y => x.alloc = true ∨ y.alloc = true) bs

/-- The blocks of a heap paired with their payload addresses, scanning
from address `cur`: `(a, b) ∈ addrList bs heapBase` says the heap `bs`
has a block at payload address `a` with boundary tag `b`. -/
def addrList : List Blk → Nat → List (Nat × Blk)
  | [], _ => []
  | b :: bs, cur => (cur, b) :: addrList bs (cur + b.size)

/-- Total number of occurrences of address `a` across all bucket lists. -/
def countF (bk : Nat → List Nat) (a : Nat) : Nat :=
  ((List.range MAX_SIZE).map fun j => (bk j).count a).sum

/-- Total number of occurrences of address `a` across a state's buckets. -/
def countB (s : AState) (a : Nat) : Nat := countF s.buckets a

/-- The heap/free-list consistency invariant the operations maintain:
block sizes are aligned and at least the minimum block size, no two
adjacent blocks are both free, every bucket member is the payload
address of a free block whose size classifies into that bucket, and
every free block is linked exactly once over all buckets. -/
structure HeapInv (s : AState) : Prop where
  sz8 : ∀ b ∈ s.blocks, ALIGN_SIZE ∣ b.size
  szmin : ∀ b ∈ s.blocks, 2 * DSIZE ≤ b.size
  noadj : NoAdjFree s.blocks
  bdom : ∀ j a, a ∈ s.buckets j → j < MAX_SIZE ∧ ∃ b : Blk,
    (a, b) ∈ addrList s.blocks heapBase ∧ b.alloc = false ∧ find_list_head b.size = j
  cnt1 : ∀ a b, (a, b) ∈ addrList s.blocks heapBase → b.alloc = false → countB s a = 1

/-- A declarative description of the search `find_fit` actually
performs: starting at class `min(classify(asize) + 1, MAX_SIZE - 1)` —
the `head++` step skips the request's own class unless it is the last
one — concatenate the fitting members of each class in ascending class
order (each class in traversal order) and take the first. -/
def find_fit_desc (s : AState) (asize : Nat) : Option Nat :=
  let start := min (find_list_head asize + 1) (MAX_SIZE - 1)
  (((List.range' start (MAX_SIZE - start)).flatMap
      fun j => (s.buckets j).filter fun a => decide (asize ≤ sizeAtD s a))).head?

/-- Two memories agree on the half-open address interval `[lo, hi)`. -/
def memAgreeOn (m m' : Nat → Nat) (lo hi : Nat) : Prop :=
  ∀ w, lo ≤ w → w < hi → m' w = m w

/-- Scenario: `mm_init` then `mm_malloc(1)` — one minimum-size
allocated block at 264, free remainder of 4064 bytes at 296. -/
def sA : AState := (mm_malloc initState 1 true).1

/-- Scenario: `mm_init` then `mm_malloc(100)` — an allocated block of
120 bytes at 264, free remainder at 384. -/
def sB : AState := (mm_malloc initState 100 true).1

/-- Scenario: `mm_init`; `mm_malloc(24)` twice (blocks at 264 and
304, 40 bytes each); `mm_free(264)`.  The freed 40-byte block sits in
bucket `find_list_head 40 = 5`; the 4016-byte tail block sits in
bucket 11. -/
def sC3 : AState := mm_free (mm_malloc (mm_malloc initState 24 true).1 24 true).1 (some 264)

/-- Scenario: `mm_init` then `mm_malloc(4000)` — an allocated block of
4016 bytes at 264 and a free 80-byte block; no free block can satisfy
an adjusted request of 8016 bytes, so a further allocation must extend
the heap. -/
def sOOM : AState := (mm_malloc initState 4000 true).1

/-- Scenario: `mm_realloc(264, 100)` on `sA` — grows the 32-byte block,
internally allocating `mm_malloc(200)` which carves the *adjacent* free
block, so the final word of the `memcpy` source (the successor's
header) has already been rewritten when it is copied. -/
def sR5 : AState × Option Nat := mm_realloc sA (some 264) 100 true

/-! ### Basic lemmas -/

theorem ite_le_nat (c : Prop) [Decidable c] (a b k : Nat) (ha : a ≤ k) (hb : b ≤ k) :
    (if c then a else b) ≤ k := by
  split
  · exact ha
  · exact hb

theorem find_list_head_le (n : Nat) : find_list_head n ≤ 14 :=
  ite_le_nat _ _ _ _ (by omega)
    (ite_le_nat _ _ _ _ (by omega)
      (ite_le_nat _ _ _ _ (by omega)
        (ite_le_nat _ _ _ _ (by omega)
          (ite_le_nat _ _ _ _ (by omega)
            (ite_le_nat _ _ _ _ (by omega)
              (ite_le_nat _ _ _ _ (by omega)
                (ite_le_nat _ _ _ _ (by omega)
                  (ite_le_nat _ _ _ _ (by omega)
                    (ite_le_nat _ _ _ _ (by omega)
                      (ite_le_nat _ _ _ _ (by omega)
                        (ite_le_nat _ _ _ _ (by omega)
                          (ite_le_nat _ _ _ _ (by omega)
                            (ite_le_nat _ _ _ _ (by omega)
                              (by omega))))))))))))))

theorem find?_eq_head?_filterL {α : Type} (p : α → Bool) (l : List α) :
    l.find? p = (l.filter p).head? := by
  induction l with
  | nil => rfl
  | cons a t ih =>
    cases h : p a with
    | true => rw [List.find?_cons_of_pos _ h, List.filter_cons_of_pos h, List.head?_cons]
    | false =>
      rw [List.find?_cons_of_neg _ (by simp [h]), List.filter_cons_of_neg (by simp [h]), ih]

theorem ffScan_eq_head (s : AState) (asize : Nat) (js : List Nat) :
    ffScan s asize js =
      (js.flatMap fun j =>
        (s.buckets j).filter fun a => decide (asize ≤ sizeAtD s a)).head? := by
  induction js with
  | nil => rfl
  | cons j rest ih =>
    show (match (s.buckets j).find? (fun a => decide (asize ≤ sizeAtD s a)) with
      | some a => some a
      | none => ffScan s asize rest) = _
    rw [find?_eq_head?_filterL, List.flatMap_cons, List.head?_append]
    cases hf : ((s.buckets j).filter fun a => decide (asize ≤ sizeAtD s a)).head? with
    | none => simpa using ih
    | some b => simp

theorem foldl_step_none {α β : Type} (g : Option β → α → Option β)
    (hg : ∀ x, g none x = none) (l : List α) : l.foldl g none = none := by
  induction l with
  | nil => rfl
  | cons x t ih => simp [List.foldl_cons, hg, ih]

theorem foldl_walkNext (bs : List Blk) : ∀ c : Nat, bs.foldl walkNext c = c + sumSz bs := by
  induction bs with
  | nil => intro c; simp [sumSz]
  | cons b t ih =>
    intro c
    simp only [List.foldl_cons, walkNext, ih, sumSz, List.map_cons, List.sum_cons]
    omega

theorem chCursor_eq_heapEnd (s : AState) : chCursor s = heapEnd s := by
  unfold chCursor heapEnd
  rw [foldl_walkNext]
  rfl

/-! ### C3: find_fit search order -/

/-- C3 (counterexample): in the reachable state `sC3` the request's own
class `find_list_head 40 = 5` holds the fitting free block 264 (size
40), yet `find_fit` returns the block 344 from class 11: the scan never
visits the request's own class, refuting "first scans the list of the
class classify(size) itself, returning the first member there whose
size is at least the request". -/
theorem find_fit_skips_own_class_cex :
    sC3.buckets (find_list_head 40) = [264] ∧ 40 ≤ sizeAtD sC3 264 ∧
      find_fit sC3 40 = some 344 ∧ find_fit sC3 40 ≠ some 264 := by
  refine ⟨?_, ?_, ?_, ?_⟩ <;> decide

/-- C3 (amended): for every adjusted request size, `find_fit` starts at
class `min(classify(size) + 1, MAX_SIZE - 1)` — skipping the class
`classify(size)` itself unless it is the last class — and scans the
classes from there in ascending order, each fully in traversal order,
returning the first member whose size is at least the request, or none
when those classes are exhausted. -/
theorem find_fit_escalation_characterization (s : AState) (asize : Nat) :
    find_fit s asize = find_fit_desc s asize := by
  have h14 := find_list_head_le asize
  have hs : (if find_list_head asize + 1 ≠ MAX_SIZE then find_list_head asize + 1
      else find_list_head asize) = min (find_list_head asize + 1) (MAX_SIZE - 1) := by
    unfold MAX_SIZE
    split <;> omega
  unfold find_fit find_fit_desc
  simp only [hs, ffScan_eq_head]

/-! ### C4: in-place resize condition -/

/-- C4 (counterexample): in the reachable state `sA` the block at 264
is allocated with size 32; `mm_realloc(264, 1)` has adjusted size
32 ≤ 32, so the claim demands `ptr` back unchanged with no heap
mutation — but the code's test is strict (`newsize < oldsize`), so it
allocates a new block, returns 296, and mutates the heap. -/
theorem realloc_equal_size_not_in_place_cex :
    isValidAllocB sA 264 = true ∧ 0 < 1 ∧ asizeOf 1 ≤ sizeAtD sA 264 ∧
      (mm_realloc sA (some 264) 1 true).2 ≠ some 264 ∧
      (mm_realloc sA (some 264) 1 true).1.blocks ≠ sA.blocks := by
  refine ⟨?_, ?_, ?_, ?_, ?_⟩ <;> decide

/-- C4 (amended): `mm_realloc(ptr, n)` with `n > 0` returns `ptr`
unchanged — no split, no copy, no heap mutation — exactly when the
adjusted size is *strictly* smaller than the block's current size
(`newsize < oldsize`, mm.c line 251). -/
theorem realloc_shrink_strict_lt (s : AState) (a n : Nat) (ok : Bool) (i : Nat)
    (hi : idxOf s.blocks a = some i) (hn : 0 < n)
    (hlt : asizeOf n < (blkAt s.blocks i).size) :
    mm_realloc s (some a) n ok = (s, some a) := by
  have hne : n ≠ 0 := Nat.pos_iff_ne_zero.mp hn
  unfold mm_realloc
  simp only [Option.getD_some, sizeAtD, hi]
  rw [if_neg hne, if_pos hlt]

/-- Witness for `realloc_shrink_strict_lt`: in `sB` the block at 264
has size 120 and `asizeOf 1 = 32 < 120`, so `mm_realloc(264, 1)`
returns 264 with the state untouched. -/
theorem realloc_shrink_strict_lt_witness :
    idxOf sB.blocks 264 = some 0 ∧ 0 < 1 ∧ asizeOf 1 < (blkAt sB.blocks 0).size ∧
      mm_realloc sB (some 264) 1 true = (sB, some 264) :=
  ⟨by decide, by decide, by decide,
    realloc_shrink_strict_lt sB 264 1 true 0 (by decide) (by decide) (by decide)⟩

/-! ### C5 (counterexample): the copied tail word -/

/-- C5 (counterexample): in `sA` the old block 264 has size 32 and the
resize request 100 has adjusted size 120 > 32; the resize succeeds and
returns 296, but the word copied to offset 24 — within the "first
current size(ptr) bytes" — is 217, while the old block's content at
offset 24 before the call was 4064 (the successor block's header,
which the internal `mm_malloc(200)` rewrote to `PACK(216, 1)` before
the `memcpy` read it).  The claim's "first current size(ptr) bytes
... preserved" fails at this offset. -/
theorem realloc_copy_tail_word_cex :
    isValidAllocB sA 264 = true ∧ sizeAtD sA 264 = 32 ∧ 32 < asizeOf 100 ∧
      sR5.2 = some 296 ∧ sR5.1.mem (296 + 24) = 217 ∧ sA.mem (264 + 24) = 4064 ∧
      sR5.1.mem (296 + 24) ≠ sA.mem (264 + 24) := by
  refine ⟨?_, ?_, ?_, ?_, ?_, ?_, ?_⟩ <;> decide

/-! ### C6: failed resize leaves everything untouched -/

/-- C6: when `mm_realloc`'s internal allocation fails — no free block
fits the doubled request and the heap extension is refused — the call
returns null and the state (blocks, boundary tags, free lists, every
memory word) is exactly the state before the call; in particular the
original block is completely untouched. -/
theorem realloc_oom_leaves_state_untouched (s : AState) (a n i : Nat)
    (hi : idxOf s.blocks a = some i) (hn : 0 < n)
    (hge : (blkAt s.blocks i).size ≤ asizeOf n)
    (hff : find_fit s (asizeOf (2 * n)) = none) :
    mm_realloc s (some a) n false = (s, none) := by
  have hne : n ≠ 0 := Nat.pos_iff_ne_zero.mp hn
  have h2ne : 2 * n ≠ 0 := by omega
  unfold mm_realloc
  simp only [Option.getD_some, sizeAtD, hi]
  rw [if_neg hne, if_neg (Nat.not_lt.mpr hge)]
  unfold mm_malloc
  rw [if_neg h2ne]
  simp only [hff]
  rfl

/-- Witness for `realloc_oom_leaves_state_untouched`: in `sOOM` the
block at 264 has size 4016 = `asizeOf 4000`, no free block fits the
doubled request, and with the extension refused the resize returns
null leaving the state identical. -/
theorem realloc_oom_leaves_state_untouched_witness :
    idxOf sOOM.blocks 264 = some 0 ∧ 0 < 4000 ∧
      (blkAt sOOM.blocks 0).size ≤ asizeOf 4000 ∧
      find_fit sOOM (asizeOf (2 * 4000)) = none ∧
      mm_realloc sOOM (some 264) 4000 false = (sOOM, none) :=
  ⟨by decide, by decide, by decide, by decide,
    realloc_oom_leaves_state_untouched sOOM 264 4000 0 (by decide) (by decide) (by decide)
      (by decide)⟩

/-! ### C8: null resize -/

/-- C8 (counterexample): before dispatching on the pointer,
`mm_realloc` computes `oldsize = GET_SIZE(HDRP(ptr))` (line 237); for
`ptr == NULL` that read targets address `-WSIZE = -8`, below every
heap address — a read `mm_malloc` never performs, refuting "reads or
writes no other memory". -/
theorem realloc_null_header_probe_cex :
    realloc_oldsizeAddr none = -8 ∧ realloc_oldsizeAddr none < 0 := by
  refine ⟨?_, ?_⟩ <;> decide

/-- C8 (amended): for `n > 0`, `mm_realloc(NULL, n)` returns exactly
the result of `mm_malloc(n)` and performs exactly its heap mutations
(the resulting states are equal); the only additional memory access is
the out-of-heap header probe recorded by `realloc_oldsizeAddr`. -/
theorem realloc_null_is_malloc (s : AState) (n : Nat) (ok : Bool) (hn : 0 < n) :
    mm_realloc s none n ok = mm_malloc s n ok := by
  unfold mm_realloc
  rw [if_neg (Nat.pos_iff_ne_zero.mp hn)]

/-- Witness for `realloc_null_is_malloc` at `n = 7` on the initial
heap. -/
theorem realloc_null_is_malloc_witness :
    0 < 7 ∧ mm_realloc initState none 7 true = mm_malloc initState 7 true :=
  ⟨by decide, realloc_null_is_malloc initState 7 true (by decide)⟩

/-! ### C9: checkheap termination -/

/-- C9: `checkheap(true)` never terminates: the walk always visits the
prologue, verbose mode passes it to `printblock`, and `printblock`
re-invokes `checkheap(true)` (mm.c line 560), so no call depth
suffices (`chRun fuel true s = none` for every fuel, every state).
Non-verbose `checkheap` terminates at depth 1 — and by construction
the checker only returns diagnostics, mutating nothing.  The claim
that verbose mode terminates is contradicted by the code. -/
theorem checkheap_verbose_diverges :
    (∀ fuel : Nat, ∀ s : AState, chRun fuel true s = none) ∧
      (chRun 1 false initState).isSome = true := by
  constructor
  · intro fuel
    induction fuel with
    | zero => intro s; rfl
    | succ f ih =>
      intro s
      simp only [chRun, ih, Option.map_none', if_true, walkItems, List.foldl_cons]
      rw [foldl_step_none _ (fun x => rfl)]
  · decide

/-! ### C10: the free-list check reads the stale cursor -/

/-- C10: in `checkheap`'s free-list validation loop the allocated-bit
test reads the word at the stale walk cursor: the cursor equals
`heapEnd` — the address one word past the epilogue header, i.e. the
first address beyond the heap — and the free-list diagnostics are
unchanged under arbitrary modification of every list member's boundary
tags (any two memories agreeing at that single out-of-heap word yield
identical diagnostics), so no member's own tag is ever inspected. -/
theorem checkheap_freelist_reads_stale_cursor (s : AState) (m₁ m₂ : Nat → Nat)
    (h : m₁ (heapEnd s) = m₂ (heapEnd s)) :
    chCursor s = heapEnd s ∧
      flMsgs { s with mem := m₁ } (chCursor s) = flMsgs { s with mem := m₂ } (chCursor s) := by
  refine ⟨chCursor_eq_heapEnd s, ?_⟩
  unfold flMsgs GET_ALLOC_m
  rw [chCursor_eq_heapEnd s]
  simp only [h]

/-- Witness for `checkheap_freelist_reads_stale_cursor`: rewriting the
free-list member 264's header word (address 256) of the initial heap
changes no free-list diagnostic. -/
theorem checkheap_freelist_reads_stale_cursor_witness :
    initState.mem (heapEnd initState) = (putw initState.mem 256 999) (heapEnd initState) ∧
      (chCursor initState = heapEnd initState ∧
        flMsgs { initState with mem := initState.mem } (chCursor initState) =
          flMsgs { initState with mem := putw initState.mem 256 999 } (chCursor initState)) :=
  ⟨by decide,
    checkheap_freelist_reads_stale_cursor initState initState.mem
      (putw initState.mem 256 999) (by decide)⟩

/-! ### List, address and counting toolkit -/

theorem sumSz_nil : sumSz [] = 0 := rfl

theorem sumSz_cons (b : Blk) (bs : List Blk) : sumSz (b :: bs) = b.size + sumSz bs := by
  simp [sumSz]

theorem sumSz_append (u v : List Blk) : sumSz (u ++ v) = sumSz u + sumSz v := by
  simp [sumSz]

theorem blkAt_cons_zero (x : Blk) (t : List Blk) : blkAt (x :: t) 0 = x := rfl

theorem blkAt_cons_succ (x : Blk) (t : List Blk) (i : Nat) :
    blkAt (x :: t) (i + 1) = blkAt t i := rfl

theorem addrList_append (u v : List Blk) (c : Nat) :
    addrList (u ++ v) c = addrList u c ++ addrList v (c + sumSz u) := by
  induction u generalizing c with
  | nil => simp [addrList, sumSz_nil]
  | cons b t ih =>
    show ((c, b) :: addrList (t ++ v) (c + b.size)) =
      (c, b) :: (addrList t (c + b.size) ++ addrList v (c + sumSz (b :: t)))
    rw [ih, sumSz_cons, Nat.add_assoc]

theorem addrList_bounds {bs : List Blk} {c a : Nat} {b : Blk}
    (h : (a, b) ∈ addrList bs c) : c ≤ a ∧ a + b.size ≤ c + sumSz bs := by
  induction bs generalizing c with
  | nil => simp [addrList] at h
  | cons x t ih =>
    simp only [addrList, List.mem_cons, Prod.mk.injEq] at h
    rcases h with ⟨rfl, rfl⟩ | h
    · rw [sumSz_cons]
      omega
    · have := ih h
      rw [sumSz_cons]
      omega

theorem addrList_trichotomy {bs : List Blk} {c a x : Nat} {b y : Blk}
    (h : (a, b) ∈ addrList bs c) (h' : (x, y) ∈ addrList bs c) :
    x + y.size ≤ a ∨ x = a ∨ a + b.size ≤ x := by
  induction bs generalizing c with
  | nil => simp [addrList] at h
  | cons z t ih =>
    simp only [addrList, List.mem_cons, Prod.mk.injEq] at h h'
    rcases h with ⟨rfl, rfl⟩ | h <;> rcases h' with ⟨rfl, rfl⟩ | h'
    · exact Or.inr (Or.inl rfl)
    · have := addrList_bounds h'
      omega
    · have := addrList_bounds h
      omega
    · exact ih h h'

theorem addrList_key_unique {bs : List Blk} {c a : Nat} {b₁ b₂ : Blk}
    (hpos : ∀ blk ∈ bs, 0 < blk.size)
    (h₁ : (a, b₁) ∈ addrList bs c) (h₂ : (a, b₂) ∈ addrList bs c) : b₁ = b₂ := by
  induction bs generalizing c with
  | nil => simp [addrList] at h₁
  | cons x t ih =>
    simp only [addrList, List.mem_cons, Prod.mk.injEq] at h₁ h₂
    rcases h₁ with ⟨rfl, rfl⟩ | h₁ <;> rcases h₂ with ⟨h2a, rfl⟩ | h₂
    · rfl
    · exfalso
      have := (addrList_bounds h₂).1
      have hx := hpos b₁ (List.mem_cons_self _ _)
      omega
    · exfalso
      have := (addrList_bounds h₁).1
      have hx := hpos b₂ (List.mem_cons_self _ _)
      omega
    · exact ih (fun blk hb => hpos blk (List.mem_cons_of_mem _ hb)) h₁ h₂

theorem addrList_align {bs : List Blk} {c : Nat}
    (h8 : ∀ b ∈ bs, ALIGN_SIZE ∣ b.size) (hc : ALIGN_SIZE ∣ c) {a : Nat} {b : Blk}
    (h : (a, b) ∈ addrList bs c) : ALIGN_SIZE ∣ a := by
  induction bs generalizing c with
  | nil => simp [addrList] at h
  | cons x t ih =>
    simp only [addrList, List.mem_cons, Prod.mk.injEq] at h
    rcases h with ⟨rfl, rfl⟩ | h
    · exact hc
    · exact ih (fun blk hb => h8 blk (List.mem_cons_of_mem _ hb))
        (Nat.dvd_add hc (h8 x (List.mem_cons_self _ _))) h

theorem idxFrom_mem {bs : List Blk} {c a : Nat} {i : Nat}
    (h : idxFrom bs c a = some i) :
    i < bs.length ∧ (a, blkAt bs i) ∈ addrList bs c ∧ a = c + sumSz (bs.take i) := by
  induction bs generalizing c i with
  | nil => simp [idxFrom] at h
  | cons x t ih =>
    unfold idxFrom at h
    by_cases hc : c = a
    · rw [if_pos hc] at h
      cases h
      subst hc
      refine ⟨by simp, ?_, by simp [sumSz_nil]⟩
      simp [addrList, blkAt_cons_zero]
    · rw [if_neg hc] at h
      rcases Option.map_eq_some'.mp h with ⟨i', hi', rfl⟩
      obtain ⟨hlen, hmem, haddr⟩ := ih hi'
      refine ⟨by simpa using Nat.succ_lt_succ hlen, ?_, ?_⟩
      · rw [blkAt_cons_succ]
        simp [addrList, hmem]
      · rw [List.take_succ_cons, sumSz_cons]
        omega

theorem mem_idxFrom {bs : List Blk} {c a : Nat} {b : Blk}
    (hpos : ∀ blk ∈ bs, 0 < blk.size) (h : (a, b) ∈ addrList bs c) :
    ∃ i, idxFrom bs c a = some i ∧ blkAt bs i = b := by
  induction bs generalizing c with
  | nil => simp [addrList] at h
  | cons x t ih =>
    simp only [addrList, List.mem_cons, Prod.mk.injEq] at h
    rcases h with ⟨rfl, rfl⟩ | h
    · exact ⟨0, by simp [idxFrom], rfl⟩
    · have hb := addrList_bounds h
      have hx := hpos x (List.mem_cons_self _ _)
      obtain ⟨i, hi, hblk⟩ := ih (fun blk hb => hpos blk (List.mem_cons_of_mem _ hb)) h
      refine ⟨i + 1, ?_, hblk⟩
      unfold idxFrom
      rw [if_neg (by omega), hi]
      rfl

theorem blocks_decomp {bs : List Blk} {i : Nat} (h : i < bs.length) :
    bs = bs.take i ++ blkAt bs i :: bs.drop (i + 1) := by
  induction bs generalizing i with
  | nil => simp at h
  | cons x t ih =>
    cases i with
    | zero => simp [blkAt_cons_zero]
    | succ i =>
      simp only [List.length_cons, Nat.succ_lt_succ_iff] at h
      simp only [List.take_succ_cons, List.drop_succ_cons, blkAt_cons_succ, List.cons_append,
        List.cons.injEq, true_and]
      exact ih h

theorem set_decomp {bs : List Blk} {i : Nat} (h : i < bs.length) (b : Blk) :
    bs.set i b = bs.take i ++ b :: bs.drop (i + 1) := by
  induction bs generalizing i with
  | nil => simp at h
  | cons x t ih =>
    cases i with
    | zero => simp
    | succ i =>
      simp only [List.length_cons, Nat.succ_lt_succ_iff] at h
      simp only [List.set_cons_succ, List.take_succ_cons, List.drop_succ_cons,
        List.cons_append, List.cons.injEq, true_and]
      exact ih h

theorem sum_map_ite_add {l : List Nat} {j₀ : Nat} (g : Nat → Nat) (δ : Nat)
    (hmem : j₀ ∈ l) (hnd : l.Nodup) :
    (l.map fun j => if j = j₀ then g j + δ else g j).sum = (l.map g).sum + δ := by
  induction l with
  | nil => simp at hmem
  | cons x t ih =>
    rcases List.nodup_cons.mp hnd with ⟨hx, hndt⟩
    rcases List.mem_cons.mp hmem with rfl | hmem'
    · have hmapt : (t.map fun j => if j = j₀ then g j + δ else g j) = t.map g := by
        apply List.map_congr_left
        intro j hj
        rw [if_neg]
        intro hj'
        exact hx (hj' ▸ hj)
      have hhd : (if j₀ = j₀ then g j₀ + δ else g j₀) = g j₀ + δ := if_pos rfl
      rw [List.map_cons, List.map_cons, List.sum_cons, List.sum_cons, hmapt, hhd]
      omega
    · have hxj : x ≠ j₀ := fun hf => hx (hf ▸ hmem')
      rw [List.map_cons, List.map_cons, List.sum_cons, List.sum_cons, if_neg hxj,
        ih hmem' hndt]
      omega

theorem countF_insert (bk : Nat → List Nat) {j₀ : Nat} (b a : Nat) (hj : j₀ < MAX_SIZE) :
    countF (bkInsert bk j₀ b) a = countF bk a + if b = a then 1 else 0 := by
  unfold countF bkInsert
  have hmap : ((List.range MAX_SIZE).map fun j =>
      (if j = j₀ then bk j ++ [b] else bk j).count a) =
      (List.range MAX_SIZE).map fun j =>
        if j = j₀ then (bk j).count a + (if b = a then 1 else 0) else (bk j).count a := by
    apply List.map_congr_left
    intro j _
    by_cases hjj : j = j₀
    · rw [if_pos hjj, if_pos hjj, List.count_append]
      congr 1
      by_cases hba : b = a
      · subst hba
        simp
      · simp [List.count_cons, hba, fun hf : a = b => hba hf.symm]
    · rw [if_neg hjj, if_neg hjj]
  rw [hmap, sum_map_ite_add _ _ (List.mem_range.mpr hj) (List.nodup_range _)]

theorem countF_remove_ne (bk : Nat → List Nat) {x a : Nat} (h : a ≠ x) :
    countF (bkRemove bk x) a = countF bk a := by
  unfold countF bkRemove
  congr 1
  apply List.map_congr_left
  intro j _
  exact List.count_erase_of_ne h (bk j)

theorem countF_remove_self (bk : Nat → List Nat) (x : Nat) (h : countF bk x ≤ 1) :
    countF (bkRemove bk x) x = 0 := by
  unfold countF bkRemove
  apply List.sum_eq_zero
  intro v hv
  rcases List.mem_map.mp hv with ⟨j, hj, rfl⟩
  have hterm : (bk j).count x ≤ 1 := by
    calc (bk j).count x ≤ countF bk x := by
          apply List.single_le_sum (fun y _ => Nat.zero_le y)
          exact List.mem_map.mpr ⟨j, hj, rfl⟩
      _ ≤ 1 := h
  rw [List.count_erase_self]
  omega

theorem countF_pos_mem {bk : Nat → List Nat} {a : Nat} (h : countF bk a ≠ 0) :
    ∃ j, j < MAX_SIZE ∧ a ∈ bk j := by
  unfold countF at h
  have : ∃ v ∈ (List.range MAX_SIZE).map fun j => (bk j).count a, v ≠ 0 := by
    by_contra hall
    push_neg at hall
    exact h (List.sum_eq_zero hall)
  rcases this with ⟨v, hv, hvne⟩
  rcases List.mem_map.mp hv with ⟨j, hj, rfl⟩
  exact ⟨j, List.mem_range.mp hj, List.count_pos_iff.mp (Nat.pos_of_ne_zero hvne)⟩

theorem mem_countF_pos {bk : Nat → List Nat} {a j : Nat} (hj : j < MAX_SIZE)
    (h : a ∈ bk j) : 0 < countF bk a := by
  unfold countF
  calc 0 < (bk j).count a := List.count_pos_iff.mpr h
    _ ≤ _ := by
        apply List.single_le_sum (fun y _ => Nat.zero_le y)
        exact List.mem_map.mpr ⟨j, List.mem_range.mpr hj, rfl⟩

theorem applyWrites_eq_of_not_mem {ws : List (Nat × Nat)} {x : Nat}
    (h : ∀ pv ∈ ws, pv.1 ≠ x) : ∀ m : Nat → Nat, applyWrites m ws x = m x := by
  induction ws with
  | nil => intro m; rfl
  | cons pv t ih =>
    intro m
    obtain ⟨p, v⟩ := pv
    show applyWrites (putw m p v) t x = m x
    rw [ih (fun q hq => h q (List.mem_cons_of_mem _ hq))]
    unfold putw
    rw [if_neg]
    exact fun hf => h (p, v) (List.mem_cons_self _ _) (by simpa using hf.symm)

theorem asizeOf_min (n : Nat) : 2 * DSIZE ≤ asizeOf n := by
  unfold asizeOf DSIZE ALIGN_SIZE
  split <;> omega

theorem asizeOf_dvd (n : Nat) : ALIGN_SIZE ∣ asizeOf n := by
  unfold asizeOf DSIZE ALIGN_SIZE
  split
  · decide
  · exact Dvd.intro _ rfl

/-! ### Chain and decomposition helpers -/

theorem noAdjFree_decomp {T D : List Blk} {x : Blk} (h : NoAdjFree (T ++ x :: D)) :
    NoAdjFree T ∧ NoAdjFree (x :: D) ∧
      (∀ l ∈ T.getLast?, l.alloc = true ∨ x.alloc = true) := by
  unfold NoAdjFree at *
  rw [List.chain'_append] at h
  obtain ⟨h1, h2, h3⟩ := h
  refine ⟨h1, h2, fun l hl => h3 l hl x ?_⟩
  simp

theorem noAdjFree_cons {x : Blk} {D : List Blk} (h : NoAdjFree (x :: D)) :
    NoAdjFree D ∧ ∀ d ∈ D.head?, x.alloc = true ∨ d.alloc = true := by
  unfold NoAdjFree at *
  rw [List.chain'_cons'] at h
  exact ⟨h.2, fun d hd => h.1 d hd⟩

theorem noAdjFree_build {T D : List Blk} {x : Blk} (hT : NoAdjFree T) (hD : NoAdjFree D)
    (hl : ∀ l ∈ T.getLast?, l.alloc = true ∨ x.alloc = true)
    (hd : ∀ d ∈ D.head?, x.alloc = true ∨ d.alloc = true) :
    NoAdjFree (T ++ x :: D) := by
  unfold NoAdjFree at *
  rw [List.chain'_append]
  refine ⟨hT, List.chain'_cons'.mpr ⟨hd, hD⟩, fun l hl' y hy => ?_⟩
  simp only [List.head?_cons, Option.mem_def, Option.some.injEq] at hy
  subst hy
  exact hl l hl'

theorem drop_decomp {bs : List Blk} {i : Nat} (h : i < bs.length) :
    bs.drop i = blkAt bs i :: bs.drop (i + 1) := by
  induction bs generalizing i with
  | nil => simp at h
  | cons x t ih =>
    cases i with
    | zero => simp [blkAt_cons_zero]
    | succ i =>
      simp only [List.length_cons, Nat.succ_lt_succ_iff] at h
      simp only [List.drop_succ_cons, blkAt_cons_succ]
      exact ih h

theorem take_getLast? {bs : List Blk} {i : Nat} (h0 : 0 < i) (hle : i ≤ bs.length) :
    (bs.take i).getLast? = some (blkAt bs (i - 1)) := by
  induction bs generalizing i with
  | nil => simp at hle; omega
  | cons x t ih =>
    cases i with
    | zero => omega
    | succ i =>
      cases i with
      | zero => simp [blkAt_cons_zero]
      | succ i =>
        simp only [List.length_cons, Nat.succ_le_succ_iff] at hle
        cases t with
        | nil => simp at hle
        | cons z t' =>
          show (x :: ((z :: t').take (i + 1))).getLast? = some (blkAt (x :: z :: t') (i + 1))
          rw [List.take_succ_cons, List.getLast?_cons_cons, ← List.take_succ_cons,
            ih (Nat.succ_pos i) hle]
          rfl

/-! ### Derived invariant lemmas -/

theorem HeapInv.pos {s : AState} (h : HeapInv s) : ∀ b ∈ s.blocks, 0 < b.size := by
  intro b hb
  have := h.szmin b hb
  unfold DSIZE at this
  omega

theorem HeapInv.countB_alloc {s : AState} (h : HeapInv s) {a : Nat} {b : Blk}
    (hm : (a, b) ∈ addrList s.blocks heapBase) (hall : b.alloc = true) :
    countB s a = 0 := by
  by_contra hne
  obtain ⟨j, hj, hmem⟩ := countF_pos_mem hne
  obtain ⟨-, b', hm', hfree, -⟩ := h.bdom j a hmem
  rw [addrList_key_unique h.pos hm hm'] at hall
  rw [hall] at hfree
  cases hfree

theorem HeapInv.countB_nonkey {s : AState} (h : HeapInv s) {a : Nat}
    (hk : ∀ b : Blk, (a, b) ∉ addrList s.blocks heapBase) : countB s a = 0 := by
  by_contra hne
  obtain ⟨j, hj, hmem⟩ := countF_pos_mem hne
  obtain ⟨-, b', hm', -, -⟩ := h.bdom j a hmem
  exact hk b' hm'

theorem span_disjoint {bs : List Blk} {c a x : Nat} {b y : Blk}
    (h : (a, b) ∈ addrList bs c) (h' : (x, y) ∈ addrList bs c) (hne : x ≠ a) :
    a + b.size ≤ x ∨ x + y.size ≤ a := by
  rcases addrList_trichotomy h h' with h1 | h1 | h1
  · exact Or.inr h1
  · exact absurd h1 hne
  · exact Or.inl h1

theorem merge_inv {T D : List Blk} {bk₁ : Nat → List Nat} {ns : Nat} (m : Nat → Nat)
    (hsz8 : ∀ b ∈ T ++ ⟨ns, false⟩ :: D, ALIGN_SIZE ∣ b.size)
    (hszmin : ∀ b ∈ T ++ ⟨ns, false⟩ :: D, 2 * DSIZE ≤ b.size)
    (hnoadj : NoAdjFree (T ++ ⟨ns, false⟩ :: D))
    (hbdom : ∀ j a, a ∈ bk₁ j → j < MAX_SIZE ∧ ∃ b : Blk,
      (a, b) ∈ addrList (T ++ ⟨ns, false⟩ :: D) heapBase ∧ b.alloc = false ∧
        find_list_head b.size = j)
    (hcnt1 : ∀ a b, (a, b) ∈ addrList (T ++ ⟨ns, false⟩ :: D) heapBase → b.alloc = false →
      a ≠ heapBase + sumSz T → countF bk₁ a = 1)
    (hcnt0 : countF bk₁ (heapBase + sumSz T) = 0) :
    HeapInv { blocks := T ++ ⟨ns, false⟩ :: D,
              buckets := bkInsert bk₁ (find_list_head ns) (heapBase + sumSz T),
              mem := m } := by
  have hmid : ((heapBase + sumSz T : Nat), (⟨ns, false⟩ : Blk)) ∈
      addrList (T ++ ⟨ns, false⟩ :: D) heapBase := by
    rw [addrList_append]
    exact List.mem_append_right _ (by simp [addrList])
  have hj14 : find_list_head ns < MAX_SIZE := by
    have := find_list_head_le ns
    unfold MAX_SIZE
    omega
  refine ⟨hsz8, hszmin, hnoadj, ?_, ?_⟩
  · intro j a ha
    have ha' : a ∈ (if j = find_list_head ns then bk₁ j ++ [heapBase + sumSz T] else bk₁ j) :=
      ha
    show j < MAX_SIZE ∧ ∃ b : Blk,
      (a, b) ∈ addrList (T ++ ⟨ns, false⟩ :: D) heapBase ∧ b.alloc = false ∧
        find_list_head b.size = j
    by_cases hjj : j = find_list_head ns
    · rw [if_pos hjj] at ha'
      rcases List.mem_append.mp ha' with ha' | ha'
      · exact hbdom j a ha'
      · simp only [List.mem_singleton] at ha'
        subst ha'
        subst hjj
        exact ⟨hj14, ⟨ns, false⟩, hmid, rfl, rfl⟩
    · rw [if_neg hjj] at ha'
      exact hbdom j a ha'
  · intro a b hm hfree
    have hm' : (a, b) ∈ addrList (T ++ ⟨ns, false⟩ :: D) heapBase := hm
    show countF (bkInsert bk₁ (find_list_head ns) (heapBase + sumSz T)) a = 1
    rw [countF_insert _ _ _ hj14]
    by_cases haA : a = heapBase + sumSz T
    · subst haA
      rw [hcnt0, if_pos rfl]
    · rw [hcnt1 a b hm' hfree haA, if_neg (fun hf => haA hf.symm)]

theorem blkAt_mem {bs : List Blk} {i : Nat} (h : i < bs.length) : blkAt bs i ∈ bs := by
  induction bs generalizing i with
  | nil => simp at h
  | cons x t ih =>
    cases i with
    | zero => exact List.mem_cons_self _ _
    | succ i =>
      simp only [List.length_cons, Nat.succ_lt_succ_iff] at h
      exact List.mem_cons_of_mem _ (ih h)

theorem Blk.eta_free {b : Blk} (h : b.alloc = false) : b = ⟨b.size, false⟩ := by
  cases b
  simp only [Blk.mk.injEq, true_and]
  simpa using h

theorem take_succ_eq {bs : List Blk} {i : Nat} (h : i < bs.length) :
    bs.take (i + 1) = bs.take i ++ [blkAt bs i] := by
  induction bs generalizing i with
  | nil => simp at h
  | cons x t ih =>
    cases i with
    | zero => simp [blkAt_cons_zero]
    | succ i =>
      simp only [List.length_cons, Nat.succ_lt_succ_iff] at h
      simp only [List.take_succ_cons, blkAt_cons_succ, List.cons_append, List.cons.injEq,
        true_and]
      exact ih h

theorem blocks_decomp2 {bs : List Blk} {i : Nat} (h : i + 1 < bs.length) :
    bs = bs.take i ++ blkAt bs i :: blkAt bs (i + 1) :: bs.drop (i + 2) := by
  have h1 : i < bs.length := by omega
  calc bs = bs.take i ++ blkAt bs i :: bs.drop (i + 1) := blocks_decomp h1
    _ = _ := by rw [drop_decomp h]

theorem addrList_middle (T D : List Blk) (x : Blk) (c : Nat) :
    (c + sumSz T, x) ∈ addrList (T ++ x :: D) c := by
  rw [addrList_append]
  exact List.mem_append_right _ (List.mem_cons_self _ _)

theorem sumSz_take_succ {bs : List Blk} {i : Nat} (h : i < bs.length) :
    sumSz (bs.take (i + 1)) = sumSz (bs.take i) + (blkAt bs i).size := by
  rw [take_succ_eq h, sumSz_append]
  simp [sumSz]

theorem addrList_mem_blk {bs : List Blk} {c a : Nat} {b : Blk}
    (h : (a, b) ∈ addrList bs c) : b ∈ bs := by
  induction bs generalizing c with
  | nil => simp [addrList] at h
  | cons x t ih =>
    simp only [addrList, List.mem_cons, Prod.mk.injEq] at h
    rcases h with ⟨-, rfl⟩ | h
    · exact List.mem_cons_self _ _
    · exact List.mem_cons_of_mem _ (ih h)

/-- Coalesce case 2 (next block free, previous allocated): the merged
state satisfies the invariant. -/
theorem coalesce_case2_inv {s : AState} {i : Nat}
    (hi : i < s.blocks.length)
    (hfree : (blkAt s.blocks i).alloc = false)
    (hsz8 : ∀ b ∈ s.blocks, ALIGN_SIZE ∣ b.size)
    (hszmin : ∀ b ∈ s.blocks, 2 * DSIZE ≤ b.size)
    (hnoadj : NoAdjFree (s.blocks.set i ⟨(blkAt s.blocks i).size, true⟩))
    (hbdom : ∀ j a, a ∈ s.buckets j → j < MAX_SIZE ∧ ∃ b : Blk,
      (a, b) ∈ addrList s.blocks heapBase ∧ b.alloc = false ∧ find_list_head b.size = j)
    (hcnt1 : ∀ a b, (a, b) ∈ addrList s.blocks heapBase → b.alloc = false →
      a ≠ addrAt s.blocks i → countF s.buckets a = 1)
    (hcnt0 : countF s.buckets (addrAt s.blocks i) = 0)
    (hp : i = 0 ∨ (blkAt s.blocks (i - 1)).alloc = true)
    (hn1 : i + 1 < s.blocks.length)
    (hnf : (blkAt s.blocks (i + 1)).alloc = false) (m : Nat → Nat) :
    HeapInv { blocks := (s.blocks.take i ++
                  (⟨(blkAt s.blocks i).size + (blkAt s.blocks (i + 1)).size, false⟩ : Blk) ::
                    s.blocks.drop (i + 2)),
              buckets := (bkInsert (bkRemove s.buckets (addrAt s.blocks (i + 1)))
                  (find_list_head ((blkAt s.blocks i).size + (blkAt s.blocks (i + 1)).size))
                  (addrAt s.blocks i)),
              mem := m } := by
  have hpos : ∀ b ∈ s.blocks, 0 < b.size := fun b hb => by
    have := hszmin b hb
    unfold DSIZE at this
    omega
  set T := s.blocks.take i with hT
  set D := s.blocks.drop (i + 2) with hD
  set x := blkAt s.blocks i with hx
  set y := blkAt s.blocks (i + 1) with hy
  set A := addrAt s.blocks i with hA
  have hAS : A = heapBase + sumSz T := rfl
  have hdec2 : s.blocks = T ++ x :: y :: D := blocks_decomp2 hn1
  have han : addrAt s.blocks (i + 1) = A + x.size := by
    show heapBase + sumSz (s.blocks.take (i + 1)) = A + x.size
    rw [sumSz_take_succ hi, ← hT, ← hx, hAS]
    omega
  have hxpos : 0 < x.size := hpos x (blkAt_mem hi)
  have hypos : 0 < y.size := hpos y (blkAt_mem hn1)
  have hALold : addrList s.blocks heapBase =
      addrList T heapBase ++ (A, x) :: (A + x.size, y) :: addrList D (A + x.size + y.size) := by
    conv_lhs => rw [hdec2]
    rw [addrList_append, ← hAS]
    show _ ++ (A, x) :: (A + x.size, y) :: addrList D (A + x.size + y.size) = _
    rfl
  have hALnew : addrList (T ++ (⟨x.size + y.size, false⟩ : Blk) :: D) heapBase =
      addrList T heapBase ++ (A, (⟨x.size + y.size, false⟩ : Blk)) ::
        addrList D (A + x.size + y.size) := by
    rw [addrList_append, ← hAS]
    show _ ++ (A, (⟨x.size + y.size, false⟩ : Blk)) :: addrList D (A + (x.size + y.size)) = _
    rw [← Nat.add_assoc]
  have hanA : A + x.size ≠ A := by omega
  have hykey : ((A + x.size : Nat), y) ∈ addrList s.blocks heapBase := by
    rw [hALold]
    exact List.mem_append_right _ (List.mem_cons_of_mem _ (List.mem_cons_self _ _))
  have hcy : countF s.buckets (A + x.size) = 1 := hcnt1 _ y hykey hnf hanA
  have hc0y : countF (bkRemove s.buckets (A + x.size)) (A + x.size) = 0 :=
    countF_remove_self _ _ (le_of_eq hcy)
  have hmemnew : ∀ a (b : Blk), (a, b) ∈ addrList s.blocks heapBase → a ≠ A →
      a ≠ A + x.size →
      (a, b) ∈ addrList (T ++ (⟨x.size + y.size, false⟩ : Blk) :: D) heapBase := by
    intro a b hm hna hnan
    rw [hALold] at hm
    rw [hALnew]
    rcases List.mem_append.mp hm with hm | hm
    · exact List.mem_append_left _ hm
    · rcases List.mem_cons.mp hm with hm | hm
      · exact absurd (congrArg Prod.fst hm) hna
      · rcases List.mem_cons.mp hm with hm | hm
        · exact absurd (congrArg Prod.fst hm) hnan
        · exact List.mem_append_right _ (List.mem_cons_of_mem _ hm)
  have hmemold : ∀ a (b : Blk),
      (a, b) ∈ addrList (T ++ (⟨x.size + y.size, false⟩ : Blk) :: D) heapBase →
      a ≠ A →
      (a, b) ∈ addrList s.blocks heapBase ∧ a ≠ A + x.size := by
    intro a b hm hna
    rw [hALnew] at hm
    rcases List.mem_append.mp hm with hm | hm
    · have hb := addrList_bounds hm
      have hbpos : 0 < b.size := hpos b (by
        have := addrList_mem_blk hm
        rw [hT] at this
        exact List.mem_of_mem_take this)
      constructor
      · rw [hALold]
        exact List.mem_append_left _ hm
      · rw [hAS] at *
        omega
    · rcases List.mem_cons.mp hm with hm | hm
      · exact absurd (congrArg Prod.fst hm) hna
      · have hb := addrList_bounds hm
        constructor
        · rw [hALold]
          exact List.mem_append_right _
            (List.mem_cons_of_mem _ (List.mem_cons_of_mem _ hm))
        · omega
  -- sizes of the new list
  have hsz8new : ∀ b ∈ T ++ (⟨x.size + y.size, false⟩ : Blk) :: D, ALIGN_SIZE ∣ b.size := by
    intro b hb
    rcases List.mem_append.mp hb with hb | hb
    · exact hsz8 b (by rw [hT] at hb; exact List.mem_of_mem_take hb)
    · rcases List.mem_cons.mp hb with rfl | hb
      · exact Nat.dvd_add (hsz8 x (blkAt_mem hi)) (hsz8 y (blkAt_mem hn1))
      · exact hsz8 b (by rw [hD] at hb; exact List.mem_of_mem_drop hb)
  have hszminnew : ∀ b ∈ T ++ (⟨x.size + y.size, false⟩ : Blk) :: D, 2 * DSIZE ≤ b.size := by
    intro b hb
    rcases List.mem_append.mp hb with hb | hb
    · exact hszmin b (by rw [hT] at hb; exact List.mem_of_mem_take hb)
    · rcases List.mem_cons.mp hb with rfl | hb
      · have := hszmin x (blkAt_mem hi)
        show 2 * DSIZE ≤ x.size + y.size
        omega
      · exact hszmin b (by rw [hD] at hb; exact List.mem_of_mem_drop hb)
  -- no adjacent free blocks in the new list
  have hsetdec : s.blocks.set i ⟨x.size, true⟩ = T ++ (⟨x.size, true⟩ : Blk) :: y :: D := by
    rw [set_decomp hi, drop_decomp hn1]
  rw [hsetdec] at hnoadj
  obtain ⟨hchT, hch2, -⟩ := noAdjFree_decomp hnoadj
  obtain ⟨hch3, -⟩ := noAdjFree_cons hch2
  obtain ⟨hchD, hyD⟩ := noAdjFree_cons hch3
  have hDhead : ∀ d ∈ D.head?, d.alloc = true := by
    intro d hd
    rcases hyD d hd with h | h
    · rw [hnf] at h
      cases h
    · exact h
  have hTlast : ∀ l ∈ T.getLast?, l.alloc = true := by
    intro l hl
    rcases hp with rfl | h
    · rw [hT] at hl
      simp at hl
    · have hi0 : 0 < i := by
        rcases Nat.eq_zero_or_pos i with rfl | h0
        · have h' : x.alloc = true := h
          simp [hfree] at h'
        · exact h0
      rw [hT, take_getLast? hi0 (le_of_lt hi)] at hl
      simp only [Option.mem_def, Option.some.injEq] at hl
      subst hl
      exact h
  have hnoadjnew : NoAdjFree (T ++ (⟨x.size + y.size, false⟩ : Blk) :: D) :=
    noAdjFree_build hchT hchD (fun l hl => Or.inl (hTlast l hl))
      (fun d hd => Or.inr (hDhead d hd))
  -- assemble via merge_inv
  rw [han]
  refine merge_inv m hsz8new hszminnew hnoadjnew ?_ ?_ ?_
  · intro j a ha
    have hamem : a ∈ s.buckets j := List.mem_of_mem_erase ha
    obtain ⟨hj, b, hmold, hbfree, hbcls⟩ := hbdom j a hamem
    have hane : a ≠ A + x.size := by
      rintro rfl
      have := mem_countF_pos hj ha
      omega
    have hana : a ≠ A := by
      rintro rfl
      have := mem_countF_pos hj hamem
      omega
    exact ⟨hj, b, hmemnew a b hmold hana hane, hbfree, hbcls⟩
  · intro a b hm hbf hane
    have hane' : a ≠ A := hane
    obtain ⟨hmold, hanan⟩ := hmemold a b hm hane'
    rw [countF_remove_ne s.buckets hanan]
    exact hcnt1 a b hmold hbf hane'
  · show countF (bkRemove s.buckets (A + x.size)) A = 0
    rw [countF_remove_ne s.buckets (fun hf => hanA hf.symm)]
    exact hcnt0

/-- Coalesce case 1 (both neighbours allocated): inserting the freed
block into its class restores the invariant. -/
theorem coalesce_case1_inv {s : AState} {i : Nat}
    (hi : i < s.blocks.length)
    (hfree : (blkAt s.blocks i).alloc = false)
    (hsz8 : ∀ b ∈ s.blocks, ALIGN_SIZE ∣ b.size)
    (hszmin : ∀ b ∈ s.blocks, 2 * DSIZE ≤ b.size)
    (hnoadj : NoAdjFree (s.blocks.set i ⟨(blkAt s.blocks i).size, true⟩))
    (hbdom : ∀ j a, a ∈ s.buckets j → j < MAX_SIZE ∧ ∃ b : Blk,
      (a, b) ∈ addrList s.blocks heapBase ∧ b.alloc = false ∧ find_list_head b.size = j)
    (hcnt1 : ∀ a b, (a, b) ∈ addrList s.blocks heapBase → b.alloc = false →
      a ≠ addrAt s.blocks i → countF s.buckets a = 1)
    (hcnt0 : countF s.buckets (addrAt s.blocks i) = 0)
    (hp : i = 0 ∨ (blkAt s.blocks (i - 1)).alloc = true)
    (hn : i + 1 = s.blocks.length ∨ (blkAt s.blocks (i + 1)).alloc = true) (m : Nat → Nat) :
    HeapInv { blocks := s.blocks,
              buckets := (bkInsert s.buckets (find_list_head (blkAt s.blocks i).size)
                  (addrAt s.blocks i)),
              mem := m } := by
  have hpos : ∀ b ∈ s.blocks, 0 < b.size := fun b hb => by
    have := hszmin b hb
    unfold DSIZE at this
    omega
  set T := s.blocks.take i with hT
  set D := s.blocks.drop (i + 1) with hD
  set x := blkAt s.blocks i with hx
  set A := addrAt s.blocks i with hA
  have hAS : A = heapBase + sumSz T := rfl
  have hdecf : s.blocks = T ++ (⟨x.size, false⟩ : Blk) :: D := by
    conv_lhs => rw [blocks_decomp hi]
    rw [← Blk.eta_free hfree]
  -- chains
  have hsetdec : s.blocks.set i ⟨x.size, true⟩ = T ++ (⟨x.size, true⟩ : Blk) :: D :=
    set_decomp hi _
  rw [hsetdec] at hnoadj
  obtain ⟨hchT, hch2, -⟩ := noAdjFree_decomp hnoadj
  obtain ⟨hchD, -⟩ := noAdjFree_cons hch2
  have hTlast : ∀ l ∈ T.getLast?, l.alloc = true := by
    intro l hl
    rcases hp with rfl | h
    · rw [hT] at hl
      simp at hl
    · have hi0 : 0 < i := by
        rcases Nat.eq_zero_or_pos i with rfl | h0
        · have h' : x.alloc = true := h
          simp [hfree] at h'
        · exact h0
      rw [hT, take_getLast? hi0 (le_of_lt hi)] at hl
      simp only [Option.mem_def, Option.some.injEq] at hl
      subst hl
      exact h
  have hDhead : ∀ d ∈ D.head?, d.alloc = true := by
    intro d hd
    rcases Nat.lt_or_ge (i + 1) s.blocks.length with h1 | h1
    · rw [hD, drop_decomp h1] at hd
      simp only [List.head?_cons, Option.mem_def, Option.some.injEq] at hd
      subst hd
      rcases hn with h | h
      · omega
      · exact h
    · rw [hD, List.drop_eq_nil_of_le h1] at hd
      simp at hd
  have hnoadjf : NoAdjFree (T ++ (⟨x.size, false⟩ : Blk) :: D) :=
    noAdjFree_build hchT hchD (fun l hl => Or.inl (hTlast l hl))
      (fun d hd => Or.inr (hDhead d hd))
  have H := @merge_inv T D s.buckets x.size m
    (by rw [← hdecf]; exact hsz8)
    (by rw [← hdecf]; exact hszmin)
    hnoadjf
    (by
      intro j a ha
      obtain ⟨hj, b, hmold, hbfree, hbcls⟩ := hbdom j a ha
      rw [hdecf] at hmold
      exact ⟨hj, b, hmold, hbfree, hbcls⟩)
    (by
      intro a b hm hbf hane
      have hane' : a ≠ A := hane
      rw [← hdecf] at hm
      exact hcnt1 a b hm hbf hane')
    hcnt0
  rw [← hdecf] at H
  exact H

/-- Coalesce case 3 (previous block free, next allocated): the merged
state satisfies the invariant. -/
theorem coalesce_case3_inv {s : AState} {i : Nat}
    (hi : i < s.blocks.length)
    (hfree : (blkAt s.blocks i).alloc = false)
    (hsz8 : ∀ b ∈ s.blocks, ALIGN_SIZE ∣ b.size)
    (hszmin : ∀ b ∈ s.blocks, 2 * DSIZE ≤ b.size)
    (hnoadj : NoAdjFree (s.blocks.set i ⟨(blkAt s.blocks i).size, true⟩))
    (hbdom : ∀ j a, a ∈ s.buckets j → j < MAX_SIZE ∧ ∃ b : Blk,
      (a, b) ∈ addrList s.blocks heapBase ∧ b.alloc = false ∧ find_list_head b.size = j)
    (hcnt1 : ∀ a b, (a, b) ∈ addrList s.blocks heapBase → b.alloc = false →
      a ≠ addrAt s.blocks i → countF s.buckets a = 1)
    (hcnt0 : countF s.buckets (addrAt s.blocks i) = 0)
    (hpi : 0 < i)
    (hpf : (blkAt s.blocks (i - 1)).alloc = false)
    (hn : i + 1 = s.blocks.length ∨ (blkAt s.blocks (i + 1)).alloc = true) (m : Nat → Nat) :
    HeapInv { blocks := (s.blocks.take (i - 1) ++
                  (⟨(blkAt s.blocks i).size + (blkAt s.blocks (i - 1)).size, false⟩ : Blk) ::
                    s.blocks.drop (i + 1)),
              buckets := (bkInsert (bkRemove s.buckets (addrAt s.blocks (i - 1)))
                  (find_list_head ((blkAt s.blocks i).size + (blkAt s.blocks (i - 1)).size))
                  (addrAt s.blocks (i - 1))),
              mem := m } := by
  obtain ⟨k, rfl⟩ : ∃ k, i = k + 1 := ⟨i - 1, by omega⟩
  simp only [Nat.add_sub_cancel] at hpf ⊢
  have hk : k < s.blocks.length := by omega
  have hpos : ∀ b ∈ s.blocks, 0 < b.size := fun b hb => by
    have := hszmin b hb
    unfold DSIZE at this
    omega
  set T := s.blocks.take k with hT
  set D := s.blocks.drop (k + 2) with hD
  set p := blkAt s.blocks k with hp
  set x := blkAt s.blocks (k + 1) with hx
  set A' := addrAt s.blocks k with hA'
  have hAS : A' = heapBase + sumSz T := rfl
  have hdec : s.blocks = T ++ p :: x :: D := blocks_decomp2 hi
  have hA : addrAt s.blocks (k + 1) = A' + p.size := by
    show heapBase + sumSz (s.blocks.take (k + 1)) = A' + p.size
    rw [sumSz_take_succ hk, ← hT, ← hp, hAS]
    omega
  have hppos : 0 < p.size := hpos p (blkAt_mem hk)
  have hxpos : 0 < x.size := hpos x (blkAt_mem hi)
  have hALold : addrList s.blocks heapBase =
      addrList T heapBase ++ (A', p) :: (A' + p.size, x) ::
        addrList D (A' + p.size + x.size) := by
    conv_lhs => rw [hdec]
    rw [addrList_append, ← hAS]
    show _ ++ (A', p) :: (A' + p.size, x) :: addrList D (A' + p.size + x.size) = _
    rfl
  have hALnew : addrList (T ++ (⟨x.size + p.size, false⟩ : Blk) :: D) heapBase =
      addrList T heapBase ++ (A', (⟨x.size + p.size, false⟩ : Blk)) ::
        addrList D (A' + p.size + x.size) := by
    rw [addrList_append, ← hAS]
    show _ ++ (A', (⟨x.size + p.size, false⟩ : Blk)) :: addrList D (A' + (x.size + p.size)) = _
    rw [show A' + (x.size + p.size) = A' + p.size + x.size from by omega]
  have hpkey : ((A' : Nat), p) ∈ addrList s.blocks heapBase := by
    rw [hALold]
    exact List.mem_append_right _ (List.mem_cons_self _ _)
  have hA'ne : A' ≠ addrAt s.blocks (k + 1) := by
    rw [hA]
    omega
  have hcp : countF s.buckets A' = 1 := hcnt1 _ p hpkey hpf hA'ne
  have hc0p : countF (bkRemove s.buckets A') A' = 0 :=
    countF_remove_self _ _ (le_of_eq hcp)
  have hcnt0' : countF s.buckets (A' + p.size) = 0 := by
    rw [← hA]
    exact hcnt0
  have hmemnew : ∀ a (b : Blk), (a, b) ∈ addrList s.blocks heapBase → a ≠ A' →
      a ≠ A' + p.size →
      (a, b) ∈ addrList (T ++ (⟨x.size + p.size, false⟩ : Blk) :: D) heapBase := by
    intro a b hm hna hnan
    rw [hALold] at hm
    rw [hALnew]
    rcases List.mem_append.mp hm with hm | hm
    · exact List.mem_append_left _ hm
    · rcases List.mem_cons.mp hm with hm | hm
      · exact absurd (congrArg Prod.fst hm) hna
      · rcases List.mem_cons.mp hm with hm | hm
        · exact absurd (congrArg Prod.fst hm) hnan
        · exact List.mem_append_right _ (List.mem_cons_of_mem _ hm)
  have hmemold : ∀ a (b : Blk),
      (a, b) ∈ addrList (T ++ (⟨x.size + p.size, false⟩ : Blk) :: D) heapBase →
      a ≠ A' →
      (a, b) ∈ addrList s.blocks heapBase ∧ a ≠ A' + p.size := by
    intro a b hm hna
    rw [hALnew] at hm
    rcases List.mem_append.mp hm with hm | hm
    · have hb := addrList_bounds hm
      have hbpos : 0 < b.size := hpos b (by
        have := addrList_mem_blk hm
        rw [hT] at this
        exact List.mem_of_mem_take this)
      constructor
      · rw [hALold]
        exact List.mem_append_left _ hm
      · rw [hAS] at *
        omega
    · rcases List.mem_cons.mp hm with hm | hm
      · exact absurd (congrArg Prod.fst hm) hna
      · have hb := addrList_bounds hm
        constructor
        · rw [hALold]
          exact List.mem_append_right _
            (List.mem_cons_of_mem _ (List.mem_cons_of_mem _ hm))
        · omega
  have hsz8new : ∀ b ∈ T ++ (⟨x.size + p.size, false⟩ : Blk) :: D, ALIGN_SIZE ∣ b.size := by
    intro b hb
    rcases List.mem_append.mp hb with hb | hb
    · exact hsz8 b (by rw [hT] at hb; exact List.mem_of_mem_take hb)
    · rcases List.mem_cons.mp hb with rfl | hb
      · exact Nat.dvd_add (hsz8 x (blkAt_mem hi)) (hsz8 p (blkAt_mem hk))
      · exact hsz8 b (by rw [hD] at hb; exact List.mem_of_mem_drop hb)
  have hszminnew : ∀ b ∈ T ++ (⟨x.size + p.size, false⟩ : Blk) :: D, 2 * DSIZE ≤ b.size := by
    intro b hb
    rcases List.mem_append.mp hb with hb | hb
    · exact hszmin b (by rw [hT] at hb; exact List.mem_of_mem_take hb)
    · rcases List.mem_cons.mp hb with rfl | hb
      · have := hszmin x (blkAt_mem hi)
        show 2 * DSIZE ≤ x.size + p.size
        omega
      · exact hszmin b (by rw [hD] at hb; exact List.mem_of_mem_drop hb)
  -- chains
  have hsetdec : s.blocks.set (k + 1) ⟨x.size, true⟩ = T ++ p :: (⟨x.size, true⟩ : Blk) :: D := by
    rw [set_decomp hi, take_succ_eq hk, ← hp, ← hT, List.append_assoc, List.singleton_append]
  rw [hsetdec] at hnoadj
  obtain ⟨hchT, hch2, hbdy⟩ := noAdjFree_decomp hnoadj
  obtain ⟨hch3, -⟩ := noAdjFree_cons hch2
  obtain ⟨hchD, -⟩ := noAdjFree_cons hch3
  have hTlast : ∀ l ∈ T.getLast?, l.alloc = true := by
    intro l hl
    rcases hbdy l hl with h | h
    · exact h
    · rw [hpf] at h
      cases h
  have hDhead : ∀ d ∈ D.head?, d.alloc = true := by
    intro d hd
    rcases Nat.lt_or_ge (k + 2) s.blocks.length with h1 | h1
    · rw [hD, drop_decomp h1] at hd
      simp only [List.head?_cons, Option.mem_def, Option.some.injEq] at hd
      subst hd
      rcases hn with h | h
      · omega
      · exact h
    · rw [hD, List.drop_eq_nil_of_le h1] at hd
      simp at hd
  have hnoadjnew : NoAdjFree (T ++ (⟨x.size + p.size, false⟩ : Blk) :: D) :=
    noAdjFree_build hchT hchD (fun l hl => Or.inl (hTlast l hl))
      (fun d hd => Or.inr (hDhead d hd))
  refine merge_inv m hsz8new hszminnew hnoadjnew ?_ ?_ ?_
  · intro j a ha
    have hamem : a ∈ s.buckets j := List.mem_of_mem_erase ha
    obtain ⟨hj, b, hmold, hbfree, hbcls⟩ := hbdom j a hamem
    have hnap : a ≠ A' := by
      rintro rfl
      have := mem_countF_pos hj ha
      omega
    have hana : a ≠ A' + p.size := by
      rintro rfl
      have := mem_countF_pos hj hamem
      omega
    exact ⟨hj, b, hmemnew a b hmold hnap hana, hbfree, hbcls⟩
  · intro a b hm hbf hane
    have hane' : a ≠ A' := hane
    obtain ⟨hmold, hanan⟩ := hmemold a b hm hane'
    rw [countF_remove_ne s.buckets hane']
    refine hcnt1 a b hmold hbf ?_
    rw [hA]
    exact hanan
  · show countF (bkRemove s.buckets A') A' = 0
    exact hc0p

/-- Coalesce case 4 (both neighbours free): the three-way merged state
satisfies the invariant. -/
theorem coalesce_case4_inv {s : AState} {i : Nat}
    (hi : i < s.blocks.length)
    (hfree : (blkAt s.blocks i).alloc = false)
    (hsz8 : ∀ b ∈ s.blocks, ALIGN_SIZE ∣ b.size)
    (hszmin : ∀ b ∈ s.blocks, 2 * DSIZE ≤ b.size)
    (hnoadj : NoAdjFree (s.blocks.set i ⟨(blkAt s.blocks i).size, true⟩))
    (hbdom : ∀ j a, a ∈ s.buckets j → j < MAX_SIZE ∧ ∃ b : Blk,
      (a, b) ∈ addrList s.blocks heapBase ∧ b.alloc = false ∧ find_list_head b.size = j)
    (hcnt1 : ∀ a b, (a, b) ∈ addrList s.blocks heapBase → b.alloc = false →
      a ≠ addrAt s.blocks i → countF s.buckets a = 1)
    (hcnt0 : countF s.buckets (addrAt s.blocks i) = 0)
    (hpi : 0 < i)
    (hpf : (blkAt s.blocks (i - 1)).alloc = false)
    (hn1 : i + 1 < s.blocks.length)
    (hnf : (blkAt s.blocks (i + 1)).alloc = false) (m : Nat → Nat) :
    HeapInv { blocks := (s.blocks.take (i - 1) ++
                  (⟨(blkAt s.blocks i).size + (blkAt s.blocks (i - 1)).size +
                      (blkAt s.blocks (i + 1)).size, false⟩ : Blk) ::
                    s.blocks.drop (i + 2)),
              buckets := (bkInsert
                  (bkRemove (bkRemove s.buckets (addrAt s.blocks (i - 1)))
                    (addrAt s.blocks (i + 1)))
                  (find_list_head ((blkAt s.blocks i).size + (blkAt s.blocks (i - 1)).size +
                      (blkAt s.blocks (i + 1)).size))
                  (addrAt s.blocks (i - 1))),
              mem := m } := by
  obtain ⟨k, rfl⟩ : ∃ k, i = k + 1 := ⟨i - 1, by omega⟩
  simp only [Nat.add_sub_cancel] at hpf ⊢
  have hk : k < s.blocks.length := by omega
  have hk2 : k + 2 < s.blocks.length := by omega
  have hpos : ∀ b ∈ s.blocks, 0 < b.size := fun b hb => by
    have := hszmin b hb
    unfold DSIZE at this
    omega
  set T := s.blocks.take k with hT
  set D := s.blocks.drop (k + 3) with hD
  set p := blkAt s.blocks k with hp
  set x := blkAt s.blocks (k + 1) with hx
  set y := blkAt s.blocks (k + 2) with hy
  set A' := addrAt s.blocks k with hA'
  have hAS : A' = heapBase + sumSz T := rfl
  have hdec : s.blocks = T ++ p :: x :: y :: D := by
    have h1 := blocks_decomp2 hi
    rw [drop_decomp hk2] at h1
    exact h1
  have hA : addrAt s.blocks (k + 1) = A' + p.size := by
    show heapBase + sumSz (s.blocks.take (k + 1)) = A' + p.size
    rw [sumSz_take_succ hk, ← hT, ← hp, hAS]
    omega
  have hAn : addrAt s.blocks (k + 2) = A' + p.size + x.size := by
    show heapBase + sumSz (s.blocks.take (k + 2)) = A' + p.size + x.size
    rw [sumSz_take_succ hi, sumSz_take_succ hk, ← hT, ← hp, ← hx, hAS]
    omega
  have hppos : 0 < p.size := hpos p (blkAt_mem hk)
  have hxpos : 0 < x.size := hpos x (blkAt_mem hi)
  have hypos : 0 < y.size := hpos y (blkAt_mem hk2)
  have hALold : addrList s.blocks heapBase =
      addrList T heapBase ++ (A', p) :: (A' + p.size, x) :: (A' + p.size + x.size, y) ::
        addrList D (A' + p.size + x.size + y.size) := by
    conv_lhs => rw [hdec]
    rw [addrList_append, ← hAS]
    show _ ++ (A', p) :: (A' + p.size, x) :: (A' + p.size + x.size, y) ::
      addrList D (A' + p.size + x.size + y.size) = _
    rfl
  have hALnew : addrList (T ++ (⟨x.size + p.size + y.size, false⟩ : Blk) :: D) heapBase =
      addrList T heapBase ++ (A', (⟨x.size + p.size + y.size, false⟩ : Blk)) ::
        addrList D (A' + p.size + x.size + y.size) := by
    rw [addrList_append, ← hAS]
    show _ ++ (A', (⟨x.size + p.size + y.size, false⟩ : Blk)) ::
      addrList D (A' + (x.size + p.size + y.size)) = _
    rw [show A' + (x.size + p.size + y.size) = A' + p.size + x.size + y.size from by omega]
  have hpkey : ((A' : Nat), p) ∈ addrList s.blocks heapBase := by
    rw [hALold]
    exact List.mem_append_right _ (List.mem_cons_self _ _)
  have hykey : ((A' + p.size + x.size : Nat), y) ∈ addrList s.blocks heapBase := by
    rw [hALold]
    exact List.mem_append_right _
      (List.mem_cons_of_mem _ (List.mem_cons_of_mem _ (List.mem_cons_self _ _)))
  have hA'ne : A' ≠ addrAt s.blocks (k + 1) := by
    rw [hA]
    omega
  have hAnne : A' + p.size + x.size ≠ addrAt s.blocks (k + 1) := by
    rw [hA]
    omega
  have hcp : countF s.buckets A' = 1 := hcnt1 _ p hpkey hpf hA'ne
  have hcy : countF s.buckets (A' + p.size + x.size) = 1 := hcnt1 _ y hykey hnf hAnne
  have hcnt0' : countF s.buckets (A' + p.size) = 0 := by
    rw [← hA]
    exact hcnt0
  have hc1p : countF (bkRemove s.buckets A') A' = 0 :=
    countF_remove_self _ _ (le_of_eq hcp)
  have hc1y : countF (bkRemove s.buckets A') (A' + p.size + x.size) = 1 := by
    rw [countF_remove_ne s.buckets (by omega)]
    exact hcy
  have hc2y : countF (bkRemove (bkRemove s.buckets A') (A' + p.size + x.size))
      (A' + p.size + x.size) = 0 :=
    countF_remove_self _ _ (le_of_eq hc1y)
  have hc2p : countF (bkRemove (bkRemove s.buckets A') (A' + p.size + x.size)) A' = 0 := by
    rw [countF_remove_ne _ (by omega)]
    exact hc1p
  have hmemnew : ∀ a (b : Blk), (a, b) ∈ addrList s.blocks heapBase → a ≠ A' →
      a ≠ A' + p.size → a ≠ A' + p.size + x.size →
      (a, b) ∈ addrList (T ++ (⟨x.size + p.size + y.size, false⟩ : Blk) :: D) heapBase := by
    intro a b hm hna hnax hnay
    rw [hALold] at hm
    rw [hALnew]
    rcases List.mem_append.mp hm with hm | hm
    · exact List.mem_append_left _ hm
    · rcases List.mem_cons.mp hm with hm | hm
      · exact absurd (congrArg Prod.fst hm) hna
      · rcases List.mem_cons.mp hm with hm | hm
        · exact absurd (congrArg Prod.fst hm) hnax
        · rcases List.mem_cons.mp hm with hm | hm
          · exact absurd (congrArg Prod.fst hm) hnay
          · exact List.mem_append_right _ (List.mem_cons_of_mem _ hm)
  have hmemold : ∀ a (b : Blk),
      (a, b) ∈ addrList (T ++ (⟨x.size + p.size + y.size, false⟩ : Blk) :: D) heapBase →
      a ≠ A' →
      (a, b) ∈ addrList s.blocks heapBase ∧ a ≠ A' + p.size ∧ a ≠ A' + p.size + x.size := by
    intro a b hm hna
    rw [hALnew] at hm
    rcases List.mem_append.mp hm with hm | hm
    · have hb := addrList_bounds hm
      have hbpos : 0 < b.size := hpos b (by
        have := addrList_mem_blk hm
        rw [hT] at this
        exact List.mem_of_mem_take this)
      refine ⟨by rw [hALold]; exact List.mem_append_left _ hm, ?_, ?_⟩ <;>
        · rw [hAS] at *
          omega
    · rcases List.mem_cons.mp hm with hm | hm
      · exact absurd (congrArg Prod.fst hm) hna
      · have hb := addrList_bounds hm
        refine ⟨?_, by omega, by omega⟩
        rw [hALold]
        exact List.mem_append_right _ (List.mem_cons_of_mem _ (List.mem_cons_of_mem _
          (List.mem_cons_of_mem _ hm)))
  have hsz8new : ∀ b ∈ T ++ (⟨x.size + p.size + y.size, false⟩ : Blk) :: D,
      ALIGN_SIZE ∣ b.size := by
    intro b hb
    rcases List.mem_append.mp hb with hb | hb
    · exact hsz8 b (by rw [hT] at hb; exact List.mem_of_mem_take hb)
    · rcases List.mem_cons.mp hb with rfl | hb
      · exact Nat.dvd_add (Nat.dvd_add (hsz8 x (blkAt_mem hi)) (hsz8 p (blkAt_mem hk)))
          (hsz8 y (blkAt_mem hk2))
      · exact hsz8 b (by rw [hD] at hb; exact List.mem_of_mem_drop hb)
  have hszminnew : ∀ b ∈ T ++ (⟨x.size + p.size + y.size, false⟩ : Blk) :: D,
      2 * DSIZE ≤ b.size := by
    intro b hb
    rcases List.mem_append.mp hb with hb | hb
    · exact hszmin b (by rw [hT] at hb; exact List.mem_of_mem_take hb)
    · rcases List.mem_cons.mp hb with rfl | hb
      · have := hszmin x (blkAt_mem hi)
        show 2 * DSIZE ≤ x.size + p.size + y.size
        omega
      · exact hszmin b (by rw [hD] at hb; exact List.mem_of_mem_drop hb)
  have hsetdec : s.blocks.set (k + 1) ⟨x.size, true⟩ =
      T ++ p :: (⟨x.size, true⟩ : Blk) :: y :: D := by
    rw [set_decomp hi, take_succ_eq hk, ← hp, ← hT, drop_decomp hk2, ← hy, ← hD,
      List.append_assoc, List.singleton_append]
  rw [hsetdec] at hnoadj
  obtain ⟨hchT, hch2, hbdy⟩ := noAdjFree_decomp hnoadj
  obtain ⟨hch3, -⟩ := noAdjFree_cons hch2
  obtain ⟨hch4, -⟩ := noAdjFree_cons hch3
  obtain ⟨hchD, hyD⟩ := noAdjFree_cons hch4
  have hTlast : ∀ l ∈ T.getLast?, l.alloc = true := by
    intro l hl
    rcases hbdy l hl with h | h
    · exact h
    · rw [hpf] at h
      cases h
  have hDhead : ∀ d ∈ D.head?, d.alloc = true := by
    intro d hd
    rcases hyD d hd with h | h
    · rw [hnf] at h
      cases h
    · exact h
  have hnoadjnew : NoAdjFree (T ++ (⟨x.size + p.size + y.size, false⟩ : Blk) :: D) :=
    noAdjFree_build hchT hchD (fun l hl => Or.inl (hTlast l hl))
      (fun d hd => Or.inr (hDhead d hd))
  rw [hAn]
  refine merge_inv m hsz8new hszminnew hnoadjnew ?_ ?_ ?_
  · intro j a ha
    have hamem1 : a ∈ (bkRemove s.buckets A') j := List.mem_of_mem_erase ha
    have hamem : a ∈ s.buckets j := List.mem_of_mem_erase hamem1
    obtain ⟨hj, b, hmold, hbfree, hbcls⟩ := hbdom j a hamem
    have hnay : a ≠ A' + p.size + x.size := by
      rintro rfl
      have := mem_countF_pos hj ha
      omega
    have hnap : a ≠ A' := by
      rintro rfl
      have := mem_countF_pos hj ha
      omega
    have hnax : a ≠ A' + p.size := by
      rintro rfl
      have := mem_countF_pos hj hamem
      omega
    exact ⟨hj, b, hmemnew a b hmold hnap hnax hnay, hbfree, hbcls⟩
  · intro a b hm hbf hane
    have hane' : a ≠ A' := hane
    obtain ⟨hmold, hanax, hanay⟩ := hmemold a b hm hane'
    rw [countF_remove_ne _ hanay, countF_remove_ne s.buckets hane']
    refine hcnt1 a b hmold hbf ?_
    rw [hA]
    exact hanax
  · show countF (bkRemove (bkRemove s.buckets A') (A' + p.size + x.size)) A' = 0
    exact hc2p

/-- `coalesce` on a freshly freed block (tags cleared, not yet in any
bucket, surroundings satisfying the invariant) restores the heap
invariant; the total block span is unchanged and the returned address
carries a free block at least as large as the freed one. -/
theorem coalesce_inv {s : AState} {i : Nat}
    (hi : i < s.blocks.length)
    (hfree : (blkAt s.blocks i).alloc = false)
    (hsz8 : ∀ b ∈ s.blocks, ALIGN_SIZE ∣ b.size)
    (hszmin : ∀ b ∈ s.blocks, 2 * DSIZE ≤ b.size)
    (hnoadj : NoAdjFree (s.blocks.set i ⟨(blkAt s.blocks i).size, true⟩))
    (hbdom : ∀ j a, a ∈ s.buckets j → j < MAX_SIZE ∧ ∃ b : Blk,
      (a, b) ∈ addrList s.blocks heapBase ∧ b.alloc = false ∧ find_list_head b.size = j)
    (hcnt1 : ∀ a b, (a, b) ∈ addrList s.blocks heapBase → b.alloc = false →
      a ≠ addrAt s.blocks i → countF s.buckets a = 1)
    (hcnt0 : countF s.buckets (addrAt s.blocks i) = 0) :
    HeapInv (coalesce s i).1 ∧ sumSz (coalesce s i).1.blocks = sumSz s.blocks ∧
      ∃ b : Blk, ((coalesce s i).2, b) ∈ addrList (coalesce s i).1.blocks heapBase ∧
        b.alloc = false ∧ (blkAt s.blocks i).size ≤ b.size := by
  cases hcp : (if i = 0 then true else (blkAt s.blocks (i - 1)).alloc) with
  | true =>
    have hp : i = 0 ∨ (blkAt s.blocks (i - 1)).alloc = true := by
      by_cases h0 : i = 0
      · exact Or.inl h0
      · rw [if_neg h0] at hcp
        exact Or.inr hcp
    cases hcn : (if i + 1 = s.blocks.length then true else (blkAt s.blocks (i + 1)).alloc) with
    | true =>
      have hn : i + 1 = s.blocks.length ∨ (blkAt s.blocks (i + 1)).alloc = true := by
        by_cases hL : i + 1 = s.blocks.length
        · exact Or.inl hL
        · rw [if_neg hL] at hcn
          exact Or.inr hcn
      simp only [coalesce, hcp, hcn, Bool.true_and, Bool.and_true, Bool.false_and, Bool.and_false, Bool.not_true,
        Bool.not_false, Bool.false_eq_true, reduceIte]
      refine ⟨coalesce_case1_inv hi hfree hsz8 hszmin hnoadj hbdom hcnt1 hcnt0 hp hn _,
        by trivial, ⟨(blkAt s.blocks i).size, false⟩, ?_, rfl, le_refl _⟩
      have hdecf : s.blocks = s.blocks.take i ++
          (⟨(blkAt s.blocks i).size, false⟩ : Blk) :: s.blocks.drop (i + 1) := by
        conv_lhs => rw [blocks_decomp hi]
        rw [← Blk.eta_free hfree]
      have hmem := addrList_middle (s.blocks.take i) (s.blocks.drop (i + 1))
        ⟨(blkAt s.blocks i).size, false⟩ heapBase
      rw [← hdecf] at hmem
      exact hmem
    | false =>
      have hn1 : i + 1 < s.blocks.length := by
        by_cases hL : i + 1 = s.blocks.length
        · rw [if_pos hL] at hcn
          cases hcn
        · omega
      have hnf : (blkAt s.blocks (i + 1)).alloc = false := by
        rw [if_neg (by omega)] at hcn
        exact hcn
      simp only [coalesce, hcp, hcn, Bool.true_and, Bool.and_true, Bool.false_and, Bool.and_false, Bool.not_true,
        Bool.not_false, Bool.false_eq_true, reduceIte]
      refine ⟨coalesce_case2_inv hi hfree hsz8 hszmin hnoadj hbdom hcnt1 hcnt0 hp hn1 hnf _,
        ?_, ⟨(blkAt s.blocks i).size + (blkAt s.blocks (i + 1)).size, false⟩,
        ?_, rfl, Nat.le_add_right _ _⟩
      · conv_rhs => rw [blocks_decomp2 hn1]
        simp only [sumSz_append, sumSz_cons]
        omega
      · exact addrList_middle (s.blocks.take i) (s.blocks.drop (i + 2))
          ⟨(blkAt s.blocks i).size + (blkAt s.blocks (i + 1)).size, false⟩ heapBase
  | false =>
    have h0 : i ≠ 0 := by
      intro h
      rw [if_pos h] at hcp
      cases hcp
    have hpf : (blkAt s.blocks (i - 1)).alloc = false := by
      rw [if_neg h0] at hcp
      exact hcp
    cases hcn : (if i + 1 = s.blocks.length then true else (blkAt s.blocks (i + 1)).alloc) with
    | true =>
      have hn : i + 1 = s.blocks.length ∨ (blkAt s.blocks (i + 1)).alloc = true := by
        by_cases hL : i + 1 = s.blocks.length
        · exact Or.inl hL
        · rw [if_neg hL] at hcn
          exact Or.inr hcn
      simp only [coalesce, hcp, hcn, Bool.true_and, Bool.and_true, Bool.false_and, Bool.and_false, Bool.not_true,
        Bool.not_false, Bool.false_eq_true, reduceIte]
      refine ⟨coalesce_case3_inv hi hfree hsz8 hszmin hnoadj hbdom hcnt1 hcnt0
        (by omega) hpf hn _, ?_, ?_⟩
      · obtain ⟨k, rfl⟩ : ∃ k, i = k + 1 := ⟨i - 1, by omega⟩
        simp only [Nat.add_sub_cancel]
        conv_rhs => rw [blocks_decomp2 hi]
        simp only [sumSz_append, sumSz_cons, Nat.add_assoc, Nat.reduceAdd]
        omega
      · obtain ⟨k, rfl⟩ : ∃ k, i = k + 1 := ⟨i - 1, by omega⟩
        simp only [Nat.add_sub_cancel]
        exact ⟨⟨(blkAt s.blocks (k + 1)).size + (blkAt s.blocks k).size, false⟩,
          addrList_middle (s.blocks.take k) (s.blocks.drop (k + 2))
            ⟨(blkAt s.blocks (k + 1)).size + (blkAt s.blocks k).size, false⟩ heapBase,
          rfl, Nat.le_add_right _ _⟩
    | false =>
      have hn1 : i + 1 < s.blocks.length := by
        by_cases hL : i + 1 = s.blocks.length
        · rw [if_pos hL] at hcn
          cases hcn
        · omega
      have hnf : (blkAt s.blocks (i + 1)).alloc = false := by
        rw [if_neg (by omega)] at hcn
        exact hcn
      simp only [coalesce, hcp, hcn, Bool.true_and, Bool.and_true, Bool.false_and, Bool.and_false, Bool.not_true,
        Bool.not_false, Bool.false_eq_true, reduceIte]
      refine ⟨coalesce_case4_inv hi hfree hsz8 hszmin hnoadj hbdom hcnt1 hcnt0
        (by omega) hpf hn1 hnf _, ?_, ?_⟩
      · obtain ⟨k, rfl⟩ : ∃ k, i = k + 1 := ⟨i - 1, by omega⟩
        simp only [Nat.add_sub_cancel]
        have hk2 : k + 2 < s.blocks.length := hn1
        conv_rhs => rw [blocks_decomp2 hi, drop_decomp hk2]
        simp only [sumSz_append, sumSz_cons, Nat.add_assoc, Nat.reduceAdd]
        omega
      · obtain ⟨k, rfl⟩ : ∃ k, i = k + 1 := ⟨i - 1, by omega⟩
        simp only [Nat.add_sub_cancel]
        exact ⟨⟨(blkAt s.blocks (k + 1)).size + (blkAt s.blocks k).size +
            (blkAt s.blocks (k + 2)).size, false⟩,
          addrList_middle (s.blocks.take k) (s.blocks.drop (k + 3))
            ⟨(blkAt s.blocks (k + 1)).size + (blkAt s.blocks k).size +
              (blkAt s.blocks (k + 2)).size, false⟩ heapBase,
          rfl, le_trans (Nat.le_add_right _ _) (Nat.le_add_right _ _)⟩

theorem blkAt_append_len (T D : List Blk) (b : Blk) : blkAt (T ++ b :: D) T.length = b := by
  induction T with
  | nil => rfl
  | cons x t ih =>
    show blkAt (x :: (t ++ b :: D)) (t.length + 1) = b
    rw [blkAt_cons_succ]
    exact ih

theorem blkAt_set_self {bs : List Blk} {i : Nat} (h : i < bs.length) (b : Blk) :
    blkAt (bs.set i b) i = b := by
  induction bs generalizing i with
  | nil => simp at h
  | cons x t ih =>
    cases i with
    | zero => rfl
    | succ i =>
      show blkAt (x :: t.set i b) (i + 1) = b
      rw [blkAt_cons_succ]
      exact ih (by simpa using Nat.lt_of_succ_lt_succ h)

theorem take_set_self {bs : List Blk} {i : Nat} (b : Blk) :
    (bs.set i b).take i = bs.take i := by
  induction bs generalizing i with
  | nil => rfl
  | cons x t ih =>
    cases i with
    | zero => rfl
    | succ i =>
      show x :: ((t.set i b).take i) = x :: t.take i
      rw [ih]

theorem addrAt_set {bs : List Blk} {i : Nat} (b : Blk) :
    addrAt (bs.set i b) i = addrAt bs i := by
  unfold addrAt
  rw [take_set_self]

theorem set_blkAt_self {bs : List Blk} {i : Nat} (h : i < bs.length) :
    bs.set i (blkAt bs i) = bs := by
  rw [set_decomp h]
  exact (blocks_decomp h).symm

theorem Blk.eta_alloc {b : Blk} (h : b.alloc = true) : b = ⟨b.size, true⟩ := by
  cases b
  simp_all

theorem noAdjFree_nil : NoAdjFree [] := List.chain'_nil

theorem addrList_decomp {bs : List Blk} {i : Nat} (h : i < bs.length) :
    addrList bs heapBase = addrList (bs.take i) heapBase ++
      (addrAt bs i, blkAt bs i) ::
        addrList (bs.drop (i + 1)) (addrAt bs i + (blkAt bs i).size) := by
  conv_lhs => rw [blocks_decomp h]
  rw [addrList_append]
  rfl

theorem addrList_set {bs : List Blk} {i : Nat} (h : i < bs.length) (b : Blk) :
    addrList (bs.set i b) heapBase = addrList (bs.take i) heapBase ++
      (addrAt bs i, b) :: addrList (bs.drop (i + 1)) (addrAt bs i + b.size) := by
  conv_lhs => rw [set_decomp h b]
  rw [addrList_append]
  rfl

theorem mem_mid_elim {u v : List (Nat × Blk)} {A a : Nat} {x b : Blk}
    (h : (a, b) ∈ u ++ (A, x) :: v) (hne : a ≠ A) : (a, b) ∈ u ∨ (a, b) ∈ v := by
  rcases List.mem_append.mp h with h | h
  · exact Or.inl h
  · rcases List.mem_cons.mp h with h | h
    · exact absurd (congrArg Prod.fst h) hne
    · exact Or.inr h

theorem mem_mid_intro {u v : List (Nat × Blk)} {A a : Nat} {x b : Blk}
    (h : (a, b) ∈ u ∨ (a, b) ∈ v) : (a, b) ∈ u ++ (A, x) :: v := by
  rcases h with h | h
  · exact List.mem_append_left _ h
  · exact List.mem_append_right _ (List.mem_cons_of_mem _ h)

theorem bkRemove_ne {bk : Nat → List Nat} {x a j : Nat} (hj : j < MAX_SIZE)
    (hc : countF bk x ≤ 1) (ha : a ∈ bkRemove bk x j) : a ≠ x := by
  rintro rfl
  have h0 : countF (bkRemove bk a) a = 0 := countF_remove_self _ _ hc
  have := mem_countF_pos hj ha
  omega

theorem isValidAllocB_of_mem {s : AState} (hpos : ∀ b ∈ s.blocks, 0 < b.size) {a : Nat}
    {b : Blk} (h : (a, b) ∈ addrList s.blocks heapBase) (hb : b.alloc = true) :
    isValidAllocB s a = true := by
  obtain ⟨i, hi, hbi⟩ := mem_idxFrom hpos h
  have hi' : idxOf s.blocks a = some i := hi
  simp only [isValidAllocB, hi', hbi, hb]

/-- Freeing a valid pointer preserves the heap invariant and the total
block span. -/
theorem mm_free_inv {s : AState} (H : HeapInv s) {p : Option Nat} (hv : validPtr s p) :
    HeapInv (mm_free s p) ∧ sumSz (mm_free s p).blocks = sumSz s.blocks := by
  cases p with
  | none => exact ⟨H, rfl⟩
  | some a =>
    have hv' : isValidAllocB s a = true := hv
    rcases hidx : idxOf s.blocks a with _ | i
    · simp only [isValidAllocB, hidx] at hv'
      exact absurd hv' (by decide)
    · simp only [isValidAllocB, hidx] at hv'
      have hidx' : idxFrom s.blocks heapBase a = some i := hidx
      obtain ⟨hi, hmemA, haddr⟩ := idxFrom_mem hidx'
      have haA : a = addrAt s.blocks i := haddr
      simp only [mm_free, hidx]
      set x := blkAt s.blocks i with hx
      have hcnt0A : countF s.buckets (addrAt s.blocks i) = 0 := by
        rw [← haA]
        exact H.countB_alloc (haA ▸ hmemA) hv'
      have hset : i < (s.blocks.set i (⟨x.size, false⟩ : Blk)).length := by
        rw [List.length_set]
        exact hi
      have hfree' : (blkAt (s.blocks.set i (⟨x.size, false⟩ : Blk)) i).alloc = false := by
        rw [blkAt_set_self hi]
      have hsz8' : ∀ b ∈ s.blocks.set i (⟨x.size, false⟩ : Blk), ALIGN_SIZE ∣ b.size := by
        intro b hb
        rcases List.mem_or_eq_of_mem_set hb with hb | rfl
        · exact H.sz8 b hb
        · exact H.sz8 x (blkAt_mem hi)
      have hszmin' : ∀ b ∈ s.blocks.set i (⟨x.size, false⟩ : Blk), 2 * DSIZE ≤ b.size := by
        intro b hb
        rcases List.mem_or_eq_of_mem_set hb with hb | rfl
        · exact H.szmin b hb
        · exact H.szmin x (blkAt_mem hi)
      have hnoadj' : NoAdjFree ((s.blocks.set i (⟨x.size, false⟩ : Blk)).set i
          ⟨(blkAt (s.blocks.set i (⟨x.size, false⟩ : Blk)) i).size, true⟩) := by
        rw [blkAt_set_self hi]
        show NoAdjFree ((s.blocks.set i (⟨x.size, false⟩ : Blk)).set i (⟨x.size, true⟩ : Blk))
        rw [List.set_set, ← Blk.eta_alloc hv', hx, set_blkAt_self hi]
        exact H.noadj
      have hbdom' : ∀ j a', a' ∈ s.buckets j → j < MAX_SIZE ∧ ∃ b : Blk,
          (a', b) ∈ addrList (s.blocks.set i (⟨x.size, false⟩ : Blk)) heapBase ∧
            b.alloc = false ∧ find_list_head b.size = j := by
        intro j a' ha'
        obtain ⟨hj, b, hmold, hbf, hbc⟩ := H.bdom j a' ha'
        have hane : a' ≠ addrAt s.blocks i := by
          rintro rfl
          have := mem_countF_pos hj ha'
          omega
        refine ⟨hj, b, ?_, hbf, hbc⟩
        rw [addrList_set hi]
        rw [addrList_decomp hi] at hmold
        exact mem_mid_intro (mem_mid_elim hmold hane)
      have hcnt1' : ∀ a' b, (a', b) ∈ addrList (s.blocks.set i (⟨x.size, false⟩ : Blk))
            heapBase → b.alloc = false →
          a' ≠ addrAt (s.blocks.set i (⟨x.size, false⟩ : Blk)) i →
          countF s.buckets a' = 1 := by
        intro a' b hm hbf hane
        have hane' : a' ≠ addrAt s.blocks i := by
          rwa [addrAt_set] at hane
        rw [addrList_set hi] at hm
        have hmold : (a', b) ∈ addrList s.blocks heapBase := by
          rw [addrList_decomp hi]
          exact mem_mid_intro (mem_mid_elim hm hane')
        exact H.cnt1 a' b hmold hbf
      have hcnt0' : countF s.buckets
          (addrAt (s.blocks.set i (⟨x.size, false⟩ : Blk)) i) = 0 := by
        rw [addrAt_set]
        exact hcnt0A
      obtain ⟨H1, H2, -⟩ := @coalesce_inv ⟨s.blocks.set i (⟨x.size, false⟩ : Blk), s.buckets,
        applyWrites s.mem [(a - WSIZE, PACK x.size 0), (a + x.size - DSIZE, PACK x.size 0)]⟩ i
        hset hfree' hsz8' hszmin' hnoadj' hbdom' hcnt1' hcnt0'
      refine ⟨H1, ?_⟩
      rw [H2]
      conv_rhs => rw [blocks_decomp hi, ← hx]
      rw [set_decomp hi]
      simp only [sumSz_append, sumSz_cons]

/-- Extending the heap by at least four words preserves the invariant;
on success the returned payload address carries a free block at least
as large as the extension. -/
theorem extend_heap_inv {s : AState} (H : HeapInv s) {words : Nat} (hw : 4 ≤ words)
    (ok : Bool) :
    HeapInv (extend_heap s words ok).1 ∧
      ∀ bp, (extend_heap s words ok).2 = some bp →
        ∃ b : Blk, (bp, b) ∈ addrList (extend_heap s words ok).1.blocks heapBase ∧
          b.alloc = false ∧
          (if words % 2 = 1 then (words + 1) * WSIZE else words * WSIZE) ≤ b.size := by
  cases ok with
  | false =>
    refine ⟨H, fun bp h => ?_⟩
    rw [show (extend_heap s words false).2 = none from rfl] at h
    cases h
  | true =>
    have hSZdvd : ALIGN_SIZE ∣ (if words % 2 = 1 then (words + 1) * WSIZE else words * WSIZE) := by
      split
      · exact Dvd.intro _ (Nat.mul_comm _ _)
      · exact Dvd.intro _ (Nat.mul_comm _ _)
    have hSZmin : 2 * DSIZE ≤ (if words % 2 = 1 then (words + 1) * WSIZE else words * WSIZE) := by
      unfold DSIZE WSIZE
      split <;> omega
    set SZ := if words % 2 = 1 then (words + 1) * WSIZE else words * WSIZE with hSZ
    simp only [extend_heap, reduceIte, ← hSZ]
    have hlen : s.blocks.length < (s.blocks ++ [(⟨SZ, false⟩ : Blk)]).length := by
      rw [List.length_append]
      simp
    have htake : (s.blocks ++ [(⟨SZ, false⟩ : Blk)]).take s.blocks.length = s.blocks := by
      rw [List.take_append_of_le_length (le_refl _), List.take_length]
    have hE : addrAt (s.blocks ++ [(⟨SZ, false⟩ : Blk)]) s.blocks.length =
        heapBase + sumSz s.blocks := by
      unfold addrAt
      rw [htake]
    have hblk : blkAt (s.blocks ++ [(⟨SZ, false⟩ : Blk)]) s.blocks.length =
        (⟨SZ, false⟩ : Blk) := blkAt_append_len _ _ _
    have hALapp : addrList (s.blocks ++ [(⟨SZ, false⟩ : Blk)]) heapBase =
        addrList s.blocks heapBase ++
          [(heapBase + sumSz s.blocks, (⟨SZ, false⟩ : Blk))] := by
      rw [addrList_append]
      rfl
    have hfree' : (blkAt (s.blocks ++ [(⟨SZ, false⟩ : Blk)]) s.blocks.length).alloc = false := by
      rw [hblk]
    have hsz8' : ∀ b ∈ s.blocks ++ [(⟨SZ, false⟩ : Blk)], ALIGN_SIZE ∣ b.size := by
      intro b hb
      rcases List.mem_append.mp hb with hb | hb
      · exact H.sz8 b hb
      · rcases List.mem_singleton.mp hb with rfl
        exact hSZdvd
    have hszmin' : ∀ b ∈ s.blocks ++ [(⟨SZ, false⟩ : Blk)], 2 * DSIZE ≤ b.size := by
      intro b hb
      rcases List.mem_append.mp hb with hb | hb
      · exact H.szmin b hb
      · rcases List.mem_singleton.mp hb with rfl
        exact hSZmin
    have hsetapp : (s.blocks ++ [(⟨SZ, false⟩ : Blk)]).set s.blocks.length
        (⟨SZ, true⟩ : Blk) = s.blocks ++ [(⟨SZ, true⟩ : Blk)] := by
      rw [set_decomp hlen, htake]
      rw [List.drop_eq_nil_of_le (by rw [List.length_append]; simp)]
    have hnoadj' : NoAdjFree ((s.blocks ++ [(⟨SZ, false⟩ : Blk)]).set s.blocks.length
        ⟨(blkAt (s.blocks ++ [(⟨SZ, false⟩ : Blk)]) s.blocks.length).size, true⟩) := by
      rw [hblk]
      show NoAdjFree ((s.blocks ++ [(⟨SZ, false⟩ : Blk)]).set s.blocks.length
        (⟨SZ, true⟩ : Blk))
      rw [hsetapp]
      exact noAdjFree_build H.noadj noAdjFree_nil
        (fun l hl => Or.inr rfl) (fun d hd => by cases hd)
    have hnonkey : ∀ b : Blk, (heapBase + sumSz s.blocks, b) ∉ addrList s.blocks heapBase := by
      intro b hb
      have hbd := addrList_bounds hb
      have hbp := H.pos b (addrList_mem_blk hb)
      omega
    have hbdom' : ∀ j a', a' ∈ s.buckets j → j < MAX_SIZE ∧ ∃ b : Blk,
        (a', b) ∈ addrList (s.blocks ++ [(⟨SZ, false⟩ : Blk)]) heapBase ∧
          b.alloc = false ∧ find_list_head b.size = j := by
      intro j a' ha'
      obtain ⟨hj, b, hmold, hbf, hbc⟩ := H.bdom j a' ha'
      exact ⟨hj, b, by rw [hALapp]; exact List.mem_append_left _ hmold, hbf, hbc⟩
    have hcnt1' : ∀ a' b, (a', b) ∈ addrList (s.blocks ++ [(⟨SZ, false⟩ : Blk)]) heapBase →
        b.alloc = false →
        a' ≠ addrAt (s.blocks ++ [(⟨SZ, false⟩ : Blk)]) s.blocks.length →
        countF s.buckets a' = 1 := by
      intro a' b hm hbf hane
      rw [hE] at hane
      rw [hALapp] at hm
      rcases List.mem_append.mp hm with hm | hm
      · exact H.cnt1 a' b hm hbf
      · rcases List.mem_singleton.mp hm with hm
        exact absurd (congrArg Prod.fst hm) hane
    have hcnt0' : countF s.buckets
        (addrAt (s.blocks ++ [(⟨SZ, false⟩ : Blk)]) s.blocks.length) = 0 := by
      rw [hE]
      exact H.countB_nonkey hnonkey
    obtain ⟨H1, -, hres⟩ := @coalesce_inv ⟨s.blocks ++ [(⟨SZ, false⟩ : Blk)], s.buckets,
      applyWrites s.mem
        [(heapEnd s - WSIZE, PACK SZ 0), (heapEnd s + SZ - DSIZE, PACK SZ 0),
         (heapEnd s + SZ - WSIZE, PACK 0 1)]⟩ s.blocks.length
      hlen hfree' hsz8' hszmin' hnoadj' hbdom' hcnt1' hcnt0'
    refine ⟨H1, fun bp hbp => ?_⟩
    obtain ⟨b, hbm, hbf, hble⟩ := hres
    rw [hblk] at hble
    cases hbp
    exact ⟨b, hbm, hbf, hble⟩

theorem ffScan_sound {s : AState} {asize : Nat} {js : List Nat} {a : Nat}
    (h : ffScan s asize js = some a) :
    ∃ j ∈ js, a ∈ s.buckets j ∧ asize ≤ sizeAtD s a := by
  induction js with
  | nil => cases h
  | cons j rest ih =>
    unfold ffScan at h
    rcases hf : (s.buckets j).find? (fun a => decide (asize ≤ sizeAtD s a)) with _ | a'
    · rw [hf] at h
      obtain ⟨j', hj', hmem, hsz⟩ := ih h
      exact ⟨j', List.mem_cons_of_mem _ hj', hmem, hsz⟩
    · rw [hf] at h
      cases h
      refine ⟨j, List.mem_cons_self _ _, List.mem_of_find?_eq_some hf, ?_⟩
      have := List.find?_some hf
      exact of_decide_eq_true this

/-- Soundness of the free-list search: a hit is a free block of
sufficient size. -/
theorem find_fit_sound {s : AState} (H : HeapInv s) {asize bp : Nat}
    (h : find_fit s asize = some bp) :
    ∃ b : Blk, (bp, b) ∈ addrList s.blocks heapBase ∧ b.alloc = false ∧ asize ≤ b.size := by
  simp only [find_fit] at h
  obtain ⟨j, -, hmem, hsz⟩ := ffScan_sound h
  obtain ⟨-, b, hentry, hbf, -⟩ := H.bdom j bp hmem
  refine ⟨b, hentry, hbf, ?_⟩
  obtain ⟨i, hi, hbi⟩ := mem_idxFrom H.pos hentry
  have hi' : idxOf s.blocks bp = some i := hi
  simp only [sizeAtD, hi', hbi] at hsz
  exact hsz

/-- `place` on a free block of sufficient (aligned, minimum-sized)
request preserves the invariant and the total span. -/
theorem place_inv {s : AState} (H : HeapInv s) {a asize : Nat} {b : Blk}
    (hmem : (a, b) ∈ addrList s.blocks heapBase) (hbf : b.alloc = false)
    (hdvd : ALIGN_SIZE ∣ asize) (hmin : 2 * DSIZE ≤ asize) (hle : asize ≤ b.size) :
    HeapInv (place s a asize) ∧ sumSz (place s a asize).blocks = sumSz s.blocks := by
  obtain ⟨i, hidx, hbi⟩ := mem_idxFrom H.pos hmem
  subst hbi
  have hidx' : idxOf s.blocks a = some i := hidx
  obtain ⟨hi, -, haddr⟩ := idxFrom_mem hidx
  simp only [place, hidx']
  set x := blkAt s.blocks i with hx
  have haA : a = addrAt s.blocks i := haddr
  have hxpos : 0 < x.size := H.pos x (blkAt_mem hi)
  have hD16 : DSIZE = 16 := rfl
  have hcnt_a : countF s.buckets a = 1 := H.cnt1 a x hmem hbf
  have hALold : addrList s.blocks heapBase = addrList (s.blocks.take i) heapBase ++
      (a, x) :: addrList (s.blocks.drop (i + 1)) (a + x.size) := by
    rw [addrList_decomp hi, ← haA]
  have hdecf : s.blocks = s.blocks.take i ++ x :: s.blocks.drop (i + 1) := blocks_decomp hi
  have hno : NoAdjFree (s.blocks.take i ++ x :: s.blocks.drop (i + 1)) := hdecf ▸ H.noadj
  obtain ⟨hchT, hch2, -⟩ := noAdjFree_decomp hno
  obtain ⟨hchD, hxD⟩ := noAdjFree_cons hch2
  have hDhead : ∀ d ∈ (s.blocks.drop (i + 1)).head?, d.alloc = true := by
    intro d hd
    rcases hxD d hd with h | h
    · rw [hbf] at h
      cases h
    · exact h
  by_cases hsp : 2 * DSIZE ≤ x.size - asize
  · rw [if_pos hsp]
    have hbl : s.blocks.take i ++ (⟨asize, true⟩ : Blk) ::
          (⟨x.size - asize, false⟩ : Blk) :: s.blocks.drop (i + 1) =
        (s.blocks.take i ++ [(⟨asize, true⟩ : Blk)]) ++
          (⟨x.size - asize, false⟩ : Blk) :: s.blocks.drop (i + 1) := by
      rw [List.append_assoc]
      rfl
    have hTsum : heapBase + sumSz (s.blocks.take i ++ [(⟨asize, true⟩ : Blk)]) = a + asize := by
      rw [sumSz_append]
      have h1 : sumSz [(⟨asize, true⟩ : Blk)] = asize := by
        simp [sumSz]
      rw [h1]
      omega
    have hALnew : addrList ((s.blocks.take i ++ [(⟨asize, true⟩ : Blk)]) ++
          (⟨x.size - asize, false⟩ : Blk) :: s.blocks.drop (i + 1)) heapBase =
        addrList (s.blocks.take i) heapBase ++
          (a, (⟨asize, true⟩ : Blk)) :: (a + asize, (⟨x.size - asize, false⟩ : Blk)) ::
            addrList (s.blocks.drop (i + 1)) (a + x.size) := by
      rw [← hbl, addrList_append]
      have h1 : heapBase + sumSz (s.blocks.take i) = a := haddr.symm
      rw [h1]
      show addrList (s.blocks.take i) heapBase ++
        (a, (⟨asize, true⟩ : Blk)) :: (a + asize, (⟨x.size - asize, false⟩ : Blk)) ::
          addrList (s.blocks.drop (i + 1)) (a + asize + (x.size - asize)) = _
      rw [show a + asize + (x.size - asize) = a + x.size from by omega]
    have hsz8n : ∀ b' ∈ (s.blocks.take i ++ [(⟨asize, true⟩ : Blk)]) ++
        (⟨x.size - asize, false⟩ : Blk) :: s.blocks.drop (i + 1), ALIGN_SIZE ∣ b'.size := by
      intro b' hb'
      rw [← hbl] at hb'
      rcases List.mem_append.mp hb' with h | h
      · exact H.sz8 b' (List.mem_of_mem_take h)
      · rcases List.mem_cons.mp h with rfl | h
        · exact hdvd
        · rcases List.mem_cons.mp h with rfl | h
          · exact Nat.dvd_sub' (H.sz8 x (blkAt_mem hi)) hdvd
          · exact H.sz8 b' (List.mem_of_mem_drop h)
    have hszminn : ∀ b' ∈ (s.blocks.take i ++ [(⟨asize, true⟩ : Blk)]) ++
        (⟨x.size - asize, false⟩ : Blk) :: s.blocks.drop (i + 1), 2 * DSIZE ≤ b'.size := by
      intro b' hb'
      rw [← hbl] at hb'
      rcases List.mem_append.mp hb' with h | h
      · exact H.szmin b' (List.mem_of_mem_take h)
      · rcases List.mem_cons.mp h with rfl | h
        · exact hmin
        · rcases List.mem_cons.mp h with rfl | h
          · exact hsp
          · exact H.szmin b' (List.mem_of_mem_drop h)
    have hinner : NoAdjFree (([] : List Blk) ++ (⟨x.size - asize, false⟩ : Blk) ::
        s.blocks.drop (i + 1)) :=
      noAdjFree_build noAdjFree_nil hchD (fun l hl => by simp at hl)
        (fun d hd => Or.inr (hDhead d hd))
    have hnoadjn : NoAdjFree ((s.blocks.take i ++ [(⟨asize, true⟩ : Blk)]) ++
        (⟨x.size - asize, false⟩ : Blk) :: s.blocks.drop (i + 1)) := by
      rw [← hbl]
      exact noAdjFree_build hchT hinner (fun l hl => Or.inr rfl) (fun d hd => Or.inl rfl)
    have hbdomn : ∀ j a', a' ∈ bkRemove s.buckets a j → j < MAX_SIZE ∧ ∃ b' : Blk,
        (a', b') ∈ addrList ((s.blocks.take i ++ [(⟨asize, true⟩ : Blk)]) ++
          (⟨x.size - asize, false⟩ : Blk) :: s.blocks.drop (i + 1)) heapBase ∧
          b'.alloc = false ∧ find_list_head b'.size = j := by
      intro j a' ha'
      have ha'' := List.mem_of_mem_erase ha'
      obtain ⟨hj, b', hm', hbf', hbc'⟩ := H.bdom j a' ha''
      have hane : a' ≠ a := bkRemove_ne hj (le_of_eq hcnt_a) ha'
      refine ⟨hj, b', ?_, hbf', hbc'⟩
      rw [hALnew]
      rw [hALold] at hm'
      rcases mem_mid_elim hm' hane with h | h
      · exact List.mem_append_left _ h
      · exact List.mem_append_right _ (List.mem_cons_of_mem _ (List.mem_cons_of_mem _ h))
    have hcnt1n : ∀ a' b', (a', b') ∈ addrList ((s.blocks.take i ++ [(⟨asize, true⟩ : Blk)]) ++
          (⟨x.size - asize, false⟩ : Blk) :: s.blocks.drop (i + 1)) heapBase →
        b'.alloc = false →
        a' ≠ heapBase + sumSz (s.blocks.take i ++ [(⟨asize, true⟩ : Blk)]) →
        countF (bkRemove s.buckets a) a' = 1 := by
      intro a' b' hm' hbf' hane
      rw [hTsum] at hane
      rw [hALnew] at hm'
      rcases List.mem_append.mp hm' with h | h
      · have hb := addrList_bounds h
        have hppos : 0 < b'.size := H.pos b' (List.mem_of_mem_take (addrList_mem_blk h))
        have hane2 : a' ≠ a := by
          rw [haA]
          show a' ≠ heapBase + sumSz (s.blocks.take i)
          omega
        rw [countF_remove_ne s.buckets hane2]
        exact H.cnt1 a' b' (by rw [hALold]; exact mem_mid_intro (Or.inl h)) hbf'
      · rcases List.mem_cons.mp h with hEq | h
        · have hb2 : b' = ⟨asize, true⟩ := congrArg Prod.snd hEq
          rw [hb2] at hbf'
          exact Bool.noConfusion hbf'
        · rcases List.mem_cons.mp h with hEq | h
          · exact absurd (congrArg Prod.fst hEq) hane
          · have hb := addrList_bounds h
            have hane2 : a' ≠ a := by omega
            rw [countF_remove_ne s.buckets hane2]
            exact H.cnt1 a' b' (by rw [hALold]; exact mem_mid_intro (Or.inr h)) hbf'
    have hcnt0n : countF (bkRemove s.buckets a)
        (heapBase + sumSz (s.blocks.take i ++ [(⟨asize, true⟩ : Blk)])) = 0 := by
      rw [hTsum]
      have hnk : ∀ b0 : Blk, (a + asize, b0) ∉ addrList s.blocks heapBase := by
        intro b0 hb0
        have hb0pos := H.pos b0 (addrList_mem_blk hb0)
        rcases addrList_trichotomy hb0 hmem with h | h | h
        · omega
        · omega
        · omega
      have h0 : countF s.buckets (a + asize) = 0 := H.countB_nonkey hnk
      rw [countF_remove_ne s.buckets (by omega : a + asize ≠ a)]
      exact h0
    constructor
    · rw [hbl, ← hTsum]
      exact merge_inv _ hsz8n hszminn hnoadjn hbdomn hcnt1n hcnt0n
    · conv_rhs => rw [blocks_decomp hi, ← hx]
      simp only [sumSz_append, sumSz_cons]
      omega
  · rw [if_neg hsp]
    have hpr : (⟨x.size, true⟩ : Blk).size = x.size := rfl
    refine ⟨⟨?_, ?_, ?_, ?_, ?_⟩, ?_⟩
    · intro b' hb'
      rcases List.mem_or_eq_of_mem_set hb' with h | rfl
      · exact H.sz8 b' h
      · exact H.sz8 x (blkAt_mem hi)
    · intro b' hb'
      rcases List.mem_or_eq_of_mem_set hb' with h | rfl
      · exact H.szmin b' h
      · exact H.szmin x (blkAt_mem hi)
    · show NoAdjFree (s.blocks.set i (⟨x.size, true⟩ : Blk))
      rw [set_decomp hi]
      exact noAdjFree_build hchT hchD (fun l hl => Or.inr rfl) (fun d hd => Or.inl rfl)
    · intro j a' ha'
      have ha'' := List.mem_of_mem_erase ha'
      obtain ⟨hj, b', hm', hbf', hbc'⟩ := H.bdom j a' ha''
      have hane : a' ≠ a := bkRemove_ne hj (le_of_eq hcnt_a) ha'
      refine ⟨hj, b', ?_, hbf', hbc'⟩
      show (a', b') ∈ addrList (s.blocks.set i (⟨x.size, true⟩ : Blk)) heapBase
      rw [addrList_set hi, ← haA]
      rw [hALold] at hm'
      exact mem_mid_intro (mem_mid_elim hm' hane)
    · intro a' b' hm' hbf'
      show countF (bkRemove s.buckets a) a' = 1
      have hm'' : (a', b') ∈ addrList (s.blocks.set i (⟨x.size, true⟩ : Blk)) heapBase := hm'
      rw [addrList_set hi, ← haA] at hm''
      by_cases hane : a' = a
      · subst hane
        exfalso
        rcases List.mem_append.mp hm'' with h | h
        · have hb := addrList_bounds h
          have hppos : 0 < b'.size := H.pos b' (List.mem_of_mem_take (addrList_mem_blk h))
          rw [haA] at hb
          omega
        · rcases List.mem_cons.mp h with hEq | h
          · have hb2 : b' = ⟨x.size, true⟩ := congrArg Prod.snd hEq
            rw [hb2] at hbf'
            exact Bool.noConfusion hbf'
          · have hb := addrList_bounds h
            rw [hpr] at hb
            omega
      · rcases mem_mid_elim hm'' hane with h | h
        · rw [countF_remove_ne s.buckets hane]
          exact H.cnt1 a' b' (by rw [hALold]; exact mem_mid_intro (Or.inl h)) hbf'
        · rw [countF_remove_ne s.buckets hane]
          refine H.cnt1 a' b' ?_ hbf'
          rw [hALold]
          refine mem_mid_intro (Or.inr ?_)
          have hbase : a + (⟨x.size, true⟩ : Blk).size = a + x.size := by rw [hpr]
          rw [← hbase]
          exact h
    · show sumSz (s.blocks.set i (⟨x.size, true⟩ : Blk)) = sumSz s.blocks
      rw [set_decomp hi]
      conv_rhs => rw [blocks_decomp hi, ← hx]
      simp only [sumSz_append, sumSz_cons]

/-- `mm_malloc` preserves the heap invariant, and every address it
returns is double-word... (ALIGN_SIZE-)aligned payload address of a block. -/
theorem mm_malloc_inv {s : AState} (H : HeapInv s) (n : Nat) (ok : Bool) :
    HeapInv (mm_malloc s n ok).1 ∧
      ∀ bp, (mm_malloc s n ok).2 = some bp → ALIGN_SIZE ∣ bp := by
  by_cases hn : n = 0
  · subst hn
    simp only [mm_malloc, if_pos rfl]
    exact ⟨H, fun bp h => Option.noConfusion h⟩
  · simp only [mm_malloc, if_neg hn]
    rcases hff : find_fit s (asizeOf n) with _ | bp
    · have hw4 : 4 ≤ max (asizeOf n) CHUNKSIZE / WSIZE := by
        have h1 : CHUNKSIZE ≤ max (asizeOf n) CHUNKSIZE := Nat.le_max_right _ _
        have h2 : CHUNKSIZE / WSIZE ≤ max (asizeOf n) CHUNKSIZE / WSIZE :=
          Nat.div_le_div_right h1
        have h3 : CHUNKSIZE / WSIZE = 512 := by decide
        omega
      obtain ⟨HE, hres⟩ := extend_heap_inv H hw4 ok
      rcases hex : extend_heap s (max (asizeOf n) CHUNKSIZE / WSIZE) ok with ⟨s1, r⟩
      rw [hex] at HE hres
      rcases r with _ | bp
      · exact ⟨HE, fun bp h => Option.noConfusion h⟩
      · obtain ⟨b, hment, hbf, hble⟩ := hres bp rfl
        have h8max : ALIGN_SIZE ∣ max (asizeOf n) CHUNKSIZE := by
          rcases max_choice (asizeOf n) CHUNKSIZE with h | h
          · rw [h]
            exact asizeOf_dvd n
          · rw [h]
            decide
        have hws8 : (max (asizeOf n) CHUNKSIZE / WSIZE) * WSIZE = max (asizeOf n) CHUNKSIZE :=
          Nat.div_mul_cancel h8max
        have hgrow : asizeOf n ≤ (if (max (asizeOf n) CHUNKSIZE / WSIZE) % 2 = 1
            then ((max (asizeOf n) CHUNKSIZE / WSIZE) + 1) * WSIZE
            else (max (asizeOf n) CHUNKSIZE / WSIZE) * WSIZE) := by
          have hmaxle : asizeOf n ≤ max (asizeOf n) CHUNKSIZE := Nat.le_max_left _ _
          have hW8 : WSIZE = 8 := rfl
          rw [hW8] at hws8 ⊢
          split <;> omega
        obtain ⟨Hp, -⟩ := place_inv HE hment hbf (asizeOf_dvd n) (asizeOf_min n)
          (le_trans hgrow hble)
        refine ⟨Hp, fun bp' hbp' => ?_⟩
        cases hbp'
        exact addrList_align HE.sz8 (by decide) hment
    · obtain ⟨b, hment, hbf, hble⟩ := find_fit_sound H hff
      obtain ⟨Hp, -⟩ := place_inv H hment hbf (asizeOf_dvd n) (asizeOf_min n) hble
      refine ⟨Hp, fun bp' hbp' => ?_⟩
      cases hbp'
      exact addrList_align H.sz8 (by decide) hment

theorem addrAt_mem {bs : List Blk} {i : Nat} (h : i < bs.length) :
    (addrAt bs i, blkAt bs i) ∈ addrList bs heapBase := by
  rw [addrList_decomp h]
  exact List.mem_append_right _ (List.mem_cons_self _ _)

theorem key_ne_of_alloc {bs : List Blk} (hpos : ∀ b ∈ bs, 0 < b.size) {a : Nat} {b : Blk}
    {i : Nat} (hm : (a, b) ∈ addrList bs heapBase) (hba : b.alloc = true)
    (hi : i < bs.length) (hif : (blkAt bs i).alloc = false) : a ≠ addrAt bs i := by
  rintro rfl
  rw [addrList_key_unique hpos hm (addrAt_mem hi)] at hba
  rw [hba] at hif
  exact Bool.noConfusion hif

theorem addrAt_succ {bs : List Blk} {i : Nat} (h : i < bs.length) :
    addrAt bs (i + 1) = addrAt bs i + (blkAt bs i).size := by
  unfold addrAt
  rw [sumSz_take_succ h]
  omega

/-- `coalesce` never moves or retags an allocated block: every
allocated (address, block) pair of the heap survives. -/
theorem coalesce_preserves_alloc {s : AState} {i : Nat}
    (hi : i < s.blocks.length)
    (hfree : (blkAt s.blocks i).alloc = false)
    (hpos : ∀ b ∈ s.blocks, 0 < b.size) :
    ∀ a b, (a, b) ∈ addrList s.blocks heapBase → b.alloc = true →
      (a, b) ∈ addrList (coalesce s i).1.blocks heapBase := by
  intro a b hm hba
  have hrfl : addrAt s.blocks i = heapBase + sumSz (s.blocks.take i) := rfl
  cases hcp : (if i = 0 then true else (blkAt s.blocks (i - 1)).alloc) with
  | true =>
    cases hcn : (if i + 1 = s.blocks.length then true else (blkAt s.blocks (i + 1)).alloc) with
    | true =>
      simp only [coalesce, hcp, hcn, Bool.true_and, Bool.and_true, Bool.false_and,
        Bool.and_false, Bool.not_true, Bool.not_false, Bool.false_eq_true, reduceIte]
      exact hm
    | false =>
      have hn1 : i + 1 < s.blocks.length := by
        by_cases hL : i + 1 = s.blocks.length
        · rw [if_pos hL] at hcn
          cases hcn
        · omega
      have hnf : (blkAt s.blocks (i + 1)).alloc = false := by
        rw [if_neg (by omega)] at hcn
        exact hcn
      simp only [coalesce, hcp, hcn, Bool.true_and, Bool.and_true, Bool.false_and,
        Bool.and_false, Bool.not_true, Bool.not_false, Bool.false_eq_true, reduceIte]
      have hne1 : a ≠ addrAt s.blocks i := key_ne_of_alloc hpos hm hba hi hfree
      have hne2 : a ≠ addrAt s.blocks (i + 1) := key_ne_of_alloc hpos hm hba hn1 hnf
      rw [addrList_decomp hi, drop_decomp hn1] at hm
      show (a, b) ∈ addrList (s.blocks.take i ++
        (⟨(blkAt s.blocks i).size + (blkAt s.blocks (i + 1)).size, false⟩ : Blk) ::
          s.blocks.drop (i + 2)) heapBase
      rw [addrList_append]
      rcases mem_mid_elim hm hne1 with h | h
      · exact List.mem_append_left _ h
      · have h2 : (a, b) ∈ (addrAt s.blocks i + (blkAt s.blocks i).size,
            blkAt s.blocks (i + 1)) :: addrList (s.blocks.drop (i + 2))
              (addrAt s.blocks i + (blkAt s.blocks i).size + (blkAt s.blocks (i + 1)).size) := h
        rcases List.mem_cons.mp h2 with hEq | h3
        · exfalso
          apply hne2
          rw [addrAt_succ hi]
          exact congrArg Prod.fst hEq
        · have hbase : addrAt s.blocks i + (blkAt s.blocks i).size +
              (blkAt s.blocks (i + 1)).size = heapBase + sumSz (s.blocks.take i) +
                ((blkAt s.blocks i).size + (blkAt s.blocks (i + 1)).size) := by
            omega
          rw [hbase] at h3
          exact List.mem_append_right _ (List.mem_cons_of_mem _ h3)
  | false =>
    have h0 : i ≠ 0 := by
      intro h
      rw [if_pos h] at hcp
      cases hcp
    have hpf : (blkAt s.blocks (i - 1)).alloc = false := by
      rw [if_neg h0] at hcp
      exact hcp
    cases hcn : (if i + 1 = s.blocks.length then true else (blkAt s.blocks (i + 1)).alloc) with
    | true =>
      simp only [coalesce, hcp, hcn, Bool.true_and, Bool.and_true, Bool.false_and,
        Bool.and_false, Bool.not_true, Bool.not_false, Bool.false_eq_true, reduceIte]
      obtain ⟨k, rfl⟩ : ∃ k, i = k + 1 := ⟨i - 1, by omega⟩
      simp only [Nat.add_sub_cancel] at hpf ⊢
      have hk : k < s.blocks.length := by omega
      have hne1 : a ≠ addrAt s.blocks (k + 1) := key_ne_of_alloc hpos hm hba hi hfree
      have hne0 : a ≠ addrAt s.blocks k := key_ne_of_alloc hpos hm hba hk hpf
      rw [addrList_decomp hk, drop_decomp hi] at hm
      show (a, b) ∈ addrList (s.blocks.take k ++
        (⟨(blkAt s.blocks (k + 1)).size + (blkAt s.blocks k).size, false⟩ : Blk) ::
          s.blocks.drop (k + 2)) heapBase
      rw [addrList_append]
      rcases mem_mid_elim hm hne0 with h | h
      · exact List.mem_append_left _ h
      · have h2 : (a, b) ∈ (addrAt s.blocks k + (blkAt s.blocks k).size,
            blkAt s.blocks (k + 1)) :: addrList (s.blocks.drop (k + 2))
              (addrAt s.blocks k + (blkAt s.blocks k).size + (blkAt s.blocks (k + 1)).size) := h
        rcases List.mem_cons.mp h2 with hEq | h3
        · exfalso
          apply hne1
          rw [addrAt_succ hk]
          exact congrArg Prod.fst hEq
        · have hrfl' : addrAt s.blocks k = heapBase + sumSz (s.blocks.take k) := rfl
          have hbase : addrAt s.blocks k + (blkAt s.blocks k).size +
              (blkAt s.blocks (k + 1)).size = heapBase + sumSz (s.blocks.take k) +
                ((blkAt s.blocks (k + 1)).size + (blkAt s.blocks k).size) := by
            omega
          rw [hbase] at h3
          exact List.mem_append_right _ (List.mem_cons_of_mem _ h3)
    | false =>
      have hn1 : i + 1 < s.blocks.length := by
        by_cases hL : i + 1 = s.blocks.length
        · rw [if_pos hL] at hcn
          cases hcn
        · omega
      have hnf : (blkAt s.blocks (i + 1)).alloc = false := by
        rw [if_neg (by omega)] at hcn
        exact hcn
      simp only [coalesce, hcp, hcn, Bool.true_and, Bool.and_true, Bool.false_and,
        Bool.and_false, Bool.not_true, Bool.not_false, Bool.false_eq_true, reduceIte]
      obtain ⟨k, rfl⟩ : ∃ k, i = k + 1 := ⟨i - 1, by omega⟩
      simp only [Nat.add_sub_cancel] at hpf ⊢
      have hk : k < s.blocks.length := by omega
      have hk2 : k + 2 < s.blocks.length := hn1
      have hne0 : a ≠ addrAt s.blocks k := key_ne_of_alloc hpos hm hba hk hpf
      have hne1 : a ≠ addrAt s.blocks (k + 1) := key_ne_of_alloc hpos hm hba hi hfree
      have hne2 : a ≠ addrAt s.blocks (k + 2) := key_ne_of_alloc hpos hm hba hk2 hnf
      rw [addrList_decomp hk, drop_decomp hi, drop_decomp hk2] at hm
      show (a, b) ∈ addrList (s.blocks.take k ++
        (⟨(blkAt s.blocks (k + 1)).size + (blkAt s.blocks k).size +
            (blkAt s.blocks (k + 2)).size, false⟩ : Blk) ::
          s.blocks.drop (k + 3)) heapBase
      rw [addrList_append]
      rcases mem_mid_elim hm hne0 with h | h
      · exact List.mem_append_left _ h
      · have h2 : (a, b) ∈ (addrAt s.blocks k + (blkAt s.blocks k).size,
            blkAt s.blocks (k + 1)) :: (addrAt s.blocks k + (blkAt s.blocks k).size +
              (blkAt s.blocks (k + 1)).size, blkAt s.blocks (k + 2)) ::
            addrList (s.blocks.drop (k + 3))
              (addrAt s.blocks k + (blkAt s.blocks k).size + (blkAt s.blocks (k + 1)).size +
                (blkAt s.blocks (k + 2)).size) := h
        rcases List.mem_cons.mp h2 with hEq | h3
        · exfalso
          apply hne1
          rw [addrAt_succ hk]
          exact congrArg Prod.fst hEq
        · rcases List.mem_cons.mp h3 with hEq | h4
          · exfalso
            apply hne2
            rw [addrAt_succ hi, addrAt_succ hk]
            exact congrArg Prod.fst hEq
          · have hrfl' : addrAt s.blocks k = heapBase + sumSz (s.blocks.take k) := rfl
            have hbase : addrAt s.blocks k + (blkAt s.blocks k).size +
                (blkAt s.blocks (k + 1)).size + (blkAt s.blocks (k + 2)).size =
                heapBase + sumSz (s.blocks.take k) +
                  ((blkAt s.blocks (k + 1)).size + (blkAt s.blocks k).size +
                    (blkAt s.blocks (k + 2)).size) := by
              omega
            rw [hbase] at h4
            exact List.mem_append_right _ (List.mem_cons_of_mem _ h4)

/-- `place` never moves or retags a distinct allocated block. -/
theorem place_preserves_alloc {s : AState} (H : HeapInv s) {a0 asize : Nat} {b0 : Blk}
    (hmem : (a0, b0) ∈ addrList s.blocks heapBase) (hb0f : b0.alloc = false) :
    ∀ a b, (a, b) ∈ addrList s.blocks heapBase → b.alloc = true →
      (a, b) ∈ addrList (place s a0 asize).blocks heapBase := by
  obtain ⟨i, hidx, hbi⟩ := mem_idxFrom H.pos hmem
  subst hbi
  have hidx' : idxOf s.blocks a0 = some i := hidx
  obtain ⟨hi, -, haddr⟩ := idxFrom_mem hidx
  simp only [place, hidx']
  intro a b hm hba
  have hne0 : a ≠ addrAt s.blocks i := key_ne_of_alloc H.pos hm hba hi hb0f
  by_cases hsp : 2 * DSIZE ≤ (blkAt s.blocks i).size - asize
  · rw [if_pos hsp]
    show (a, b) ∈ addrList (s.blocks.take i ++ (⟨asize, true⟩ : Blk) ::
      (⟨(blkAt s.blocks i).size - asize, false⟩ : Blk) :: s.blocks.drop (i + 1)) heapBase
    rw [addrList_decomp hi] at hm
    rw [addrList_append]
    rcases mem_mid_elim hm hne0 with h | h
    · exact List.mem_append_left _ h
    · have hD : (2 : Nat) * DSIZE = 32 := rfl
      have hrfl : addrAt s.blocks i = heapBase + sumSz (s.blocks.take i) := rfl
      have hbase : addrAt s.blocks i + (blkAt s.blocks i).size =
          heapBase + sumSz (s.blocks.take i) + asize + ((blkAt s.blocks i).size - asize) := by
        omega
      rw [hbase] at h
      exact List.mem_append_right _ (List.mem_cons_of_mem _ (List.mem_cons_of_mem _ h))
  · rw [if_neg hsp]
    show (a, b) ∈ addrList (s.blocks.set i (⟨(blkAt s.blocks i).size, true⟩ : Blk)) heapBase
    rw [addrList_set hi]
    rw [addrList_decomp hi] at hm
    exact mem_mid_intro (mem_mid_elim hm hne0)

/-- `extend_heap` never moves or retags an allocated block. -/
theorem extend_heap_preserves_alloc {s : AState} (H : HeapInv s) {words : Nat}
    (hw : 4 ≤ words) (ok : Bool) :
    ∀ a b, (a, b) ∈ addrList s.blocks heapBase → b.alloc = true →
      (a, b) ∈ addrList (extend_heap s words ok).1.blocks heapBase := by
  cases ok with
  | false => exact fun a b hm _ => hm
  | true =>
    simp only [extend_heap, reduceIte]
    intro a b hm hba
    have hlen : s.blocks.length <
        (s.blocks ++ [(⟨if words % 2 = 1 then (words + 1) * WSIZE else words * WSIZE,
          false⟩ : Blk)]).length := by
      rw [List.length_append]
      simp
    have hfree' : (blkAt (s.blocks ++
        [(⟨if words % 2 = 1 then (words + 1) * WSIZE else words * WSIZE, false⟩ : Blk)])
          s.blocks.length).alloc = false := by
      rw [blkAt_append_len]
    have hpos' : ∀ b' ∈ s.blocks ++
        [(⟨if words % 2 = 1 then (words + 1) * WSIZE else words * WSIZE, false⟩ : Blk)],
        0 < b'.size := by
      intro b' hb'
      rcases List.mem_append.mp hb' with h | h
      · exact H.pos b' h
      · rcases List.mem_singleton.mp h with rfl
        show 0 < (if words % 2 = 1 then (words + 1) * WSIZE else words * WSIZE)
        have hW : WSIZE = 8 := rfl
        rw [hW]
        split <;> omega
    apply coalesce_preserves_alloc hlen hfree' hpos'
    · rw [addrList_append]
      exact List.mem_append_left _ hm
    · exact hba

/-- `mm_malloc` never moves or retags an existing allocated block. -/
theorem mm_malloc_preserves_alloc {s : AState} (H : HeapInv s) (n : Nat) (ok : Bool) :
    ∀ a b, (a, b) ∈ addrList s.blocks heapBase → b.alloc = true →
      (a, b) ∈ addrList (mm_malloc s n ok).1.blocks heapBase := by
  intro a b hm hba
  by_cases hn : n = 0
  · subst hn
    simp only [mm_malloc, if_pos rfl]
    exact hm
  · simp only [mm_malloc, if_neg hn]
    rcases hff : find_fit s (asizeOf n) with _ | bp
    · have hw4 : 4 ≤ max (asizeOf n) CHUNKSIZE / WSIZE := by
        have h1 : CHUNKSIZE ≤ max (asizeOf n) CHUNKSIZE := Nat.le_max_right _ _
        have h2 : CHUNKSIZE / WSIZE ≤ max (asizeOf n) CHUNKSIZE / WSIZE :=
          Nat.div_le_div_right h1
        have h3 : CHUNKSIZE / WSIZE = 512 := by decide
        omega
      obtain ⟨HE, hres⟩ := extend_heap_inv H hw4 ok
      have hm1 := extend_heap_preserves_alloc H hw4 ok a b hm hba
      rcases hex : extend_heap s (max (asizeOf n) CHUNKSIZE / WSIZE) ok with ⟨s1, r⟩
      rw [hex] at HE hres hm1
      rcases r with _ | bp
      · exact hm1
      · obtain ⟨b0, hment, hb0f, -⟩ := hres bp rfl
        exact place_preserves_alloc HE hment hb0f a b hm1 hba
    · obtain ⟨b0, hment, hb0f, -⟩ := find_fit_sound H hff
      exact place_preserves_alloc H hment hb0f a b hm hba

theorem validAlloc_entry {s : AState} {a : Nat} (h : isValidAllocB s a = true) :
    ∃ b : Blk, (a, b) ∈ addrList s.blocks heapBase ∧ b.alloc = true := by
  rcases hidx : idxOf s.blocks a with _ | i
  · simp only [isValidAllocB, hidx] at h
    exact absurd h (by decide)
  · simp only [isValidAllocB, hidx] at h
    have hidx' : idxFrom s.blocks heapBase a = some i := hidx
    obtain ⟨hi, hm, -⟩ := idxFrom_mem hidx'
    exact ⟨blkAt s.blocks i, hm, h⟩

/-- `mm_realloc` preserves the heap invariant, and every address it
returns is ALIGN_SIZE-aligned. -/
theorem mm_realloc_inv {s : AState} (H : HeapInv s) {p : Option Nat} (hv : validPtr s p)
    (n : Nat) (ok : Bool) :
    HeapInv (mm_realloc s p n ok).1 ∧
      ∀ bp, (mm_realloc s p n ok).2 = some bp → ALIGN_SIZE ∣ bp := by
  by_cases hn : n = 0
  · subst hn
    simp only [mm_realloc, if_pos rfl]
    exact ⟨(mm_free_inv H hv).1, fun bp h => Option.noConfusion h⟩
  · simp only [mm_realloc, if_neg hn, Option.getD_some]
    cases p with
    | none => exact mm_malloc_inv H n ok
    | some a =>
      simp only [Option.getD_some]
      have hv' : isValidAllocB s a = true := hv
      obtain ⟨bA, hmA, hbA⟩ := validAlloc_entry hv'
      by_cases hsh : asizeOf n < sizeAtD s a
      · rw [if_pos hsh]
        refine ⟨H, fun bp h => ?_⟩
        cases h
        exact addrList_align H.sz8 (by decide) hmA
      · rw [if_neg hsh]
        obtain ⟨H1, hal⟩ := mm_malloc_inv H (2 * n) ok
        have hpres := mm_malloc_preserves_alloc H (2 * n) ok a bA hmA hbA
        rcases hml : mm_malloc s (2 * n) ok with ⟨s1, r⟩
        rw [hml] at H1 hal hpres
        rcases r with _ | r
        · exact ⟨H1, fun bp h => Option.noConfusion h⟩
        · have Hmc : HeapInv (memcpyWords s1 r a (sizeAtD s a)) :=
            ⟨H1.sz8, H1.szmin, H1.noadj, H1.bdom, H1.cnt1⟩
          have hvmc : validPtr (memcpyWords s1 r a (sizeAtD s a)) (some a) := by
            show isValidAllocB _ a = true
            exact isValidAllocB_of_mem H1.pos hpres hbA
          refine ⟨(mm_free_inv Hmc hvmc).1, fun bp h => ?_⟩
          cases h
          exact hal r rfl

theorem heapInv_pre : HeapInv preInitState := by
  refine ⟨?_, ?_, ?_, ?_, ?_⟩
  · intro b hb
    exact absurd hb (List.not_mem_nil b)
  · intro b hb
    exact absurd hb (List.not_mem_nil b)
  · exact List.chain'_nil
  · intro j a ha
    exact absurd ha (List.not_mem_nil a)
  · intro a b hm
    exact absurd hm (List.not_mem_nil _)

theorem heapInv_init : HeapInv initState :=
  (extend_heap_inv heapInv_pre (by decide : 4 ≤ CHUNKSIZE / WSIZE) true).1

/-- Every state reachable through the public allocator operations
satisfies the heap/free-list consistency invariant. -/
theorem reachable_inv {s : AState} (h : Reachable s) : HeapInv s := by
  induction h with
  | init => exact heapInv_init
  | mallocStep s n ok hr ih => exact (mm_malloc_inv ih n ok).1
  | freeStep s p hr hvp ih => exact (mm_free_inv ih hvp).1
  | reallocStep s p n ok hr hvp ih => exact (mm_realloc_inv ih hvp n ok).1

/-- C1: For every sequence of initialize/allocate/release/resize
operations, in the heap state after each operation returns, scanning
the block chain from prologue to epilogue never visits two physically
adjacent blocks that are both free (coalescing completeness). -/
theorem coalescing_completeness (s : AState) (h : Reachable s) :
    NoAdjFree s.blocks :=
  (reachable_inv h).noadj

theorem coalescing_completeness_witness : NoAdjFree sA.blocks :=
  coalescing_completeness sA (Reachable.mallocStep initState 1 true Reachable.init)

/-- C2: After every operation returns, every block whose allocated bit
is clear is linked in exactly one free-list bucket, namely the bucket
whose size class (per `find_list_head`) matches the block's current
size, and every block reachable from any bucket's sentinel has its
allocated bit clear. -/
theorem free_list_discipline (s : AState) (h : Reachable s) :
    (∀ a b, (a, b) ∈ addrList s.blocks heapBase → b.alloc = false →
      countB s a = 1 ∧ ∀ j, a ∈ s.buckets j → find_list_head b.size = j) ∧
    (∀ j a, a ∈ s.buckets j → ∃ b : Blk,
      (a, b) ∈ addrList s.blocks heapBase ∧ b.alloc = false ∧ find_list_head b.size = j) := by
  have H := reachable_inv h
  constructor
  · intro a b hm hbf
    refine ⟨H.cnt1 a b hm hbf, fun j hj => ?_⟩
    obtain ⟨-, b', hm', -, hbc'⟩ := H.bdom j a hj
    rw [addrList_key_unique H.pos hm hm']
    exact hbc'
  · intro j a hj
    obtain ⟨-, b', hm', hbf', hbc'⟩ := H.bdom j a hj
    exact ⟨b', hm', hbf', hbc'⟩

theorem free_list_discipline_witness :
    (∀ a b, (a, b) ∈ addrList sC3.blocks heapBase → b.alloc = false →
      countB sC3 a = 1 ∧ ∀ j, a ∈ sC3.buckets j → find_list_head b.size = j) ∧
    (∀ j a, a ∈ sC3.buckets j → ∃ b : Blk,
      (a, b) ∈ addrList sC3.blocks heapBase ∧ b.alloc = false ∧
        find_list_head b.size = j) :=
  free_list_discipline sC3
    (Reachable.freeStep (mm_malloc (mm_malloc initState 24 true).1 24 true).1 (some 264)
      (Reachable.mallocStep (mm_malloc initState 24 true).1 24 true
        (Reachable.mallocStep initState 24 true Reachable.init))
      (by decide : isValidAllocB (mm_malloc (mm_malloc initState 24 true).1 24 true).1 264
        = true))

/-- C7: Every address returned by a successful allocate or resize call
on a reachable heap state is aligned to the required alignment unit
(`ALIGN_SIZE`, the platform's double-word alignment of this build). -/
theorem returned_addresses_aligned (s : AState) (h : Reachable s) (n : Nat) (ok : Bool) :
    (∀ bp, (mm_malloc s n ok).2 = some bp → bp % ALIGN_SIZE = 0) ∧
    ∀ p bp, validPtr s p → (mm_realloc s p n ok).2 = some bp → bp % ALIGN_SIZE = 0 := by
  have H := reachable_inv h
  constructor
  · intro bp hbp
    obtain ⟨k, hk⟩ := (mm_malloc_inv H n ok).2 bp hbp
    rw [hk]
    exact Nat.mul_mod_right _ _
  · intro p bp hvp hbp
    obtain ⟨k, hk⟩ := (mm_realloc_inv H hvp n ok).2 bp hbp
    rw [hk]
    exact Nat.mul_mod_right _ _

theorem returned_addresses_aligned_witness :
    (∀ bp, (mm_malloc initState 1 true).2 = some bp → bp % ALIGN_SIZE = 0) ∧
    ∀ p bp, validPtr initState p → (mm_realloc initState p 1 true).2 = some bp →
      bp % ALIGN_SIZE = 0 :=
  returned_addresses_aligned initState Reachable.init 1 true

theorem posScan_some_mem {bk : Nat → List Nat} {x : Nat} {js : List Nat} {j p : Nat}
    (h : posScan bk x js = some (j, p)) : j ∈ js := by
  induction js with
  | nil => cases h
  | cons j0 rest ih =>
    unfold posScan at h
    rcases hf : (bk j0).findIdx? (fun y => y == x) with _ | p0
    · rw [hf] at h
      exact List.mem_cons_of_mem _ (ih h)
    · rw [hf] at h
      cases h
      exact List.mem_cons_self _ _

theorem getD_mem_or_zero (l : List Nat) (n : Nat) : l.getD n 0 ∈ l ∨ l.getD n 0 = 0 := by
  by_cases h : n < l.length
  · left
    rw [List.getD_eq_getElem?_getD, List.getElem?_eq_getElem h]
    exact List.getElem_mem _
  · right
    exact List.getD_eq_default _ _ (by omega)

/-- A free block's first two payload words (the link fields written by
the list splicing) lie outside the span of any allocated block. -/
theorem free_key_notin_span {s : AState} (hpos : ∀ b ∈ s.blocks, 0 < b.size)
    (hszmin : ∀ b ∈ s.blocks, 2 * DSIZE ≤ b.size) {y : Nat} {yb : Blk}
    (hmy : (y, yb) ∈ addrList s.blocks heapBase) (hyf : yb.alloc = false)
    {r w : Nat} {bR : Blk} (hmR : (r, bR) ∈ addrList s.blocks heapBase)
    (hbR : bR.alloc = true) (hw1 : r - WSIZE ≤ w) (hw2 : w < r + bR.size - WSIZE) :
    w ≠ y ∧ w ≠ y + WSIZE := by
  have hne : y ≠ r := by
    rintro rfl
    rw [addrList_key_unique hpos hmy hmR] at hyf
    rw [hbR] at hyf
    exact Bool.noConfusion hyf
  have hd := span_disjoint hmR hmy hne
  have hmin := hszmin yb (addrList_mem_blk hmy)
  have hRpos := hpos bR (addrList_mem_blk hmR)
  have hgeR := (addrList_bounds hmR).1
  have hgey := (addrList_bounds hmy).1
  have hW : WSIZE = 8 := rfl
  have hD : DSIZE = 16 := rfl
  have hHB : heapBase = 264 := rfl
  rcases hd with hd | hd <;> exact ⟨by omega, by omega⟩

theorem dummy_notin_span {j : Nat} (hj : j < MAX_SIZE) {r w : Nat} (hr : heapBase ≤ r)
    (hw1 : r - WSIZE ≤ w) : w ≠ dummyAddr j ∧ w ≠ dummyAddr j + WSIZE := by
  have h1 : dummyAddr j = 16 * j := rfl
  have hW : WSIZE = 8 := rfl
  have hHB : heapBase = 264 := rfl
  have hM : MAX_SIZE = 15 := rfl
  rw [hM] at hj
  exact ⟨by omega, by omega⟩

/-- The four stores of `remove_circular` all target link words of free
blocks, dummy heads, or address 0 — never the interior of an allocated
block. -/
theorem removeWrites_avoid {s : AState}
    (hpos : ∀ b ∈ s.blocks, 0 < b.size)
    (hszmin : ∀ b ∈ s.blocks, 2 * DSIZE ≤ b.size)
    (hbdom : ∀ j a, a ∈ s.buckets j → j < MAX_SIZE ∧ ∃ b : Blk,
      (a, b) ∈ addrList s.blocks heapBase ∧ b.alloc = false ∧ find_list_head b.size = j)
    {bk : Nat → List Nat} (hsub : ∀ j y, y ∈ bk j → y ∈ s.buckets j)
    {x r w : Nat} {bR : Blk}
    (hmR : (r, bR) ∈ addrList s.blocks heapBase) (hbR : bR.alloc = true)
    (hx : w ≠ x ∧ w ≠ x + WSIZE)
    (hw1 : r - WSIZE ≤ w) (hw2 : w < r + bR.size - WSIZE) :
    ∀ pv ∈ removeWrites bk x, pv.1 ≠ w := by
  have hgeR := (addrList_bounds hmR).1
  have hW : WSIZE = 8 := rfl
  have hHB : heapBase = 264 := rfl
  intro pv hpv
  unfold removeWrites at hpv
  rcases hp : posInBuckets bk x with _ | jp
  · rw [hp] at hpv
    cases hpv
  · obtain ⟨j, p⟩ := jp
    simp only [hp] at hpv
    have hjlt : j < MAX_SIZE := List.mem_range.mp (posScan_some_mem hp)
    have hclass : ∀ u : Nat, (u = dummyAddr j ∨ u ∈ bk j ∨ u = 0) →
        w ≠ u ∧ w ≠ u + WSIZE := by
      rintro u (rfl | hu | rfl)
      · exact dummy_notin_span hjlt hgeR hw1
      · obtain ⟨-, bu, hmu, hbuf, -⟩ := hbdom j u (hsub _ _ hu)
        exact free_key_notin_span hpos hszmin hmu hbuf hmR hbR hw1 hw2
      · exact ⟨by omega, by omega⟩
    have hprev : w ≠ (if p = 0 then dummyAddr j else (bk j).getD (p - 1) 0) ∧
        w ≠ (if p = 0 then dummyAddr j else (bk j).getD (p - 1) 0) + WSIZE := by
      by_cases hp0 : p = 0
      · rw [if_pos hp0]
        exact hclass _ (Or.inl rfl)
      · rw [if_neg hp0]
        rcases getD_mem_or_zero (bk j) (p - 1) with h | h
        · exact hclass _ (Or.inr (Or.inl h))
        · rw [h]
          exact hclass _ (Or.inr (Or.inr rfl))
    have hnext : w ≠ (if p + 1 = (bk j).length then dummyAddr j else (bk j).getD (p + 1) 0) ∧
        w ≠ (if p + 1 = (bk j).length then dummyAddr j else (bk j).getD (p + 1) 0) + WSIZE := by
      by_cases hp1 : p + 1 = (bk j).length
      · rw [if_pos hp1]
        exact hclass _ (Or.inl rfl)
      · rw [if_neg hp1]
        rcases getD_mem_or_zero (bk j) (p + 1) with h | h
        · exact hclass _ (Or.inr (Or.inl h))
        · rw [h]
          exact hclass _ (Or.inr (Or.inr rfl))
    simp only [List.mem_cons, List.not_mem_nil, or_false] at hpv
    rcases hpv with rfl | rfl | rfl | rfl
    · exact Ne.symm hprev.1
    · exact Ne.symm hnext.2
    · exact Ne.symm hx.1
    · exact Ne.symm hx.2

/-- The four stores of `insert_circular` all target link words of the
inserted block, of the list tail (a free block), or of the dummy head. -/
theorem insertWrites_avoid {s : AState}
    (hpos : ∀ b ∈ s.blocks, 0 < b.size)
    (hszmin : ∀ b ∈ s.blocks, 2 * DSIZE ≤ b.size)
    (hbdom : ∀ j a, a ∈ s.buckets j → j < MAX_SIZE ∧ ∃ b : Blk,
      (a, b) ∈ addrList s.blocks heapBase ∧ b.alloc = false ∧ find_list_head b.size = j)
    {bk : Nat → List Nat} (hsub : ∀ j y, y ∈ bk j → y ∈ s.buckets j)
    {j0 b r w : Nat} {bR : Blk} (hj0 : j0 < MAX_SIZE)
    (hmR : (r, bR) ∈ addrList s.blocks heapBase) (hbR : bR.alloc = true)
    (hb : w ≠ b ∧ w ≠ b + WSIZE)
    (hw1 : r - WSIZE ≤ w) (hw2 : w < r + bR.size - WSIZE) :
    ∀ pv ∈ insertWrites bk j0 b, pv.1 ≠ w := by
  have hgeR := (addrList_bounds hmR).1
  have hdum := dummy_notin_span hj0 hgeR hw1
  intro pv hpv
  unfold insertWrites at hpv
  have htail : w ≠ (bk j0).getLast?.getD (dummyAddr j0) := by
    rcases hlast : (bk j0).getLast? with _ | t
    · exact hdum.1
    · obtain ⟨-, bt, hmt, hbtf, -⟩ :=
        hbdom j0 t (hsub _ _ (List.mem_of_mem_getLast? hlast))
      exact (free_key_notin_span hpos hszmin hmt hbtf hmR hbR hw1 hw2).1
  simp only [List.mem_cons, List.not_mem_nil, or_false] at hpv
  rcases hpv with rfl | rfl | rfl | rfl
  · exact Ne.symm hb.2
  · exact Ne.symm hb.1
  · exact Ne.symm htail
  · exact Ne.symm hdum.2

theorem applyWrites_append (ws₁ ws₂ : List (Nat × Nat)) (m : Nat → Nat) :
    applyWrites m (ws₁ ++ ws₂) = applyWrites (applyWrites m ws₁) ws₂ := by
  induction ws₁ generalizing m with
  | nil => rfl
  | cons pv t ih =>
    obtain ⟨p, v⟩ := pv
    show applyWrites (putw m p v) (t ++ ws₂) = _
    rw [ih]
    rfl

/-- Reading back a word the `memcpy` wrote: the value read from the
source before any of the copy's stores. -/
theorem memcpyWords_read {s : AState} {dst src bytes k : Nat} (hk : k < bytes / WSIZE) :
    (memcpyWords s dst src bytes).mem (dst + WSIZE * k) = s.mem (src + WSIZE * k) := by
  show applyWrites s.mem ((List.range (bytes / WSIZE)).map
      fun j => (dst + WSIZE * j, s.mem (src + WSIZE * j))) (dst + WSIZE * k) =
    s.mem (src + WSIZE * k)
  revert hk
  generalize bytes / WSIZE = N
  intro hk
  induction N with
  | zero => omega
  | succ N ih =>
    rw [List.range_succ, List.map_append, applyWrites_append]
    by_cases hkN : k = N
    · subst hkN
      show putw _ (dst + WSIZE * k) (s.mem (src + WSIZE * k)) (dst + WSIZE * k) = _
      unfold putw
      rw [if_pos rfl]
    · have hW : WSIZE = 8 := rfl
      have hne : dst + WSIZE * k ≠ dst + WSIZE * N := by
        rw [hW]
        omega
      show putw _ (dst + WSIZE * N) (s.mem (src + WSIZE * N)) (dst + WSIZE * k) = _
      unfold putw
      rw [if_neg hne]
      exact ih (by omega)

theorem asizeOf_mono {m n : Nat} (h : m ≤ n) : asizeOf m ≤ asizeOf n := by
  unfold asizeOf DSIZE ALIGN_SIZE
  split_ifs with h1 h2 h2
  · exact le_refl _
  · have h5 : 5 ≤ (n + 16 + (8 - 1)) / 8 := by
      have := Nat.div_le_div_right (c := 8) (show 40 ≤ n + 16 + (8 - 1) by omega)
      omega
    have := Nat.mul_le_mul_left 8 h5
    omega
  · omega
  · exact Nat.mul_le_mul_left 8 (Nat.div_le_div_right (by omega))

theorem key_ne_of_free {bs : List Blk} (hpos : ∀ b ∈ bs, 0 < b.size) {y : Nat} {yb : Blk}
    (hmy : (y, yb) ∈ addrList bs heapBase) (hyf : yb.alloc = false)
    {r : Nat} {bR : Blk} (hmR : (r, bR) ∈ addrList bs heapBase)
    (hbR : bR.alloc = true) : y ≠ r := by
  rintro rfl
  rw [addrList_key_unique hpos hmy hmR] at hyf
  rw [hbR] at hyf
  exact Bool.noConfusion hyf

/-- None of `coalesce`'s stores (boundary tags of the merged region and
free-list link words) lands inside the span of an allocated block. -/
theorem coalesce_mem_frame {s : AState} {i : Nat}
    (hi : i < s.blocks.length)
    (hfree : (blkAt s.blocks i).alloc = false)
    (hpos : ∀ b ∈ s.blocks, 0 < b.size)
    (hszmin : ∀ b ∈ s.blocks, 2 * DSIZE ≤ b.size)
    (hbdom : ∀ j a, a ∈ s.buckets j → j < MAX_SIZE ∧ ∃ b : Blk,
      (a, b) ∈ addrList s.blocks heapBase ∧ b.alloc = false ∧ find_list_head b.size = j)
    {r w : Nat} {bR : Blk} (hmR : (r, bR) ∈ addrList s.blocks heapBase)
    (hbR : bR.alloc = true) (hw1 : r - WSIZE ≤ w) (hw2 : w < r + bR.size - WSIZE) :
    (coalesce s i).1.mem w = s.mem w := by
  have hW : WSIZE = 8 := rfl
  have hD : DSIZE = 16 := rfl
  have hHB : heapBase = 264 := rfl
  have hxent : (addrAt s.blocks i, blkAt s.blocks i) ∈ addrList s.blocks heapBase :=
    addrAt_mem hi
  have hxw := free_key_notin_span hpos hszmin hxent hfree hmR hbR hw1 hw2
  have hdx := span_disjoint hmR hxent (key_ne_of_free hpos hxent hfree hmR hbR)
  have hminx := hszmin (blkAt s.blocks i) (blkAt_mem hi)
  have hgeA := (addrList_bounds hxent).1
  have hj14 : ∀ m : Nat, find_list_head m < MAX_SIZE := by
    intro m
    have := find_list_head_le m
    unfold MAX_SIZE
    omega
  cases hcp : (if i = 0 then true else (blkAt s.blocks (i - 1)).alloc) with
  | true =>
    cases hcn : (if i + 1 = s.blocks.length then true else (blkAt s.blocks (i + 1)).alloc) with
    | true =>
      simp only [coalesce, hcp, hcn, Bool.true_and, Bool.and_true, Bool.false_and,
        Bool.and_false, Bool.not_true, Bool.not_false, Bool.false_eq_true, reduceIte]
      exact applyWrites_eq_of_not_mem (insertWrites_avoid hpos hszmin hbdom
        (fun j y hy => hy) (hj14 _) hmR hbR hxw hw1 hw2) s.mem
    | false =>
      have hn1 : i + 1 < s.blocks.length := by
        by_cases hL : i + 1 = s.blocks.length
        · rw [if_pos hL] at hcn
          cases hcn
        · omega
      have hnf : (blkAt s.blocks (i + 1)).alloc = false := by
        rw [if_neg (by omega)] at hcn
        exact hcn
      simp only [coalesce, hcp, hcn, Bool.true_and, Bool.and_true, Bool.false_and,
        Bool.and_false, Bool.not_true, Bool.not_false, Bool.false_eq_true, reduceIte]
      have hyent : (addrAt s.blocks (i + 1), blkAt s.blocks (i + 1)) ∈
          addrList s.blocks heapBase := addrAt_mem hn1
      have hyw := free_key_notin_span hpos hszmin hyent hnf hmR hbR hw1 hw2
      have hdy := span_disjoint hmR hyent (key_ne_of_free hpos hyent hnf hmR hbR)
      rw [addrAt_succ hi] at hdy
      have hminy := hszmin (blkAt s.blocks (i + 1)) (blkAt_mem hn1)
      have hins : ∀ pv ∈ insertWrites (bkRemove s.buckets (addrAt s.blocks (i + 1)))
          (find_list_head ((blkAt s.blocks i).size + (blkAt s.blocks (i + 1)).size))
          (addrAt s.blocks i), pv.1 ≠ w :=
        insertWrites_avoid hpos hszmin hbdom (fun j y hy => List.mem_of_mem_erase hy)
          (hj14 _) hmR hbR hxw hw1 hw2
      have htagw : ∀ pv ∈ [(addrAt s.blocks i - WSIZE,
          PACK ((blkAt s.blocks i).size + (blkAt s.blocks (i + 1)).size) 0),
          (addrAt s.blocks i + ((blkAt s.blocks i).size + (blkAt s.blocks (i + 1)).size) -
            DSIZE, PACK ((blkAt s.blocks i).size + (blkAt s.blocks (i + 1)).size) 0)],
          pv.1 ≠ w := by
        intro pv hpv
        simp only [List.mem_cons, List.not_mem_nil, or_false] at hpv
        rcases hpv with rfl | rfl
        · show addrAt s.blocks i - WSIZE ≠ w
          rcases hdx with hd | hd <;> omega
        · show addrAt s.blocks i + ((blkAt s.blocks i).size + (blkAt s.blocks (i + 1)).size) -
            DSIZE ≠ w
          rcases hdy with hd | hd <;> omega
      rw [applyWrites_eq_of_not_mem hins]
      rw [applyWrites_eq_of_not_mem htagw]
      exact applyWrites_eq_of_not_mem (removeWrites_avoid hpos hszmin hbdom
        (fun j y hy => hy) hmR hbR hyw hw1 hw2) s.mem
  | false =>
    have h0 : i ≠ 0 := by
      intro h
      rw [if_pos h] at hcp
      cases hcp
    have hpf : (blkAt s.blocks (i - 1)).alloc = false := by
      rw [if_neg h0] at hcp
      exact hcp
    have hk : i - 1 < s.blocks.length := by omega
    have hpent : (addrAt s.blocks (i - 1), blkAt s.blocks (i - 1)) ∈
        addrList s.blocks heapBase := addrAt_mem hk
    have hpw := free_key_notin_span hpos hszmin hpent hpf hmR hbR hw1 hw2
    have hdp := span_disjoint hmR hpent (key_ne_of_free hpos hpent hpf hmR hbR)
    have hminp := hszmin (blkAt s.blocks (i - 1)) (blkAt_mem hk)
    have hApA : addrAt s.blocks i = addrAt s.blocks (i - 1) + (blkAt s.blocks (i - 1)).size := by
      have := addrAt_succ hk
      rw [show i - 1 + 1 = i from by omega] at this
      exact this
    cases hcn : (if i + 1 = s.blocks.length then true else (blkAt s.blocks (i + 1)).alloc) with
    | true =>
      simp only [coalesce, hcp, hcn, Bool.true_and, Bool.and_true, Bool.false_and,
        Bool.and_false, Bool.not_true, Bool.not_false, Bool.false_eq_true, reduceIte]
      have hins : ∀ pv ∈ insertWrites (bkRemove s.buckets (addrAt s.blocks (i - 1)))
          (find_list_head ((blkAt s.blocks i).size + (blkAt s.blocks (i - 1)).size))
          (addrAt s.blocks (i - 1)), pv.1 ≠ w :=
        insertWrites_avoid hpos hszmin hbdom (fun j y hy => List.mem_of_mem_erase hy)
          (hj14 _) hmR hbR hpw hw1 hw2
      have htagw : ∀ pv ∈ [(addrAt s.blocks i + (blkAt s.blocks i).size - DSIZE,
          PACK ((blkAt s.blocks i).size + (blkAt s.blocks (i - 1)).size) 0),
          (addrAt s.blocks (i - 1) - WSIZE,
          PACK ((blkAt s.blocks i).size + (blkAt s.blocks (i - 1)).size) 0)],
          pv.1 ≠ w := by
        intro pv hpv
        simp only [List.mem_cons, List.not_mem_nil, or_false] at hpv
        rcases hpv with rfl | rfl
        · show addrAt s.blocks i + (blkAt s.blocks i).size - DSIZE ≠ w
          rcases hdx with hd | hd <;> omega
        · show addrAt s.blocks (i - 1) - WSIZE ≠ w
          rcases hdp with hd | hd <;> omega
      rw [applyWrites_eq_of_not_mem hins]
      rw [applyWrites_eq_of_not_mem htagw]
      exact applyWrites_eq_of_not_mem (removeWrites_avoid hpos hszmin hbdom
        (fun j y hy => hy) hmR hbR hpw hw1 hw2) s.mem
    | false =>
      have hn1 : i + 1 < s.blocks.length := by
        by_cases hL : i + 1 = s.blocks.length
        · rw [if_pos hL] at hcn
          cases hcn
        · omega
      have hnf : (blkAt s.blocks (i + 1)).alloc = false := by
        rw [if_neg (by omega)] at hcn
        exact hcn
      simp only [coalesce, hcp, hcn, Bool.true_and, Bool.and_true, Bool.false_and,
        Bool.and_false, Bool.not_true, Bool.not_false, Bool.false_eq_true, reduceIte]
      have hyent : (addrAt s.blocks (i + 1), blkAt s.blocks (i + 1)) ∈
          addrList s.blocks heapBase := addrAt_mem hn1
      have hyw := free_key_notin_span hpos hszmin hyent hnf hmR hbR hw1 hw2
      have hdy := span_disjoint hmR hyent (key_ne_of_free hpos hyent hnf hmR hbR)
      rw [addrAt_succ hi] at hdy
      have hminy := hszmin (blkAt s.blocks (i + 1)) (blkAt_mem hn1)
      have hA1 : addrAt s.blocks (i + 1) = addrAt s.blocks i + (blkAt s.blocks i).size :=
        addrAt_succ hi
      have hins : ∀ pv ∈ insertWrites
          (bkRemove (bkRemove s.buckets (addrAt s.blocks (i - 1))) (addrAt s.blocks (i + 1)))
          (find_list_head ((blkAt s.blocks i).size + (blkAt s.blocks (i - 1)).size +
            (blkAt s.blocks (i + 1)).size))
          (addrAt s.blocks (i - 1)), pv.1 ≠ w :=
        insertWrites_avoid hpos hszmin hbdom
          (fun j y hy => List.mem_of_mem_erase (List.mem_of_mem_erase hy)) (hj14 _)
          hmR hbR hpw hw1 hw2
      have hrm2 : ∀ pv ∈ removeWrites (bkRemove s.buckets (addrAt s.blocks (i - 1)))
          (addrAt s.blocks (i + 1)), pv.1 ≠ w :=
        removeWrites_avoid hpos hszmin hbdom (fun j y hy => List.mem_of_mem_erase hy)
          hmR hbR hyw hw1 hw2
      have htagw : ∀ pv ∈ [(addrAt s.blocks (i - 1) - WSIZE,
          PACK ((blkAt s.blocks i).size + (blkAt s.blocks (i - 1)).size +
            (blkAt s.blocks (i + 1)).size) 0),
          (addrAt s.blocks (i + 1) + (blkAt s.blocks (i + 1)).size - DSIZE,
          PACK ((blkAt s.blocks i).size + (blkAt s.blocks (i - 1)).size +
            (blkAt s.blocks (i + 1)).size) 0)],
          pv.1 ≠ w := by
        intro pv hpv
        simp only [List.mem_cons, List.not_mem_nil, or_false] at hpv
        rcases hpv with rfl | rfl
        · show addrAt s.blocks (i - 1) - WSIZE ≠ w
          rcases hdp with hd | hd <;> omega
        · show addrAt s.blocks (i + 1) + (blkAt s.blocks (i + 1)).size - DSIZE ≠ w
          rcases hdy with hd | hd <;> omega
      rw [applyWrites_eq_of_not_mem hins]
      rw [applyWrites_eq_of_not_mem htagw]
      rw [applyWrites_eq_of_not_mem hrm2]
      exact applyWrites_eq_of_not_mem (removeWrites_avoid hpos hszmin hbdom
        (fun j y hy => hy) hmR hbR hpw hw1 hw2) s.mem

/-- `mm_free` never writes into the span of a distinct allocated block. -/
theorem mm_free_mem_frame {s : AState} (H : HeapInv s) {a : Nat}
    (hva : isValidAllocB s a = true) {r w : Nat} {bR : Blk}
    (hmR : (r, bR) ∈ addrList s.blocks heapBase) (hbR : bR.alloc = true) (hner : r ≠ a)
    (hw1 : r - WSIZE ≤ w) (hw2 : w < r + bR.size - WSIZE) :
    (mm_free s (some a)).mem w = s.mem w := by
  have hW : WSIZE = 8 := rfl
  have hD : DSIZE = 16 := rfl
  rcases hidx : idxOf s.blocks a with _ | i
  · simp only [isValidAllocB, hidx] at hva
    exact absurd hva (by decide)
  · simp only [isValidAllocB, hidx] at hva
    have hidx' : idxFrom s.blocks heapBase a = some i := hidx
    obtain ⟨hi, hmemA, haddr⟩ := idxFrom_mem hidx'
    have haA : a = addrAt s.blocks i := haddr
    simp only [mm_free, hidx]
    set x := blkAt s.blocks i with hx
    have hminx := H.szmin x (blkAt_mem hi)
    have hner' : r ≠ addrAt s.blocks i := by
      rw [← haA]
      exact hner
    have hdA := span_disjoint hmR (haA ▸ hmemA) (by rw [← haA] at *; exact (Ne.symm hner))
    have hset : i < (s.blocks.set i (⟨x.size, false⟩ : Blk)).length := by
      rw [List.length_set]
      exact hi
    have hfree' : (blkAt (s.blocks.set i (⟨x.size, false⟩ : Blk)) i).alloc = false := by
      rw [blkAt_set_self hi]
    have hpos' : ∀ b ∈ s.blocks.set i (⟨x.size, false⟩ : Blk), 0 < b.size := by
      intro b hb
      rcases List.mem_or_eq_of_mem_set hb with hb | rfl
      · exact H.pos b hb
      · exact H.pos x (blkAt_mem hi)
    have hszmin' : ∀ b ∈ s.blocks.set i (⟨x.size, false⟩ : Blk), 2 * DSIZE ≤ b.size := by
      intro b hb
      rcases List.mem_or_eq_of_mem_set hb with hb | rfl
      · exact H.szmin b hb
      · exact H.szmin x (blkAt_mem hi)
    have hcnt0A : countF s.buckets (addrAt s.blocks i) = 0 := by
      rw [← haA]
      exact H.countB_alloc (haA ▸ hmemA) hva
    have hbdom' : ∀ j a', a' ∈ s.buckets j → j < MAX_SIZE ∧ ∃ b : Blk,
        (a', b) ∈ addrList (s.blocks.set i (⟨x.size, false⟩ : Blk)) heapBase ∧
          b.alloc = false ∧ find_list_head b.size = j := by
      intro j a' ha'
      obtain ⟨hj, b, hmold, hbf, hbc⟩ := H.bdom j a' ha'
      have hane : a' ≠ addrAt s.blocks i := by
        rintro rfl
        have := mem_countF_pos hj ha'
        omega
      refine ⟨hj, b, ?_, hbf, hbc⟩
      rw [addrList_set hi]
      rw [addrList_decomp hi] at hmold
      exact mem_mid_intro (mem_mid_elim hmold hane)
    have hmR' : (r, bR) ∈ addrList (s.blocks.set i (⟨x.size, false⟩ : Blk)) heapBase := by
      rw [addrList_set hi]
      have hmold := hmR
      rw [addrList_decomp hi] at hmold
      exact mem_mid_intro (mem_mid_elim hmold hner')
    have hcf := @coalesce_mem_frame ⟨s.blocks.set i (⟨x.size, false⟩ : Blk), s.buckets,
      applyWrites s.mem [(a - WSIZE, PACK x.size 0), (a + x.size - DSIZE, PACK x.size 0)]⟩ i
      hset hfree' hpos' hszmin' hbdom' r w bR hmR' hbR hw1 hw2
    rw [hcf]
    show applyWrites s.mem [(a - WSIZE, PACK x.size 0), (a + x.size - DSIZE, PACK x.size 0)]
      w = s.mem w
    refine applyWrites_eq_of_not_mem ?_ s.mem
    intro pv hpv
    simp only [List.mem_cons, List.not_mem_nil, or_false] at hpv
    have hxpos : 0 < x.size := H.pos x (blkAt_mem hi)
    rcases hpv with rfl | rfl
    · show a - WSIZE ≠ w
      rw [haA]
      rcases hdA with hd | hd <;> omega
    · show a + x.size - DSIZE ≠ w
      rw [haA]
      rcases hdA with hd | hd <;> omega

/-- `place` never writes into the span of a distinct allocated block. -/
theorem place_mem_frame {s : AState} (H : HeapInv s) {a0 asize : Nat} {b0 : Blk}
    (hmem : (a0, b0) ∈ addrList s.blocks heapBase) (hb0f : b0.alloc = false)
    (hmin : 2 * DSIZE ≤ asize)
    {r w : Nat} {bR : Blk} (hmR : (r, bR) ∈ addrList s.blocks heapBase)
    (hbR : bR.alloc = true) (hw1 : r - WSIZE ≤ w) (hw2 : w < r + bR.size - WSIZE) :
    (place s a0 asize).mem w = s.mem w := by
  have hW : WSIZE = 8 := rfl
  have hD : DSIZE = 16 := rfl
  obtain ⟨i, hidx, hbi⟩ := mem_idxFrom H.pos hmem
  subst hbi
  have hidx' : idxOf s.blocks a0 = some i := hidx
  simp only [place, hidx']
  have hxw := free_key_notin_span H.pos H.szmin hmem hb0f hmR hbR hw1 hw2
  have hd0 := span_disjoint hmR hmem (key_ne_of_free H.pos hmem hb0f hmR hbR)
  have hmin0 := H.szmin _ (addrList_mem_blk hmem)
  have hj14 : ∀ m : Nat, find_list_head m < MAX_SIZE := by
    intro m
    have := find_list_head_le m
    unfold MAX_SIZE
    omega
  have hrm : ∀ pv ∈ removeWrites s.buckets a0, pv.1 ≠ w :=
    removeWrites_avoid H.pos H.szmin H.bdom (fun j y hy => hy) hmR hbR hxw hw1 hw2
  by_cases hsp : 2 * DSIZE ≤ (blkAt s.blocks i).size - asize
  · rw [if_pos hsp]
    have hbw : w ≠ a0 + asize ∧ w ≠ a0 + asize + WSIZE := by
      rcases hd0 with hd | hd <;> exact ⟨by omega, by omega⟩
    have hins : ∀ pv ∈ insertWrites (bkRemove s.buckets a0)
        (find_list_head ((blkAt s.blocks i).size - asize)) (a0 + asize), pv.1 ≠ w :=
      insertWrites_avoid H.pos H.szmin H.bdom (fun j y hy => List.mem_of_mem_erase hy)
        (hj14 _) hmR hbR hbw hw1 hw2
    have htagw : ∀ pv ∈ [(a0 - WSIZE, PACK asize 1), (a0 + asize - DSIZE, PACK asize 1),
        (a0 + asize - WSIZE, PACK ((blkAt s.blocks i).size - asize) 0),
        (a0 + (blkAt s.blocks i).size - DSIZE, PACK ((blkAt s.blocks i).size - asize) 0)],
        pv.1 ≠ w := by
      intro pv hpv
      simp only [List.mem_cons, List.not_mem_nil, or_false] at hpv
      rcases hpv with rfl | rfl | rfl | rfl
      · show a0 - WSIZE ≠ w
        rcases hd0 with hd | hd <;> omega
      · show a0 + asize - DSIZE ≠ w
        rcases hd0 with hd | hd <;> omega
      · show a0 + asize - WSIZE ≠ w
        rcases hd0 with hd | hd <;> omega
      · show a0 + (blkAt s.blocks i).size - DSIZE ≠ w
        rcases hd0 with hd | hd <;> omega
    show applyWrites _ _ w = s.mem w
    rw [applyWrites_eq_of_not_mem hins]
    rw [applyWrites_eq_of_not_mem htagw]
    exact applyWrites_eq_of_not_mem hrm s.mem
  · rw [if_neg hsp]
    have htagw : ∀ pv ∈ [(a0 - WSIZE, PACK (blkAt s.blocks i).size 1),
        (a0 + (blkAt s.blocks i).size - DSIZE, PACK (blkAt s.blocks i).size 1)],
        pv.1 ≠ w := by
      intro pv hpv
      simp only [List.mem_cons, List.not_mem_nil, or_false] at hpv
      rcases hpv with rfl | rfl
      · show a0 - WSIZE ≠ w
        rcases hd0 with hd | hd <;> omega
      · show a0 + (blkAt s.blocks i).size - DSIZE ≠ w
        rcases hd0 with hd | hd <;> omega
    show applyWrites _ _ w = s.mem w
    rw [applyWrites_eq_of_not_mem htagw]
    exact applyWrites_eq_of_not_mem hrm s.mem

/-- `extend_heap` never writes into the span of an existing allocated
block: its stores lie past the old epilogue or in free regions. -/
theorem extend_heap_mem_frame {s : AState} (H : HeapInv s) {words : Nat} (hw : 4 ≤ words)
    (ok : Bool) {r w : Nat} {bR : Blk}
    (hmR : (r, bR) ∈ addrList s.blocks heapBase) (hbR : bR.alloc = true)
    (hw1 : r - WSIZE ≤ w) (hw2 : w < r + bR.size - WSIZE) :
    (extend_heap s words ok).1.mem w = s.mem w := by
  cases ok with
  | false => rfl
  | true =>
    have hW : WSIZE = 8 := rfl
    have hD : DSIZE = 16 := rfl
    simp only [extend_heap, reduceIte]
    have hSZpos : 0 < (if words % 2 = 1 then (words + 1) * WSIZE else words * WSIZE) := by
      rw [hW]
      split <;> omega
    have hSZmin : 2 * DSIZE ≤ (if words % 2 = 1 then (words + 1) * WSIZE
        else words * WSIZE) := by
      rw [hW, hD]
      split <;> omega
    set SZ := if words % 2 = 1 then (words + 1) * WSIZE else words * WSIZE with hSZ
    have hlen : s.blocks.length < (s.blocks ++ [(⟨SZ, false⟩ : Blk)]).length := by
      rw [List.length_append]
      simp
    have hfree' : (blkAt (s.blocks ++ [(⟨SZ, false⟩ : Blk)]) s.blocks.length).alloc
        = false := by
      rw [blkAt_append_len]
    have hpos' : ∀ b ∈ s.blocks ++ [(⟨SZ, false⟩ : Blk)], 0 < b.size := by
      intro b hb
      rcases List.mem_append.mp hb with hb | hb
      · exact H.pos b hb
      · rcases List.mem_singleton.mp hb with rfl
        exact hSZpos
    have hszmin' : ∀ b ∈ s.blocks ++ [(⟨SZ, false⟩ : Blk)], 2 * DSIZE ≤ b.size := by
      intro b hb
      rcases List.mem_append.mp hb with hb | hb
      · exact H.szmin b hb
      · rcases List.mem_singleton.mp hb with rfl
        exact hSZmin
    have hALapp : addrList (s.blocks ++ [(⟨SZ, false⟩ : Blk)]) heapBase =
        addrList s.blocks heapBase ++
          [(heapBase + sumSz s.blocks, (⟨SZ, false⟩ : Blk))] := by
      rw [addrList_append]
      rfl
    have hbdom' : ∀ j a', a' ∈ s.buckets j → j < MAX_SIZE ∧ ∃ b : Blk,
        (a', b) ∈ addrList (s.blocks ++ [(⟨SZ, false⟩ : Blk)]) heapBase ∧
          b.alloc = false ∧ find_list_head b.size = j := by
      intro j a' ha'
      obtain ⟨hj, b, hmold, hbf, hbc⟩ := H.bdom j a' ha'
      exact ⟨hj, b, by rw [hALapp]; exact List.mem_append_left _ hmold, hbf, hbc⟩
    have hmR' : (r, bR) ∈ addrList (s.blocks ++ [(⟨SZ, false⟩ : Blk)]) heapBase := by
      rw [hALapp]
      exact List.mem_append_left _ hmR
    have hcf := @coalesce_mem_frame ⟨s.blocks ++ [(⟨SZ, false⟩ : Blk)], s.buckets,
      applyWrites s.mem
        [(heapEnd s - WSIZE, PACK SZ 0), (heapEnd s + SZ - DSIZE, PACK SZ 0),
         (heapEnd s + SZ - WSIZE, PACK 0 1)]⟩ s.blocks.length
      hlen hfree' hpos' hszmin' hbdom' r w bR hmR' hbR hw1 hw2
    rw [hcf]
    show applyWrites s.mem _ w = s.mem w
    refine applyWrites_eq_of_not_mem ?_ s.mem
    intro pv hpv
    simp only [List.mem_cons, List.not_mem_nil, or_false] at hpv
    have hbd := addrList_bounds hmR
    have hHE : heapEnd s = heapBase + sumSz s.blocks := rfl
    rcases hpv with rfl | rfl | rfl
    · show heapEnd s - WSIZE ≠ w
      omega
    · show heapEnd s + SZ - DSIZE ≠ w
      omega
    · show heapEnd s + SZ - WSIZE ≠ w
      omega

/-- `mm_malloc` never writes into the span of an existing allocated
block. -/
theorem mm_malloc_mem_frame {s : AState} (H : HeapInv s) (n : Nat) (ok : Bool)
    {r w : Nat} {bR : Blk}
    (hmR : (r, bR) ∈ addrList s.blocks heapBase) (hbR : bR.alloc = true)
    (hw1 : r - WSIZE ≤ w) (hw2 : w < r + bR.size - WSIZE) :
    (mm_malloc s n ok).1.mem w = s.mem w := by
  by_cases hn : n = 0
  · subst hn
    rfl
  · simp only [mm_malloc, if_neg hn]
    rcases hff : find_fit s (asizeOf n) with _ | bp
    · have hw4 : 4 ≤ max (asizeOf n) CHUNKSIZE / WSIZE := by
        have h1 : CHUNKSIZE ≤ max (asizeOf n) CHUNKSIZE := Nat.le_max_right _ _
        have h2 : CHUNKSIZE / WSIZE ≤ max (asizeOf n) CHUNKSIZE / WSIZE :=
          Nat.div_le_div_right h1
        have h3 : CHUNKSIZE / WSIZE = 512 := by decide
        omega
      obtain ⟨HE, hres⟩ := extend_heap_inv H hw4 ok
      have hm1 := extend_heap_preserves_alloc H hw4 ok r bR hmR hbR
      have hfrm := extend_heap_mem_frame H hw4 ok hmR hbR hw1 hw2
      rcases hex : extend_heap s (max (asizeOf n) CHUNKSIZE / WSIZE) ok with ⟨s1, rr⟩
      rw [hex] at HE hres hm1 hfrm
      rcases rr with _ | bp
      · exact hfrm
      · obtain ⟨b0, hment, hb0f, -⟩ := hres bp rfl
        rw [place_mem_frame HE hment hb0f (asizeOf_min n) hm1 hbR hw1 hw2]
        exact hfrm
    · obtain ⟨b0, hment, hb0f, -⟩ := find_fit_sound H hff
      exact place_mem_frame H hment hb0f (asizeOf_min n) hmR hbR hw1 hw2

theorem place_result {s : AState} (H : HeapInv s) {a0 asize : Nat} {b0 : Blk}
    (hmem : (a0, b0) ∈ addrList s.blocks heapBase) (hb0f : b0.alloc = false)
    (hle : asize ≤ b0.size) :
    ∃ bP : Blk, (a0, bP) ∈ addrList (place s a0 asize).blocks heapBase ∧
      bP.alloc = true ∧ asize ≤ bP.size := by
  obtain ⟨i, hidx, hbi⟩ := mem_idxFrom H.pos hmem
  subst hbi
  have hidx' : idxOf s.blocks a0 = some i := hidx
  obtain ⟨hi, -, haddr⟩ := idxFrom_mem hidx
  simp only [place, hidx']
  by_cases hsp : 2 * DSIZE ≤ (blkAt s.blocks i).size - asize
  · rw [if_pos hsp]
    refine ⟨⟨asize, true⟩, ?_, rfl, le_refl _⟩
    show (a0, (⟨asize, true⟩ : Blk)) ∈ addrList (s.blocks.take i ++ (⟨asize, true⟩ : Blk) ::
      (⟨(blkAt s.blocks i).size - asize, false⟩ : Blk) :: s.blocks.drop (i + 1)) heapBase
    rw [addrList_append]
    refine List.mem_append_right _ ?_
    rw [haddr]
    exact List.mem_cons_self _ _
  · rw [if_neg hsp]
    refine ⟨⟨(blkAt s.blocks i).size, true⟩, ?_, rfl, hle⟩
    show (a0, (⟨(blkAt s.blocks i).size, true⟩ : Blk)) ∈
      addrList (s.blocks.set i (⟨(blkAt s.blocks i).size, true⟩ : Blk)) heapBase
    rw [addrList_set hi]
    rw [show a0 = addrAt s.blocks i from haddr]
    exact List.mem_append_right _ (List.mem_cons_self _ _)

/-- A successful `mm_malloc` returns the payload address of an
allocated block at least as large as the adjusted request. -/
theorem mm_malloc_result {s : AState} (H : HeapInv s) {n : Nat} {ok : Bool} {r : Nat}
    (h : (mm_malloc s n ok).2 = some r) :
    ∃ bRes : Blk, (r, bRes) ∈ addrList (mm_malloc s n ok).1.blocks heapBase ∧
      bRes.alloc = true ∧ asizeOf n ≤ bRes.size := by
  by_cases hn : n = 0
  · subst hn
    simp only [mm_malloc, if_pos rfl] at h
    exact Option.noConfusion h
  · simp only [mm_malloc, if_neg hn] at h ⊢
    rcases hff : find_fit s (asizeOf n) with _ | bp
    · simp only [hff] at h ⊢
      have hw4 : 4 ≤ max (asizeOf n) CHUNKSIZE / WSIZE := by
        have h1 : CHUNKSIZE ≤ max (asizeOf n) CHUNKSIZE := Nat.le_max_right _ _
        have h2 : CHUNKSIZE / WSIZE ≤ max (asizeOf n) CHUNKSIZE / WSIZE :=
          Nat.div_le_div_right h1
        have h3 : CHUNKSIZE / WSIZE = 512 := by decide
        omega
      obtain ⟨HE, hres⟩ := extend_heap_inv H hw4 ok
      rcases hex : extend_heap s (max (asizeOf n) CHUNKSIZE / WSIZE) ok with ⟨s1, rr⟩
      rw [hex] at HE hres h
      rcases rr with _ | bp
      · exact Option.noConfusion h
      · cases h
        obtain ⟨b0, hment, hb0f, hble⟩ := hres r rfl
        have h8max : ALIGN_SIZE ∣ max (asizeOf n) CHUNKSIZE := by
          rcases max_choice (asizeOf n) CHUNKSIZE with h | h
          · rw [h]
            exact asizeOf_dvd n
          · rw [h]
            decide
        have hws8 : (max (asizeOf n) CHUNKSIZE / WSIZE) * WSIZE =
            max (asizeOf n) CHUNKSIZE := Nat.div_mul_cancel h8max
        have hgrow : asizeOf n ≤ (if (max (asizeOf n) CHUNKSIZE / WSIZE) % 2 = 1
            then ((max (asizeOf n) CHUNKSIZE / WSIZE) + 1) * WSIZE
            else (max (asizeOf n) CHUNKSIZE / WSIZE) * WSIZE) := by
          have hmaxle : asizeOf n ≤ max (asizeOf n) CHUNKSIZE := Nat.le_max_left _ _
          have hW8 : WSIZE = 8 := rfl
          rw [hW8] at hws8 ⊢
          split <;> omega
        exact place_result HE hment hb0f (le_trans hgrow hble)
    · simp only [hff] at h ⊢
      cases h
      obtain ⟨b0, hment, hb0f, hble⟩ := find_fit_sound H hff
      exact place_result H hment hb0f hble

/-- The address a successful `mm_malloc` returns was not the payload
address of an allocated block beforehand. -/
theorem mm_malloc_fresh {s : AState} (H : HeapInv s) {n : Nat} {ok : Bool} {r : Nat}
    (h : (mm_malloc s n ok).2 = some r) :
    ∀ b', (r, b') ∈ addrList s.blocks heapBase → b'.alloc = false := by
  intro b' hm'
  by_cases hn : n = 0
  · subst hn
    simp only [mm_malloc, if_pos rfl] at h
    exact Option.noConfusion h
  · simp only [mm_malloc, if_neg hn] at h
    rcases hff : find_fit s (asizeOf n) with _ | bp
    · simp only [hff] at h
      have hw4 : 4 ≤ max (asizeOf n) CHUNKSIZE / WSIZE := by
        have h1 : CHUNKSIZE ≤ max (asizeOf n) CHUNKSIZE := Nat.le_max_right _ _
        have h2 : CHUNKSIZE / WSIZE ≤ max (asizeOf n) CHUNKSIZE / WSIZE :=
          Nat.div_le_div_right h1
        have h3 : CHUNKSIZE / WSIZE = 512 := by decide
        omega
      obtain ⟨HE, hres⟩ := extend_heap_inv H hw4 ok
      have hkeep := extend_heap_preserves_alloc H hw4 ok r b' hm'
      rcases hex : extend_heap s (max (asizeOf n) CHUNKSIZE / WSIZE) ok with ⟨s1, rr⟩
      rw [hex] at HE hres h hkeep
      rcases rr with _ | bp
      · exact Option.noConfusion h
      · cases h
        obtain ⟨bM, hmM, hbMf, -⟩ := hres r rfl
        cases hb2 : b'.alloc with
        | false => rfl
        | true =>
          have heq := addrList_key_unique HE.pos (hkeep hb2) hmM
          rw [heq] at hb2
          rw [hbMf] at hb2
          exact Bool.noConfusion hb2
    · simp only [hff] at h
      cases h
      obtain ⟨b0, hment, hb0f, -⟩ := find_fit_sound H hff
      rw [addrList_key_unique H.pos hm' hment]
      exact hb0f

theorem sizeAtD_of_mem {s : AState} (hpos : ∀ b ∈ s.blocks, 0 < b.size) {a : Nat} {b : Blk}
    (hm : (a, b) ∈ addrList s.blocks heapBase) : sizeAtD s a = b.size := by
  obtain ⟨i, hi, hbi⟩ := mem_idxFrom hpos hm
  have hi' : idxOf s.blocks a = some i := hi
  simp only [sizeAtD, hi', hbi]

/-- C5 (corrected): for a valid allocated `ptr` whose adjusted request
exceeds the current block size, a successful `mm_realloc` returns a new
address `r` at which every word of the old block except the final
copied one (the word at byte offset `oldsize - WSIZE`, which `memcpy`
reads *after* the internal allocation may have rewritten the successor
header it overlaps) holds the old content: the first
`oldsize - WSIZE` bytes are preserved. -/
theorem realloc_preserves_leading_words (s : AState) (h : Reachable s) {a n : Nat}
    (hv : validPtr s (some a)) {ok : Bool} {s' : AState} {r : Nat}
    (hgrow : sizeAtD s a < asizeOf n)
    (hres : mm_realloc s (some a) n ok = (s', some r)) :
    ∀ k, WSIZE * k + 2 * WSIZE ≤ sizeAtD s a →
      s'.mem (r + WSIZE * k) = s.mem (a + WSIZE * k) := by
  have H := reachable_inv h
  have hW : WSIZE = 8 := rfl
  have hD : DSIZE = 16 := rfl
  have hv' : isValidAllocB s a = true := hv
  obtain ⟨bA, hmA, hbA⟩ := validAlloc_entry hv'
  have hszA : sizeAtD s a = bA.size := sizeAtD_of_mem H.pos hmA
  have hminA := H.szmin bA (addrList_mem_blk hmA)
  have hnn : n ≠ 0 := by
    intro h0
    subst h0
    have h32 : asizeOf 0 = 32 := rfl
    omega
  simp only [mm_realloc, if_neg hnn, Option.getD_some] at hres
  rw [if_neg (by omega : ¬ asizeOf n < sizeAtD s a)] at hres
  obtain ⟨H1, -⟩ := mm_malloc_inv H (2 * n) ok
  have hml2 := mm_malloc_preserves_alloc H (2 * n) ok a bA hmA hbA
  have hres2 := @mm_malloc_result s H (2 * n) ok r
  have hfresh2 := @mm_malloc_fresh s H (2 * n) ok r
  rcases hml : mm_malloc s (2 * n) ok with ⟨s1, rr⟩
  rw [hml] at hres H1 hml2 hres2 hfresh2
  rcases rr with _ | rr
  · exact absurd (congrArg Prod.snd hres) (by simp)
  · have hs' : s' = mm_free (memcpyWords s1 rr a (sizeAtD s a)) (some a) :=
      (congrArg Prod.fst hres).symm
    have hrr : rr = r := Option.some.inj (congrArg Prod.snd hres)
    subst hrr
    obtain ⟨bRes, hmres, hbres, hble⟩ := hres2 rfl
    have hfresh := hfresh2 rfl
    have hner : rr ≠ a := by
      rintro rfl
      rw [hfresh bA hmA] at hbA
      exact Bool.noConfusion hbA
    have hgrow2 : asizeOf n ≤ asizeOf (2 * n) := asizeOf_mono (by omega)
    have hsize_r : sizeAtD s a ≤ bRes.size := by omega
    intro k hk
    have h1 : s1.mem (a + WSIZE * k) = s.mem (a + WSIZE * k) := by
      have := mm_malloc_mem_frame H (2 * n) ok hmA hbA
        (show a - WSIZE ≤ a + WSIZE * k by omega)
        (show a + WSIZE * k < a + bA.size - WSIZE by omega)
      rw [hml] at this
      exact this
    have h2 : (memcpyWords s1 rr a (sizeAtD s a)).mem (rr + WSIZE * k) =
        s1.mem (a + WSIZE * k) := by
      refine memcpyWords_read ?_
      have hk1 : (k + 1) * WSIZE ≤ sizeAtD s a := by
        rw [Nat.add_mul, Nat.one_mul, Nat.mul_comm k WSIZE]
        omega
      have := (Nat.le_div_iff_mul_le (show 0 < WSIZE by omega)).mpr hk1
      omega
    have Hmc : HeapInv (memcpyWords s1 rr a (sizeAtD s a)) :=
      ⟨H1.sz8, H1.szmin, H1.noadj, H1.bdom, H1.cnt1⟩
    have hvamc : isValidAllocB (memcpyWords s1 rr a (sizeAtD s a)) a = true :=
      isValidAllocB_of_mem H1.pos hml2 hbA
    have hmresmc : (rr, bRes) ∈
        addrList (memcpyWords s1 rr a (sizeAtD s a)).blocks heapBase := hmres
    have h3 : (mm_free (memcpyWords s1 rr a (sizeAtD s a)) (some a)).mem
        (rr + WSIZE * k) = (memcpyWords s1 rr a (sizeAtD s a)).mem (rr + WSIZE * k) :=
      mm_free_mem_frame Hmc hvamc hmresmc hbres hner
        (show rr - WSIZE ≤ rr + WSIZE * k by omega)
        (show rr + WSIZE * k < rr + bRes.size - WSIZE by omega)
    rw [hs', h3, h2, h1]

theorem realloc_preserves_leading_words_witness :
    WSIZE * 0 + 2 * WSIZE ≤ sizeAtD sA 264 ∧
      (mm_realloc sA (some 264) 100 true).1.mem (296 + WSIZE * 0) =
        sA.mem (264 + WSIZE * 0) := by
  refine ⟨by decide, ?_⟩
  have h2 : (mm_realloc sA (some 264) 100 true).2 = some 296 := by decide
  have hpair : mm_realloc sA (some 264) 100 true =
      ((mm_realloc sA (some 264) 100 true).1, some 296) := by
    rw [← h2]
  exact realloc_preserves_leading_words sA
    (Reachable.mallocStep initState 1 true Reachable.init)
    (show isValidAllocB sA 264 = true by decide)
    (by decide)
    hpair 0 (by decide)
